import Mathlib

/-!
Louvain iteration engine (louvain.hpp): shallow embedding.

`GraphElem` (the 64-bit index type) is written `Int` and `GraphWeight` (the
real weight type) is written `ℚ`, so that all arithmetic is exact.  A
`std::vector`, or a raw pointer into one, is a total map from index to value
(`Int → α`); the stack arrays `clmap[32]` and `counter[32]` together with their
`int` sizes are the lists of their first `clmap_size` / `counter_size` entries.
A function that writes through its pointer arguments returns the new values.
The worker threads of one sweep are run one after the other, in thread order.
The `while(true)` loop of `louvainMethod` is run with fuel.

Rounding and overflow of `double` are not modelled: every statement on the
value of a weight, a gain or a modularity is a statement on the code run in
exact arithmetic.  The quotient `1.0 / localWeight` of
`calcConstantForSecondTerm` is the exact quotient; for `localWeight = 0` (where
the source yields an infinity) it is 0 here, and the statements on modularity
values assume a positive total weight.

The first part of the file holds the definitions, the second part the lemmas
and the theorems on the claims C1 to C20.
-/

namespace Louvain

/-- Modelled from the spec: the `Edge` record of graph.hpp, a per-edge
(target, weight) pair; only the fields `tail_` and `weight_` are used. -/
structure Edge where
  tail_ : Int
  weight_ : ℚ
deriving DecidableEq

/-- Modelled from the spec: the read-only `Graph` of graph.hpp, exposing the
vertex count, the per-vertex edge ranges (`edge_indices_`) and the edge list. -/
structure Graph where
  nv : Int
  edge_indices_ : Int → Int
  edge_list_ : Int → Edge

/-- The `struct Comm` of louvain.hpp. -/
structure Comm where
  size : Int
  degree : ℚ
deriving DecidableEq

/-- The default constructor `Comm() : size(0), degree(0.0)`. -/
def Comm.zero : Comm := ⟨0, 0⟩

/-- The `struct clmap_t` of louvain.hpp. -/
structure clmap_t where
  f : Int
  s : Int
deriving DecidableEq

/-- The capacity of `clmap`. -/
def CLMAP_MAX_NUM : Int := 32

/-- The capacity of `counter`. -/
def COUNT_MAX_NUM : Int := 32

/-- The index values of `for (i = a; i < b; i++)`. -/
def forRange (a b : Int) : List Int :=
  (List.range (b - a).toNat).map (fun (k : Nat) => a + (k : Int))

/-- Read `xs[i]` of a stack array given by its initialised prefix. -/
def getAt {α : Type} (xs : List α) (i : Int) (d : α) : α :=
  xs.getD i.toNat d

/-- Conversion from the weight type to the index type (double to integer):
truncation toward zero. -/
def truncToElem (w : ℚ) : Int := Int.tdiv w.num (w.den : Int)

/-- Modelled from the spec: `Graph::edge_range` of graph.hpp, the half-open
range of edge-list indices of vertex `i`. -/
def Graph.edge_range (g : Graph) (i : Int) : Int × Int :=
  (g.edge_indices_ i, g.edge_indices_ (i + 1))

/-- The edges `edge_list[e0], ..., edge_list[e1 - 1]`, in order. -/
def edgesOf (edge_list : Int → Edge) (e0 e1 : Int) : List Edge :=
  (forRange e0 e1).map edge_list

/-- Body of the outer loop of `sumVertexDegree` for vertex `i`. -/
def sumVertexDegreeStep (g : Graph)
    (p : (Int → ℚ) × (Int → Comm)) (i : Int) :
    (Int → ℚ) × (Int → Comm) :=
  let vi := (edgesOf g.edge_list_ (g.edge_range i).1 (g.edge_range i).2).foldl
    (fun acc edge => acc + edge.weight_) (p.1 i)
  (Function.update p.1 i vi, Function.update p.2 i ⟨1, vi⟩)

/-- Returns the new `(vDegree, localCinfo)`. -/
def sumVertexDegree (g : Graph) (vDegree : Int → ℚ)
    (localCinfo : Int → Comm) :
    (Int → ℚ) × (Int → Comm) :=
  (forRange 0 g.nv).foldl (sumVertexDegreeStep g) (vDegree, localCinfo)

/-- The vector `vDegree` has size `vsz`.  The quotient is exact (no rounding),
and is 0 when `localWeight` is 0. -/
def calcConstantForSecondTerm (vsz : Int) (vDegree : Int → ℚ) :
    ℚ :=
  let localWeight := (forRange 0 vsz).foldl (fun acc i => acc + vDegree i) 0
  1 / localWeight

/-- Both vectors have size `csz`. -/
def initComm (csz : Int) (pastComm currComm : Int → Int) :
    (Int → Int) × (Int → Int) :=
  (forRange 0 csz).foldl
    (fun p i => (Function.update p.1 i i, Function.update p.2 i i)) (pastComm, currComm)

/-- Loop state of `getMaxIndex`. -/
structure MaxState where
  maxIndex : Int
  maxGain : ℚ
  maxSize : Int
  eiy : ℚ
deriving DecidableEq

/-- One iteration of the `for` loop of `getMaxIndex` at table entry `e`. -/
def getMaxIndexStep (counter : List ℚ) (localCinfo : Int → Comm)
    (vDegree eix ax : ℚ) (currComm : Int) (constant : ℚ)
    (st : MaxState) (e : clmap_t) : MaxState :=
  if currComm ≠ e.f then
    let ay := (localCinfo e.f).degree
    let size := (localCinfo e.f).size
    let eiy := if e.s < (counter.length : Int) then getAt counter e.s 0 else st.eiy
    let curGain := 2 * (eiy - eix) - 2 * vDegree * (ay - ax) * constant
    if curGain > st.maxGain ∨
        (curGain = st.maxGain ∧ curGain ≠ 0 ∧ e.f < st.maxIndex) then
      ⟨e.f, curGain, size, eiy⟩
    else
      ⟨st.maxIndex, st.maxGain, st.maxSize, eiy⟩
  else st

/-- The state after the `for` loop of `getMaxIndex`. -/
def getMaxIndexLoop (clmap : List clmap_t) (counter : List ℚ)
    (selfLoop : ℚ) (localCinfo : Int → Comm) (vDegree : ℚ)
    (currSize : Int) (currDegree : ℚ) (currComm : Int)
    (constant : ℚ) : MaxState :=
  let eix := getAt counter 0 0 - selfLoop
  let ax := currDegree - vDegree
  clmap.foldl (getMaxIndexStep counter localCinfo vDegree eix ax currComm constant)
    ⟨currComm, 0, currSize, 0⟩

/-- The selection loop followed by the anti-oscillation guard of lines 152-154. -/
def getMaxIndex (clmap : List clmap_t) (counter : List ℚ)
    (selfLoop : ℚ) (localCinfo : Int → Comm) (vDegree : ℚ)
    (currSize : Int) (currDegree : ℚ) (currComm : Int)
    (constant : ℚ) : Int :=
  let st := getMaxIndexLoop clmap counter selfLoop localCinfo vDegree currSize
    currDegree currComm constant
  if st.maxSize = 1 ∧ currSize = 1 ∧ st.maxIndex > currComm then currComm
  else st.maxIndex

/-- Loop state of `buildLocalMapCounter`. -/
structure MapState where
  clmap : List clmap_t
  counter : List ℚ
  numUniqueClusters : Int
  selfLoop : ℚ
deriving DecidableEq

/-- One iteration of the edge loop of `buildLocalMapCounter`. -/
def buildLocalMapCounterStep (currComm : Int → Int) (vertex : Int)
    (st : MapState) (edge : Edge) : MapState :=
  let selfLoop := if edge.tail_ = vertex then st.selfLoop + edge.weight_ else st.selfLoop
  let tcomm := currComm edge.tail_
  let storedAlready := st.clmap.find? (fun e => decide (e.f = tcomm))
  match storedAlready with
  | some e =>
    if e.s < (st.counter.length : Int) then
      ⟨st.clmap, st.counter.set e.s.toNat (getAt st.counter e.s 0 + edge.weight_),
        st.numUniqueClusters, selfLoop⟩
    else
      ⟨if (st.clmap.length : Int) < CLMAP_MAX_NUM
          then st.clmap ++ [⟨tcomm, st.numUniqueClusters⟩] else st.clmap,
        if (st.counter.length : Int) < COUNT_MAX_NUM
          then st.counter ++ [edge.weight_] else st.counter,
        st.numUniqueClusters + 1, selfLoop⟩
  | none =>
    ⟨if (st.clmap.length : Int) < CLMAP_MAX_NUM
        then st.clmap ++ [⟨tcomm, st.numUniqueClusters⟩] else st.clmap,
      if (st.counter.length : Int) < COUNT_MAX_NUM
        then st.counter ++ [edge.weight_] else st.counter,
      st.numUniqueClusters + 1, selfLoop⟩

/-- The tables and the self-loop weight after `buildLocalMapCounter`, called
with the tables `clmap`, `counter`. -/
def buildLocalMapCounter (e0 e1 : Int) (clmap : List clmap_t)
    (counter : List ℚ) (edge_list : Int → Edge)
    (currComm : Int → Int) (vertex : Int) : MapState :=
  (edgesOf edge_list e0 e1).foldl (buildLocalMapCounterStep currComm vertex)
    ⟨clmap, counter, 1, 0⟩

/-- The arrays written during one sweep (`targetComm`, `localCupdate`,
`clusterWeight`); the other arguments of `execLouvainIteration` are read-only. -/
structure SweepState where
  targetComm : Int → Int
  localCupdate : Int → Comm
  clusterWeight : Int → ℚ

/-- The tables built for vertex `i` in `execLouvainIteration`: the pre-seeded
`clmap[0] = (cc, 0)`, `counter[0] = 0.0`, then `buildLocalMapCounter`. -/
def localTables (i : Int) (edge_indices : Int → Int)
    (edge_list : Int → Edge) (currComm : Int → Int) : MapState :=
  buildLocalMapCounter (edge_indices i) (edge_indices (i + 1)) [⟨currComm i, 0⟩] [0]
    edge_list currComm i

/-- The value of `localTarget` at line 249 of louvain.hpp.  The result of
`buildLocalMapCounter` is stored in the integer (`GraphElem`) variable `selfLoop`
(truncated) and converted back when passed to `getMaxIndex`. -/
def localTarget (i : Int) (edge_indices : Int → Int)
    (edge_list : Int → Edge) (currComm : Int → Int)
    (vDegree : Int → ℚ) (localCinfo : Int → Comm)
    (constantForSecondTerm : ℚ) : Int :=
  let cc := currComm i
  let ccDegree := (localCinfo cc).degree
  let ccSize := (localCinfo cc).size
  if edge_indices i ≠ edge_indices (i + 1) then
    let t := localTables i edge_indices edge_list currComm
    let selfLoop : Int := truncToElem t.selfLoop
    getMaxIndex t.clmap t.counter (selfLoop : ℚ) localCinfo (vDegree i)
      ccSize ccDegree cc constantForSecondTerm
  else cc

/-- The writes of `execLouvainIteration` for vertex `i`: `clusterWeight[i]`
(line 239), the pending deltas of `localCupdate` (lines 249-258) and
`targetComm[i]` (line 267). -/
def execLouvainIteration (i : Int) (edge_indices : Int → Int)
    (edge_list : Int → Edge) (currComm : Int → Int)
    (vDegree : Int → ℚ) (localCinfo : Int → Comm)
    (constantForSecondTerm : ℚ) (st : SweepState) : SweepState :=
  let cc := currComm i
  let clusterWeight :=
    if edge_indices i ≠ edge_indices (i + 1) then
      Function.update st.clusterWeight i (st.clusterWeight i +
        getAt (localTables i edge_indices edge_list currComm).counter 0 0)
    else st.clusterWeight
  let localTarget := localTarget i edge_indices edge_list currComm vDegree localCinfo
    constantForSecondTerm
  let localCupdate :=
    if localTarget ≠ cc ∧ localTarget ≠ -1 then
      let u := Function.update st.localCupdate localTarget
        ⟨(st.localCupdate localTarget).size + 1,
          (st.localCupdate localTarget).degree + vDegree i⟩
      Function.update u cc ⟨(u cc).size - 1, (u cc).degree - vDegree i⟩
    else st.localCupdate
  ⟨Function.update st.targetComm i localTarget, localCupdate, clusterWeight⟩

/-- The value `currMod` returned by `computeModularity`, in exact arithmetic
(the sums, the products and the difference are not rounded). -/
def computeModularity (g : Graph) (localCinfo : Int → Comm)
    (clusterWeight : Int → ℚ) (constantForSecondTerm : ℚ) :
    ℚ :=
  let le_xx := (forRange 0 g.nv).foldl (fun acc i => acc + clusterWeight i) 0
  let la2_x := (forRange 0 g.nv).foldl
    (fun acc i => acc + (localCinfo i).degree * (localCinfo i).degree) 0
  (le_xx * constantForSecondTerm) -
    (la2_x * constantForSecondTerm * constantForSecondTerm)

/-- The merge step: returns the new `localCinfo`. -/
def updateLocalCinfo (nv : Int) (localCinfo localCupdate : Int → Comm) :
    Int → Comm :=
  (forRange 0 nv).foldl
    (fun ci i => Function.update ci i
      ⟨(ci i).size + (localCupdate i).size, (ci i).degree + (localCupdate i).degree⟩)
    localCinfo

/-- Returns the cleaned `(clusterWeight, localCupdate)`. -/
def cleanCWandCU (nv : Int) (clusterWeight : Int → ℚ)
    (localCupdate : Int → Comm) : (Int → ℚ) × (Int → Comm) :=
  (forRange 0 nv).foldl
    (fun p i => (Function.update p.1 i 0, Function.update p.2 i ⟨0, 0⟩))
    (clusterWeight, localCupdate)

/-- The loop of `worker` over the chunk `[start, end_)`. -/
def worker (start end_ : Int) (edge_indices : Int → Int)
    (edge_list : Int → Edge) (currComm : Int → Int)
    (vDegree : Int → ℚ) (localCinfo : Int → Comm)
    (constantForSecondTerm : ℚ) (st : SweepState) : SweepState :=
  (forRange start end_).foldl
    (fun st i => execLouvainIteration i edge_indices edge_list currComm vDegree
      localCinfo constantForSecondTerm st) st

/-- The chunk bounds `(start, end)` of thread `i`, given the `start` left by
the threads before it (the body of the creation loop of `execLouvainParallel`). -/
def chunkEnd (n num_threads start i : Int) : Int :=
  let chunk_size := Int.tdiv n num_threads
  let remainder := Int.tmod n num_threads
  start + chunk_size + (if i < remainder then 1 else 0)

/-- The sweep: thread `i` runs `worker` on its chunk; the threads are run to
completion one after the other, in creation order. -/
def execLouvainParallel (n : Int) (edge_indices : Int → Int)
    (edge_list : Int → Edge) (currComm : Int → Int)
    (vDegree : Int → ℚ) (localCinfo : Int → Comm)
    (constantForSecondTerm : ℚ) (num_threads : Int)
    (st : SweepState) : SweepState :=
  ((forRange 0 num_threads).foldl
    (fun (p : Int × SweepState) i =>
      (chunkEnd n num_threads p.1 i,
        worker p.1 (chunkEnd n num_threads p.1 i) edge_indices edge_list currComm
          vDegree localCinfo constantForSecondTerm p.2))
    (0, st)).2

/-- The variables of `louvainMethod` that change in the convergence loop. -/
structure LouvainState where
  pastComm : Int → Int
  currComm : Int → Int
  targetComm : Int → Int
  clusterWeight : Int → ℚ
  localCinfo : Int → Comm
  localCupdate : Int → Comm
  prevMod : ℚ
  currMod : ℚ
  numIters : Int

/-- The vectors and the constant set up by `initLouvain`. -/
structure InitState where
  pastComm : Int → Int
  currComm : Int → Int
  vDegree : Int → ℚ
  clusterWeight : Int → ℚ
  localCinfo : Int → Comm
  localCupdate : Int → Comm
  constantForSecondTerm : ℚ

/-- The vectors are empty on entry; `resize(nv)` fills them with zeros (a
default-constructed `Comm` for `localCinfo`, `localCupdate`). -/
def initLouvain (g : Graph) : InitState :=
  { vDegree := (sumVertexDegree g (fun _ => 0) (fun _ => Comm.zero)).1
    localCinfo := (sumVertexDegree g (fun _ => 0) (fun _ => Comm.zero)).2
    constantForSecondTerm :=
      calcConstantForSecondTerm g.nv (sumVertexDegree g (fun _ => 0) (fun _ => Comm.zero)).1
    pastComm := (initComm g.nv (fun _ => 0) (fun _ => 0)).1
    currComm := (initComm g.nv (fun _ => 0) (fun _ => 0)).2
    clusterWeight := fun _ => 0
    localCupdate := fun _ => Comm.zero }

/-- The degrees `vDegree` computed by `initLouvain`. -/
def initVDegree (g : Graph) : Int → ℚ := (initLouvain g).vDegree

/-- The `constantForSecondTerm` computed by `initLouvain`. -/
def initConstant (g : Graph) : ℚ := (initLouvain g).constantForSecondTerm

/-- The state of `louvainMethod` when the convergence loop is entered (lines
378-386): `prevMod = lower`, `currMod = -1.0`, `numIters = 0`, the vectors set
by `initLouvain`, `targetComm` resized to `nv`. -/
def loopEntry (g : Graph) (lower : ℚ) : LouvainState :=
  { pastComm := (initLouvain g).pastComm
    currComm := (initLouvain g).currComm
    targetComm := fun _ => 0
    clusterWeight := (initLouvain g).clusterWeight
    localCinfo := (initLouvain g).localCinfo
    localCupdate := (initLouvain g).localCupdate
    prevMod := lower
    currMod := -1
    numIters := 0 }

/-- Lines 409-427 of louvain.hpp: one pass up to and including the
computation of `currMod`. -/
def passBody (g : Graph) (vDegree : Int → ℚ)
    (constantForSecondTerm : ℚ) (numThreads : Int)
    (s : LouvainState) : LouvainState :=
  let cl := cleanCWandCU g.nv s.clusterWeight s.localCupdate
  let sw := execLouvainParallel g.nv g.edge_indices_ g.edge_list_ s.currComm vDegree
    s.localCinfo constantForSecondTerm numThreads ⟨s.targetComm, cl.2, cl.1⟩
  let localCinfo := updateLocalCinfo g.nv s.localCinfo sw.localCupdate
  { s with
    numIters := s.numIters + 1
    targetComm := sw.targetComm
    clusterWeight := sw.clusterWeight
    localCupdate := sw.localCupdate
    localCinfo := localCinfo
    currMod := computeModularity g localCinfo sw.clusterWeight constantForSecondTerm }

/-- Lines 436-447 of louvain.hpp: accept the pass (`prevMod`, clamped below
by `lower`) and rotate the assignment arrays. -/
def passCommit (g : Graph) (lower : ℚ) (s : LouvainState) : LouvainState :=
  let prevMod := if s.currMod < lower then lower else s.currMod
  let r := (forRange 0 g.nv).foldl
    (fun (p : (Int → Int) × (Int → Int) × (Int → Int)) i =>
      (Function.update p.1 i (p.2.1 i), Function.update p.2.1 i (p.2.2 i),
        Function.update p.2.2 i (p.1 i)))
    (s.pastComm, s.currComm, s.targetComm)
  { s with prevMod := prevMod, pastComm := r.1, currComm := r.2.1, targetComm := r.2.2 }

/-- The `while(true)` loop of `louvainMethod`, run for at most `fuel` passes:
the state at the `break`, or `none` when no pass among the first `fuel` breaks. -/
def louvainLoop (g : Graph) (vDegree : Int → ℚ)
    (constantForSecondTerm lower thresh : ℚ) (numThreads : Int) :
    Nat → LouvainState → Option LouvainState
  | 0, _ => none
  | fuel + 1, s =>
    let s1 := passBody g vDegree constantForSecondTerm numThreads s
    if s1.currMod - s1.prevMod < thresh then some s1
    else louvainLoop g vDegree constantForSecondTerm lower thresh numThreads fuel
      (passCommit g lower s1)

/-- The result of `louvainMethod`: the returned `prevMod`, the value written
to `iters`, and the final state (for inspection of `currComm`). -/
def louvainMethod (g : Graph) (lower thresh : ℚ) (numThreads : Int)
    (fuel : Nat) : Option (ℚ × Int × LouvainState) :=
  (louvainLoop g (initVDegree g) (initConstant g) lower thresh numThreads fuel
    (loopEntry g lower)).map (fun s => (s.prevMod, s.numIters, s))

/-- The graph with `nv` vertices whose edge ranges and edges are given by lists. -/
def Graph.ofLists (nv : Int) (edge_indices : List Int) (edge_list : List Edge) :
    Graph :=
  ⟨nv, fun i => getAt edge_indices i 0, fun k => getAt edge_list k ⟨0, 0⟩⟩

/-- The 4-vertex graph of two disjoint undirected unit edges 0-1 and 2-3,
each stored in both directions. -/
def twoEdges : Graph :=
  Graph.ofLists 4 [0, 1, 2, 3, 4] [⟨1, 1⟩, ⟨0, 1⟩, ⟨3, 1⟩, ⟨2, 1⟩]

/-- The 2-vertex graph of one undirected unit edge 0-1. -/
def oneEdge : Graph := Graph.ofLists 2 [0, 1, 2] [⟨1, 1⟩, ⟨0, 1⟩]

/-- The values of `curGain` computed at line 142 of louvain.hpp, in table
order: one pair `(community, curGain)` for every entry of `clmap` that is not
the current community; `eiy` is the value the variable holds on entry. -/
def candidateGains (counter : List ℚ) (localCinfo : Int → Comm)
    (vDegree eix ax : ℚ) (currComm : Int) (constant : ℚ) :
    ℚ → List clmap_t → List (Int × ℚ)
  | _, [] => []
  | eiy, e :: rest =>
    if currComm ≠ e.f then
      ((e.f, 2 * ((if e.s < (counter.length : Int) then getAt counter e.s 0 else eiy) - eix)
          - 2 * vDegree * ((localCinfo e.f).degree - ax) * constant) ::
        candidateGains counter localCinfo vDegree eix ax currComm constant
          (if e.s < (counter.length : Int) then getAt counter e.s 0 else eiy) rest)
    else candidateGains counter localCinfo vDegree eix ax currComm constant eiy rest

/-- The candidates and gains seen by `getMaxIndex` on its arguments. -/
def gainsOf (clmap : List clmap_t) (counter : List ℚ)
    (selfLoop : ℚ) (localCinfo : Int → Comm) (vDegree : ℚ)
    (currDegree : ℚ) (currComm : Int) (constant : ℚ) :
    List (Int × ℚ) :=
  candidateGains counter localCinfo vDegree (getAt counter 0 0 - selfLoop)
    (currDegree - vDegree) currComm constant 0 clmap

/-- Invariant of the selection loop: `st` is the loop state after the entries
whose gains are `G`. -/
def MaxInv (localCinfo : Int → Comm) (currSize currComm : Int)
    (st : MaxState) (G : List (Int × ℚ)) : Prop :=
  (st.maxIndex = currComm ∧ st.maxGain = 0 ∧ st.maxSize = currSize ∧
      ∀ p ∈ G, p.2 ≤ 0) ∨
  ((st.maxIndex, st.maxGain) ∈ G ∧ 0 < st.maxGain ∧ st.maxIndex ≠ currComm ∧
      st.maxSize = (localCinfo st.maxIndex).size ∧
      (∀ p ∈ G, p.2 ≤ st.maxGain) ∧ ∀ p ∈ G, p.2 = st.maxGain → st.maxIndex ≤ p.1)

/-- The 8-vertex star: vertex 0 joined to vertices 3 and 7 by unit edges, each
stored in both directions. -/
def starGraph : Graph :=
  Graph.ofLists 8 [0, 2, 2, 2, 3, 3, 3, 3, 4] [⟨3, 1⟩, ⟨7, 1⟩, ⟨0, 1⟩, ⟨0, 1⟩]

/-- The aggregates in which every community has size 1 and degree 2. -/
def unitInfo : Int → Comm := fun _ => ⟨1, 2⟩

/-- The sum of the weights of the edges in the edge range of vertex `i`. -/
def edgeWeightSum (g : Graph) (i : Int) : ℚ :=
  ((edgesOf g.edge_list_ (g.edge_indices_ i) (g.edge_indices_ (i + 1))).map Edge.weight_).sum

/-- The size delta that the move of one vertex from community `cc` to target `t`
contributes to the pending update of community `c` (lines 249-258). -/
def sizeDelta (t cc c : Int) : Int :=
  if t ≠ cc ∧ t ≠ -1 then (if c = t then 1 else 0) - (if c = cc then 1 else 0) else 0

/-- The degree delta that the move of one vertex of degree `vd` from community
`cc` to target `t` contributes to the pending update of community `c`. -/
def degreeDelta (t cc c : Int) (vd : ℚ) : ℚ :=
  if t ≠ cc ∧ t ≠ -1 then (if c = t then vd else 0) - (if c = cc then vd else 0) else 0

/-- The amount added to `clusterWeight[i]` by `execLouvainIteration`:
`counter[0]` when the vertex has edges, nothing otherwise. -/
def counter0 (i : Int) (edge_indices : Int → Int) (edge_list : Int → Edge)
    (currComm : Int → Int) : ℚ :=
  if edge_indices i ≠ edge_indices (i + 1) then
    getAt (localTables i edge_indices edge_list currComm).counter 0 0
  else 0

/-- The `start` of thread `k` in `execLouvainParallel`. -/
def chunkStart (n num_threads : Int) : Nat → Int
  | 0 => 0
  | k + 1 => chunkEnd n num_threads (chunkStart n num_threads k) k

/-- The state of `louvainMethod` at the start of pass `k + 1`, the loop not
having stopped in the passes `1, ..., k`. -/
def stateAt (g : Graph) (lower : ℚ) (numThreads : Int) : Nat → LouvainState
  | 0 => loopEntry g lower
  | k + 1 => passCommit g lower
      (passBody g (initVDegree g) (initConstant g) numThreads (stateAt g lower numThreads k))

/-- The state of `louvainMethod` at the exit test (line 432) of pass `k + 1`. -/
def bodyAt (g : Graph) (lower : ℚ) (numThreads : Int) (k : Nat) : LouvainState :=
  passBody g (initVDegree g) (initConstant g) numThreads (stateAt g lower numThreads k)

/-- The modularity `currMod` computed in pass `k + 1`. -/
def currModAt (g : Graph) (lower : ℚ) (numThreads : Int) (k : Nat) : ℚ :=
  (bodyAt g lower numThreads k).currMod

/-- The value of `prevMod` during pass `k + 1`. -/
def prevModAt (g : Graph) (lower : ℚ) (numThreads : Int) (k : Nat) : ℚ :=
  (stateAt g lower numThreads k).prevMod

/-- The exit test `currMod - prevMod < thresh` of line 432 succeeds in pass `k + 1`. -/
def haltsAt (g : Graph) (lower thresh : ℚ) (numThreads : Int) (k : Nat) : Prop :=
  currModAt g lower numThreads k - prevModAt g lower numThreads k < thresh

/-- Every edge of every vertex has its endpoint among the vertices `0, ..., nv - 1`. -/
def Graph.EndpointsInRange (g : Graph) : Prop :=
  ∀ i : Int, 0 ≤ i → i < g.nv →
    ∀ e ∈ edgesOf g.edge_list_ (g.edge_indices_ i) (g.edge_indices_ (i + 1)),
      0 ≤ e.tail_ ∧ e.tail_ < g.nv

/-- Every edge of every vertex has a non-negative weight. -/
def Graph.NonnegWeights (g : Graph) : Prop :=
  ∀ i : Int, 0 ≤ i → i < g.nv →
    ∀ e ∈ edgesOf g.edge_list_ (g.edge_indices_ i) (g.edge_indices_ (i + 1)),
      0 ≤ e.weight_

/-- The sum of `vDegree[i]` over all vertices. -/
def totalDegree (g : Graph) : ℚ := ((forRange 0 g.nv).map (initVDegree g)).sum

/-- The sum of `size` over the community ids `0, ..., nv - 1`. -/
def sumSize (nv : Int) (info : Int → Comm) : Int :=
  ((forRange 0 nv).map (fun c => (info c).size)).sum

/-- The sum of `degree` over the community ids `0, ..., nv - 1`. -/
def sumDegree (nv : Int) (info : Int → Comm) : ℚ :=
  ((forRange 0 nv).map (fun c => (info c).degree)).sum

/-- The aggregates `localCinfo` match the membership given by `currComm` on the
vertices and communities `0, ..., n - 1`, and every community id is in range. -/
def PassInv (g : Graph) (n : Nat) (s : LouvainState) : Prop :=
  (∀ v : Int, 0 ≤ v → v < n → 0 ≤ s.currComm v ∧ s.currComm v < n) ∧
  (∀ k : Int, 0 ≤ k → k < n →
    (s.localCinfo k).size =
      ∑ v in Finset.range n, (if s.currComm v = k then (1 : Int) else 0) ∧
    (s.localCinfo k).degree =
      ∑ v in Finset.range n, (if s.currComm v = k then initVDegree g v else 0))

/-- The distinct elements of a list, in order of first appearance. -/
def firstSeen (l : List Int) : List Int :=
  l.foldl (fun acc x => if x ∈ acc then acc else acc ++ [x]) []

/-- The current communities of the endpoints of `edges` that differ from the
vertex's own community `cc`, in edge order. -/
def otherComms (currComm : Int → Int) (cc : Int) (edges : List Edge) : List Int :=
  (edges.map (fun e => currComm e.tail_)).filter (fun c => decide (c ≠ cc))

/-- The sum of the weights of the edges whose endpoint's current community is `f`. -/
def weightInto (currComm : Int → Int) (f : Int) (edges : List Edge) : ℚ :=
  ((edges.filter (fun e => decide (currComm e.tail_ = f))).map Edge.weight_).sum

/-- The sum of the weights of the edges whose endpoint is `vertex` itself. -/
def selfLoopWeight (vertex : Int) (edges : List Edge) : ℚ :=
  ((edges.filter (fun e => decide (e.tail_ = vertex))).map Edge.weight_).sum

/-- The tables after `buildLocalMapCounter` over the edges `edges` of `vertex`,
started from the pre-seeded state of `execLouvainIteration`
(`clmap[0] = (cc, 0)`, `counter[0] = 0.0`, both sizes 1). -/
def buildFrom (currComm : Int → Int) (vertex : Int) (edges : List Edge) : MapState :=
  edges.foldl (buildLocalMapCounterStep currComm vertex)
    ⟨[⟨currComm vertex, 0⟩], [0], 1, 0⟩

/-- The state `st` of `buildLocalMapCounter` after the edges `es` of a vertex of
community `cc`: the table lists `cc` and then the first 31 other communities in
order of first appearance, entry `k` has slot `k`, every counter holds the
weight into its community, and `numUniqueClusters` is the table size while the
table is not full. -/
def TableInv (currComm : Int → Int) (vertex cc : Int) (es : List Edge) (st : MapState) :
    Prop :=
  st.clmap.map clmap_t.f = cc :: (firstSeen (otherComms currComm cc es)).take 31 ∧
  st.clmap.map clmap_t.s = (List.range st.clmap.length).map (fun (k : Nat) => (k : Int)) ∧
  st.counter = st.clmap.map (fun e => weightInto currComm e.f es) ∧
  st.selfLoop = selfLoopWeight vertex es ∧
  (st.clmap.length < 32 → st.numUniqueClusters = (st.clmap.length : Int))

/-- The gain formula in the words of the spec (section 4.2):
`2*(e_to_candidate - e_to_current) - 2*vDegree*(degree_candidate - degree_current)*constant`. -/
def specGain (e_to_candidate e_to_current vDegree degree_candidate degree_current
    constant : ℚ) : ℚ :=
  2 * (e_to_candidate - e_to_current) -
    2 * vDegree * (degree_candidate - degree_current) * constant

/-- The 2-vertex graph with the edge 0-1 of weight 1/4 (stored in both
directions) and a self-loop of weight 1/2 at vertex 1. -/
def halfLoopGraph : Graph :=
  Graph.ofLists 2 [0, 1, 3] [⟨1, 1 / 4⟩, ⟨1, 1 / 2⟩, ⟨0, 1 / 4⟩]

/-- The 33-vertex hub graph: vertex 32 is joined to each of the vertices
`0, ..., 30` by an edge of weight 1 and to vertex 31 by an edge of weight 2,
every edge stored in both directions.  The edge range of vertex 32 lists the
edge to 31 first when `hubFirst` is set, and last otherwise. -/
def wideGraph (hubFirst : Bool) : Graph :=
  Graph.ofLists 33 ((List.range 33).map (fun (k : Nat) => (k : Int)) ++ [64])
    ((List.range 31).map (fun (_ : Nat) => (⟨32, 1⟩ : Edge)) ++ [⟨32, 2⟩] ++
      (if hubFirst then
        (⟨31, 2⟩ : Edge) :: (List.range 31).map (fun (k : Nat) => (⟨(k : Int), 1⟩ : Edge))
      else (List.range 31).map (fun (k : Nat) => (⟨(k : Int), 1⟩ : Edge)) ++ [⟨31, 2⟩]))

/-- The gain formula of the spec at a table entry `e`: `e_to_candidate` is the
counter of the entry, `e_to_current = counter[0] - selfLoop`, `degree_candidate`
is the aggregate degree of the entry's community; `degree_current` is left as
an argument. -/
def specGainAt (counter : List ℚ) (selfLoop : ℚ) (localCinfo : Int → Comm)
    (vDegree degree_current constant : ℚ) (e : clmap_t) : ℚ :=
  specGain (getAt counter e.s 0) (getAt counter 0 0 - selfLoop) vDegree
    (localCinfo e.f).degree degree_current constant

/-- The 2-vertex graph with the edge 0-1 of weight 1 (stored in both
directions) and a self-loop of weight 1 at each vertex. -/
def loopPairGraph : Graph :=
  Graph.ofLists 2 [0, 2, 4] [⟨0, 1⟩, ⟨1, 1⟩, ⟨0, 1⟩, ⟨1, 1⟩]

end Louvain

namespace Louvain

/-! ## Loops over index ranges -/

theorem mem_forRange (a b x : Int) : x ∈ forRange a b ↔ a ≤ x ∧ x < b := by
  unfold forRange
  simp only [List.mem_map, List.mem_range]
  constructor
  · rintro ⟨k, hk, rfl⟩
    omega
  · rintro ⟨h1, h2⟩
    exact ⟨(x - a).toNat, by omega, by omega⟩

theorem forRange_append (a m b : Int) (h1 : a ≤ m) (h2 : m ≤ b) :
    forRange a b = forRange a m ++ forRange m b := by
  unfold forRange
  obtain ⟨p, hp⟩ := Int.eq_ofNat_of_zero_le (sub_nonneg.2 h1)
  obtain ⟨q, hq⟩ := Int.eq_ofNat_of_zero_le (sub_nonneg.2 h2)
  have hb : b - a = ((p + q : Nat) : Int) := by push_cast; omega
  rw [hb, hp, hq]
  simp only [Int.toNat_ofNat]
  rw [List.range_add, List.map_append, List.map_map]
  congr 1
  apply List.map_congr_left
  intro k _
  simp only [Function.comp]
  push_cast
  omega

theorem forRange_zero_succ (n : Nat) :
    forRange 0 ((n : Int) + 1) = forRange 0 n ++ [(n : Int)] := by
  rw [forRange_append 0 n (n + 1) (by omega) (by omega)]
  congr 1
  unfold forRange
  have : ((n : Int) + 1 - n).toNat = 1 := by omega
  rw [this]
  simp [List.range_succ]

theorem forRange_zero_zero : forRange 0 ((0 : Nat) : Int) = [] := by
  simp [forRange]

theorem forRange_nil (a b : Int) (h : b ≤ a) : forRange a b = [] := by
  unfold forRange
  have : (b - a).toNat = 0 := by omega
  rw [this]; rfl

theorem foldl_add_eq_sum {α : Type} (f : α → ℚ) (l : List α) :
    ∀ a : ℚ, l.foldl (fun acc i => acc + f i) a = a + (l.map f).sum := by
  induction l with
  | nil => intro a; simp
  | cons x xs ih => intro a; simp [ih, add_assoc]

theorem sum_forRange (f : Int → ℚ) (n : Nat) :
    ((forRange 0 n).map f).sum = ∑ k in Finset.range n, f k := by
  induction n with
  | zero => simp [forRange]
  | succ n ih =>
    have : ((n + 1 : Nat) : Int) = (n : Int) + 1 := by push_cast; rfl
    rw [this, forRange_zero_succ, List.map_append, List.sum_append, ih, Finset.sum_range_succ]
    simp

theorem sum_forRange_int (f : Int → Int) (n : Nat) :
    ((forRange 0 n).map f).sum = ∑ k in Finset.range n, f k := by
  induction n with
  | zero => simp [forRange]
  | succ n ih =>
    have : ((n + 1 : Nat) : Int) = (n : Int) + 1 := by push_cast; rfl
    rw [this, forRange_zero_succ, List.map_append, List.sum_append, ih, Finset.sum_range_succ]
    simp

theorem foldl_update_forRange {α : Type} (h : Int → α → α) (n : Nat) (f0 : Int → α) :
    (forRange 0 n).foldl (fun f i => Function.update f i (h i (f i))) f0 =
      fun (j : Int) => if 0 ≤ j ∧ j < (n : Int) then h j (f0 j) else f0 j := by
  induction n with
  | zero =>
    funext j
    have : ¬ (0 ≤ j ∧ j < 0) := by omega
    simp [forRange, this]
  | succ n ih =>
    have hc : ((n + 1 : Nat) : Int) = (n : Int) + 1 := by push_cast; rfl
    rw [hc, forRange_zero_succ, List.foldl_append, ih]
    simp only [List.foldl_cons, List.foldl_nil]
    funext j
    by_cases hj : j = n
    · subst hj
      have h1 : ¬ (0 ≤ (n : Int) ∧ (n : Int) < n) := by omega
      have h2 : (0 ≤ (n : Int) ∧ (n : Int) < n + 1) := by omega
      simp only [Function.update_same, if_neg h1, if_pos h2]
    · rw [Function.update_noteq hj]
      by_cases h1 : 0 ≤ j ∧ j < n
      · have h2 : 0 ≤ j ∧ j < n + 1 := by omega
        simp only [if_pos h1, if_pos h2]
      · have h2 : ¬ (0 ≤ j ∧ j < n + 1) := by omega
        simp only [if_neg h1, if_neg h2]

theorem foldl_prod_mk {α β ι : Type} (F : α → ι → α) (G : β → ι → β) (l : List ι) :
    ∀ (a : α) (b : β),
      l.foldl (fun p i => (F p.1 i, G p.2 i)) (a, b) = (l.foldl F a, l.foldl G b) := by
  induction l with
  | nil => intro a b; rfl
  | cons x xs ih => intro a b; simp only [List.foldl_cons]; exact ih _ _

theorem initComm_eq (n : Nat) (pastComm currComm : Int → Int) :
    initComm n pastComm currComm =
      (fun (j : Int) => if 0 ≤ j ∧ j < (n : Int) then j else pastComm j,
        fun (j : Int) => if 0 ≤ j ∧ j < (n : Int) then j else currComm j) := by
  unfold initComm
  rw [foldl_prod_mk (fun f i => Function.update f i i) (fun f i => Function.update f i i)]
  rw [foldl_update_forRange (fun i _ => i) n pastComm,
    foldl_update_forRange (fun i _ => i) n currComm]

theorem cleanCWandCU_eq (n : Nat) (clusterWeight : Int → ℚ) (localCupdate : Int → Comm) :
    cleanCWandCU n clusterWeight localCupdate =
      (fun (j : Int) => if 0 ≤ j ∧ j < (n : Int) then 0 else clusterWeight j,
        fun (j : Int) => if 0 ≤ j ∧ j < (n : Int) then ⟨0, 0⟩ else localCupdate j) := by
  unfold cleanCWandCU
  rw [foldl_prod_mk (fun f i => Function.update f i (0 : ℚ))
    (fun f i => Function.update f i (⟨0, 0⟩ : Comm))]
  rw [foldl_update_forRange (fun _ _ => (0 : ℚ)) n clusterWeight,
    foldl_update_forRange (fun _ _ => (⟨0, 0⟩ : Comm)) n localCupdate]

theorem updateLocalCinfo_eq (n : Nat) (localCinfo localCupdate : Int → Comm) :
    updateLocalCinfo n localCinfo localCupdate =
      fun (j : Int) => if 0 ≤ j ∧ j < (n : Int) then
        ⟨(localCinfo j).size + (localCupdate j).size,
          (localCinfo j).degree + (localCupdate j).degree⟩
      else localCinfo j := by
  unfold updateLocalCinfo
  exact foldl_update_forRange
    (fun i x => ⟨x.size + (localCupdate i).size, x.degree + (localCupdate i).degree⟩) n localCinfo

theorem rotate_eq (n : Nat) (past curr target : Int → Int) :
    (forRange 0 n).foldl
      (fun (p : (Int → Int) × (Int → Int) × (Int → Int)) i =>
        (Function.update p.1 i (p.2.1 i), Function.update p.2.1 i (p.2.2 i),
          Function.update p.2.2 i (p.1 i)))
      (past, curr, target) =
    (fun (j : Int) => if 0 ≤ j ∧ j < (n : Int) then curr j else past j,
      fun (j : Int) => if 0 ≤ j ∧ j < (n : Int) then target j else curr j,
      fun (j : Int) => if 0 ≤ j ∧ j < (n : Int) then past j else target j) := by
  induction n with
  | zero =>
    have : ∀ j : Int, ¬ (0 ≤ j ∧ j < 0) := by intro j; omega
    simp [forRange, this]
  | succ n ih =>
    have hc : ((n + 1 : Nat) : Int) = (n : Int) + 1 := by push_cast; rfl
    rw [hc, forRange_zero_succ, List.foldl_append, ih]
    simp only [List.foldl_cons, List.foldl_nil]
    have h1 : ¬ (0 ≤ (n : Int) ∧ (n : Int) < n) := by omega
    refine Prod.ext ?_ (Prod.ext ?_ ?_) <;> funext j <;> simp only [if_neg h1] <;>
    · by_cases hj : j = n
      · subst hj
        have h2 : (0 ≤ (n : Int) ∧ (n : Int) < n + 1) := by omega
        simp only [Function.update_same, if_pos h2]
      · rw [Function.update_noteq hj]
        by_cases h1 : 0 ≤ j ∧ j < n
        · have h2 : 0 ≤ j ∧ j < n + 1 := by omega
          simp only [if_pos h1, if_pos h2]
        · have h2 : ¬ (0 ≤ j ∧ j < n + 1) := by omega
          simp only [if_neg h1, if_neg h2]

theorem sumVertexDegree_eq (g : Graph) (n : Nat) (hn : g.nv = n) (vDegree : Int → ℚ)
    (localCinfo : Int → Comm) :
    sumVertexDegree g vDegree localCinfo =
      (fun (j : Int) => if 0 ≤ j ∧ j < (n : Int) then vDegree j + edgeWeightSum g j else vDegree j,
        fun (j : Int) => if 0 ≤ j ∧ j < (n : Int) then ⟨1, vDegree j + edgeWeightSum g j⟩
          else localCinfo j) := by
  unfold sumVertexDegree
  rw [hn]
  clear hn
  induction n with
  | zero =>
    have : ∀ j : Int, ¬ (0 ≤ j ∧ j < 0) := by intro j; omega
    simp [forRange, this]
  | succ n ih =>
    have hc : ((n + 1 : Nat) : Int) = (n : Int) + 1 := by push_cast; rfl
    rw [hc, forRange_zero_succ, List.foldl_append, ih]
    simp only [List.foldl_cons, List.foldl_nil, sumVertexDegreeStep, Graph.edge_range]
    have h1 : ¬ (0 ≤ (n : Int) ∧ (n : Int) < n) := by omega
    simp only [if_neg h1, foldl_add_eq_sum]
    refine Prod.ext ?_ ?_ <;> funext j <;>
    · by_cases hj : j = n
      · subst hj
        have h2 : (0 ≤ (n : Int) ∧ (n : Int) < n + 1) := by omega
        simp only [Function.update_same, if_pos h2, edgeWeightSum]
      · simp only [Function.update_noteq hj]
        by_cases h1 : 0 ≤ j ∧ j < n
        · have h2 : 0 ≤ j ∧ j < n + 1 := by omega
          simp only [if_pos h1, if_pos h2]
        · have h2 : ¬ (0 ≤ j ∧ j < n + 1) := by omega
          simp only [if_neg h1, if_neg h2]

/-! ## The selection loop of `getMaxIndex` -/

theorem maxInv_foldl (counter : List ℚ) (localCinfo : Int → Comm)
    (vDegree eix ax : ℚ) (currSize currComm : Int) (constant : ℚ)
    (clmap : List clmap_t) :
    ∀ (st : MaxState) (G : List (Int × ℚ)),
      MaxInv localCinfo currSize currComm st G →
      MaxInv localCinfo currSize currComm
        (clmap.foldl (getMaxIndexStep counter localCinfo vDegree eix ax currComm constant) st)
        (G ++ candidateGains counter localCinfo vDegree eix ax currComm constant st.eiy clmap) := by
  induction clmap with
  | nil => intro st G h; simpa [candidateGains] using h
  | cons e rest ih =>
    intro st G h
    rw [List.foldl_cons]
    by_cases hc : currComm = e.f
    · have h1 : getMaxIndexStep counter localCinfo vDegree eix ax currComm constant st e = st := by
        simp [getMaxIndexStep, hc]
      have h2 : candidateGains counter localCinfo vDegree eix ax currComm constant st.eiy
          (e :: rest) =
          candidateGains counter localCinfo vDegree eix ax currComm constant st.eiy rest := by
        simp [candidateGains, hc]
      rw [h1, h2]
      exact ih st G h
    · set eiy := (if e.s < (counter.length : Int) then getAt counter e.s 0 else st.eiy) with heiy
      set cur := 2 * (eiy - eix) - 2 * vDegree * ((localCinfo e.f).degree - ax) * constant
        with hcur
      have h2 : candidateGains counter localCinfo vDegree eix ax currComm constant st.eiy
          (e :: rest) = (e.f, cur) ::
          candidateGains counter localCinfo vDegree eix ax currComm constant eiy rest := by
        simp [candidateGains, hc, heiy, hcur]
      rw [h2]
      have happ : G ++ (e.f, cur) ::
          candidateGains counter localCinfo vDegree eix ax currComm constant eiy rest =
          (G ++ [(e.f, cur)]) ++
          candidateGains counter localCinfo vDegree eix ax currComm constant eiy rest := by
        simp
      rw [happ]
      by_cases hsel : cur > st.maxGain ∨ (cur = st.maxGain ∧ cur ≠ 0 ∧ e.f < st.maxIndex)
      · have h1 : getMaxIndexStep counter localCinfo vDegree eix ax currComm constant st e =
            ⟨e.f, cur, (localCinfo e.f).size, eiy⟩ := by
          simp only [getMaxIndexStep, if_pos hc, ← heiy, ← hcur]
          rw [if_pos hsel]
        rw [h1]
        refine ih ⟨e.f, cur, (localCinfo e.f).size, eiy⟩ (G ++ [(e.f, cur)]) ?_
        right
        rcases h with ⟨hi, hg, _, hall⟩ | ⟨hmem, hpos, hne, hsz, hall, hmin⟩
        · have hcpos : 0 < cur := by
            rcases hsel with h' | ⟨h', h'', _⟩
            · rw [hg] at h'; exact h'
            · rw [hg] at h'; exact absurd h' h''
          refine ⟨by simp, hcpos, fun h' => hc h'.symm, rfl, ?_, ?_⟩
          · intro p hp
            rcases List.mem_append.1 hp with hp | hp
            · exact le_trans (hall p hp) (le_of_lt hcpos)
            · simp at hp; subst hp; exact le_refl _
          · intro p hp hpe
            rcases List.mem_append.1 hp with hp | hp
            · have := hall p hp
              simp only at hpe
              linarith
            · simp at hp; subst hp; exact le_refl _
        · refine ⟨by simp, ?_, fun h' => hc h'.symm, rfl, ?_, ?_⟩
          · rcases hsel with h' | ⟨h', _, _⟩
            · exact lt_trans hpos h'
            · rw [h']; exact hpos
          · intro p hp
            rcases List.mem_append.1 hp with hp | hp
            · have := hall p hp
              rcases hsel with h' | ⟨h', _, _⟩
              · exact le_trans this (le_of_lt h')
              · simp only; rw [h']; exact this
            · simp at hp; subst hp; exact le_refl _
          · intro p hp hpe
            rcases List.mem_append.1 hp with hp | hp
            · have hle := hall p hp
              simp only at hpe
              rcases hsel with h' | ⟨h', _, hlt⟩
              · simp only at hle; linarith
              · have := hmin p hp (by rw [hpe, h'])
                exact le_trans (le_of_lt hlt) this
            · simp at hp; subst hp; exact le_refl _
      · have h1 : getMaxIndexStep counter localCinfo vDegree eix ax currComm constant st e =
            ⟨st.maxIndex, st.maxGain, st.maxSize, eiy⟩ := by
          simp only [getMaxIndexStep, if_pos hc, ← heiy, ← hcur]
          rw [if_neg hsel]
        rw [h1]
        refine ih ⟨st.maxIndex, st.maxGain, st.maxSize, eiy⟩ (G ++ [(e.f, cur)]) ?_
        push_neg at hsel
        obtain ⟨hle, htie⟩ := hsel
        rcases h with ⟨hi, hg, hs, hall⟩ | ⟨hmem, hpos, hne, hsz, hall, hmin⟩
        · left
          refine ⟨hi, hg, hs, ?_⟩
          intro p hp
          rcases List.mem_append.1 hp with hp | hp
          · exact hall p hp
          · simp at hp; subst hp; simp only; rw [hg] at hle; exact hle
        · right
          refine ⟨by simp [hmem], hpos, hne, hsz, ?_, ?_⟩
          · intro p hp
            rcases List.mem_append.1 hp with hp | hp
            · exact hall p hp
            · simp at hp; subst hp; exact hle
          · intro p hp hpe
            rcases List.mem_append.1 hp with hp | hp
            · exact hmin p hp hpe
            · simp at hp; subst hp
              simp only at hpe ⊢
              have := htie hpe (by rw [hpe]; exact ne_of_gt hpos)
              exact this

theorem maxInv_loop (clmap : List clmap_t) (counter : List ℚ)
    (selfLoop : ℚ) (localCinfo : Int → Comm) (vDegree : ℚ)
    (currSize : Int) (currDegree : ℚ) (currComm : Int)
    (constant : ℚ) :
    MaxInv localCinfo currSize currComm
      (getMaxIndexLoop clmap counter selfLoop localCinfo vDegree currSize currDegree
        currComm constant)
      (gainsOf clmap counter selfLoop localCinfo vDegree currDegree currComm constant) := by
  have h := maxInv_foldl counter localCinfo vDegree (getAt counter 0 0 - selfLoop)
    (currDegree - vDegree) currSize currComm constant clmap ⟨currComm, 0, currSize, 0⟩ []
    (Or.inl ⟨rfl, rfl, rfl, by simp⟩)
  simpa [getMaxIndexLoop, gainsOf] using h

theorem candidateGains_mem (counter : List ℚ) (localCinfo : Int → Comm)
    (vDegree eix ax : ℚ) (currComm : Int) (constant : ℚ)
    (clmap : List clmap_t) :
    ∀ (eiy : ℚ) (p : Int × ℚ),
      p ∈ candidateGains counter localCinfo vDegree eix ax currComm constant eiy clmap →
      ∃ e ∈ clmap, e.f = p.1 ∧ p.1 ≠ currComm := by
  induction clmap with
  | nil => intro eiy p hp; simp [candidateGains] at hp
  | cons e rest ih =>
    intro eiy p hp
    by_cases hc : currComm = e.f
    · simp only [candidateGains, hc, ne_eq, not_true_eq_false, if_false] at hp
      obtain ⟨e', he', h⟩ := ih eiy p (by simpa [hc] using hp)
      exact ⟨e', List.mem_cons_of_mem _ he', h⟩
    · simp only [candidateGains, ne_eq, hc, not_false_eq_true, if_true, List.mem_cons] at hp
      rcases hp with hp | hp
      · refine ⟨e, List.mem_cons_self _ _, ?_, ?_⟩
        · rw [hp]
        · rw [hp]; exact fun h => hc h.symm
      · obtain ⟨e', he', h⟩ := ih _ p hp
        exact ⟨e', List.mem_cons_of_mem _ he', h⟩

/-- The result of `getMaxIndex` is the loop's `maxIndex` unless the
anti-oscillation guard applies. -/
theorem getMaxIndex_eq (clmap : List clmap_t) (counter : List ℚ)
    (selfLoop : ℚ) (localCinfo : Int → Comm) (vDegree : ℚ)
    (currSize : Int) (currDegree : ℚ) (currComm : Int)
    (constant : ℚ) :
    getMaxIndex clmap counter selfLoop localCinfo vDegree currSize currDegree currComm
        constant = currComm ∨
    (getMaxIndex clmap counter selfLoop localCinfo vDegree currSize currDegree currComm
        constant =
      (getMaxIndexLoop clmap counter selfLoop localCinfo vDegree currSize currDegree
        currComm constant).maxIndex ∧
     ¬ ((getMaxIndexLoop clmap counter selfLoop localCinfo vDegree currSize currDegree
        currComm constant).maxSize = 1 ∧ currSize = 1 ∧
        (getMaxIndexLoop clmap counter selfLoop localCinfo vDegree currSize currDegree
        currComm constant).maxIndex > currComm)) := by
  unfold getMaxIndex
  by_cases h : (getMaxIndexLoop clmap counter selfLoop localCinfo vDegree currSize currDegree
        currComm constant).maxSize = 1 ∧ currSize = 1 ∧
        (getMaxIndexLoop clmap counter selfLoop localCinfo vDegree currSize currDegree
        currComm constant).maxIndex > currComm
  · left; simp only [if_pos h]
  · right; simp only [if_neg h]; exact ⟨trivial, h⟩

theorem getMaxIndex_mem (clmap : List clmap_t) (counter : List ℚ)
    (selfLoop : ℚ) (localCinfo : Int → Comm) (vDegree : ℚ)
    (currSize : Int) (currDegree : ℚ) (currComm : Int)
    (constant : ℚ) :
    getMaxIndex clmap counter selfLoop localCinfo vDegree currSize currDegree currComm
        constant = currComm ∨
    ∃ e ∈ clmap, e.f = getMaxIndex clmap counter selfLoop localCinfo vDegree currSize
        currDegree currComm constant := by
  rcases getMaxIndex_eq clmap counter selfLoop localCinfo vDegree currSize currDegree
    currComm constant with h | ⟨h, _⟩
  · exact Or.inl h
  · rcases maxInv_loop clmap counter selfLoop localCinfo vDegree currSize currDegree
      currComm constant with ⟨hi, _⟩ | ⟨hmem, _⟩
    · left; rw [h, hi]
    · right
      obtain ⟨e, he, hf, _⟩ := candidateGains_mem _ _ _ _ _ _ _ _ _ _ hmem
      exact ⟨e, he, by rw [h]; exact hf⟩

/-! ## The local table of `buildLocalMapCounter` -/

theorem buildStep_clmap (currComm : Int → Int) (vertex : Int)
    (st : MapState) (edge : Edge) :
    (buildLocalMapCounterStep currComm vertex st edge).clmap = st.clmap ∨
    (buildLocalMapCounterStep currComm vertex st edge).clmap =
      st.clmap ++ [⟨currComm edge.tail_, st.numUniqueClusters⟩] := by
  simp only [buildLocalMapCounterStep]
  generalize List.find? (fun e => decide (e.f = currComm edge.tail_)) st.clmap = r
  cases r with
  | none =>
    simp only
    split_ifs <;> simp
  | some e =>
    simp only
    split_ifs <;> simp

theorem buildStep_clmap_mem (currComm : Int → Int) (vertex : Int)
    (st : MapState) (edge : Edge) (e : clmap_t)
    (he : e ∈ (buildLocalMapCounterStep currComm vertex st edge).clmap) :
    e ∈ st.clmap ∨ e.f = currComm edge.tail_ := by
  rcases buildStep_clmap currComm vertex st edge with h | h
  · rw [h] at he; exact Or.inl he
  · rw [h] at he
    rcases List.mem_append.1 he with h' | h'
    · exact Or.inl h'
    · right; simp at h'; rw [h']

theorem buildFold_clmap_mem (currComm : Int → Int) (vertex : Int)
    (edges : List Edge) :
    ∀ (st : MapState) (e : clmap_t),
      e ∈ (edges.foldl (buildLocalMapCounterStep currComm vertex) st).clmap →
      e ∈ st.clmap ∨ ∃ edge ∈ edges, e.f = currComm edge.tail_ := by
  induction edges with
  | nil => intro st e he; exact Or.inl he
  | cons edge rest ih =>
    intro st e he
    rw [List.foldl_cons] at he
    rcases ih _ e he with h | ⟨edge', hm, h⟩
    · rcases buildStep_clmap_mem currComm vertex st edge e h with h | h
      · exact Or.inl h
      · exact Or.inr ⟨edge, List.mem_cons_self _ _, h⟩
    · exact Or.inr ⟨edge', List.mem_cons_of_mem _ hm, h⟩

/-- The decision for vertex `i` is its current community or the current
community of the endpoint of one of its edges. -/
theorem localTarget_mem (i : Int) (edge_indices : Int → Int)
    (edge_list : Int → Edge) (currComm : Int → Int)
    (vDegree : Int → ℚ) (localCinfo : Int → Comm)
    (c : ℚ) :
    localTarget i edge_indices edge_list currComm vDegree localCinfo c = currComm i ∨
    ∃ edge ∈ edgesOf edge_list (edge_indices i) (edge_indices (i + 1)),
      localTarget i edge_indices edge_list currComm vDegree localCinfo c =
        currComm edge.tail_ := by
  unfold localTarget
  by_cases h : edge_indices i ≠ edge_indices (i + 1)
  · simp only [if_pos h]
    rcases getMaxIndex_mem (localTables i edge_indices edge_list currComm).clmap
      (localTables i edge_indices edge_list currComm).counter
      ((truncToElem (localTables i edge_indices edge_list currComm).selfLoop : Int) :
        ℚ) localCinfo (vDegree i) (localCinfo (currComm i)).size
      (localCinfo (currComm i)).degree (currComm i) c with h1 | ⟨e, he, h1⟩
    · exact Or.inl h1
    · rcases buildFold_clmap_mem currComm i _ _ e he with h2 | ⟨edge, hm, h2⟩
      · left
        simp only [List.mem_singleton] at h2
        rw [← h1, h2]
      · right
        exact ⟨edge, hm, by rw [← h1, h2]⟩
  · simp only [if_neg h]; exact Or.inl trivial

/-! ## The sweep -/

theorem execLouvainIteration_eq (i : Int) (edge_indices : Int → Int)
    (edge_list : Int → Edge) (currComm : Int → Int) (vDegree : Int → ℚ)
    (localCinfo : Int → Comm) (c : ℚ) (st : SweepState) :
    (execLouvainIteration i edge_indices edge_list currComm vDegree localCinfo c
        st).targetComm =
      Function.update st.targetComm i
        (localTarget i edge_indices edge_list currComm vDegree localCinfo c) ∧
    (execLouvainIteration i edge_indices edge_list currComm vDegree localCinfo c
        st).clusterWeight =
      Function.update st.clusterWeight i
        (st.clusterWeight i + counter0 i edge_indices edge_list currComm) ∧
    (execLouvainIteration i edge_indices edge_list currComm vDegree localCinfo c
        st).localCupdate =
      fun k => ⟨(st.localCupdate k).size +
          sizeDelta (localTarget i edge_indices edge_list currComm vDegree localCinfo c)
            (currComm i) k,
        (st.localCupdate k).degree +
          degreeDelta (localTarget i edge_indices edge_list currComm vDegree localCinfo c)
            (currComm i) k (vDegree i)⟩ := by
  refine ⟨rfl, ?_, ?_⟩
  · simp only [execLouvainIteration, counter0]
    by_cases h : edge_indices i ≠ edge_indices (i + 1)
    · simp only [if_pos h]
    · simp only [if_neg h, add_zero, Function.update_eq_self]
  · simp only [execLouvainIteration, sizeDelta, degreeDelta]
    set t := localTarget i edge_indices edge_list currComm vDegree localCinfo c
    funext k
    by_cases h : t ≠ currComm i ∧ t ≠ -1
    · simp only [if_pos h]
      by_cases hk : k = currComm i
      · subst hk
        have hne : currComm i ≠ t := fun h' => h.1 h'.symm
        simp only [Function.update_same, Function.update_noteq hne, if_neg hne, if_true]
        congr 1; ring
      · rw [Function.update_noteq hk]
        by_cases hk' : k = t
        · subst hk'
          simp only [Function.update_same, if_neg hk, if_true]
          congr 1; ring
        · rw [Function.update_noteq hk']
          simp only [if_neg hk, if_neg hk']
          simp
    · simp only [if_neg h]
      simp

theorem worker_eq (n : Nat) (edge_indices : Int → Int)
    (edge_list : Int → Edge) (currComm : Int → Int) (vDegree : Int → ℚ)
    (localCinfo : Int → Comm) (c : ℚ) (st : SweepState) :
    (worker 0 n edge_indices edge_list currComm vDegree localCinfo c st).targetComm =
      (fun (j : Int) => if 0 ≤ j ∧ j < (n : Int) then
        localTarget j edge_indices edge_list currComm vDegree localCinfo c
        else st.targetComm j) ∧
    (worker 0 n edge_indices edge_list currComm vDegree localCinfo c st).clusterWeight =
      (fun (j : Int) => if 0 ≤ j ∧ j < (n : Int) then
        st.clusterWeight j + counter0 j edge_indices edge_list currComm
        else st.clusterWeight j) ∧
    (worker 0 n edge_indices edge_list currComm vDegree localCinfo c st).localCupdate =
      (fun (k : Int) => ⟨(st.localCupdate k).size + ∑ v in Finset.range n,
          sizeDelta (localTarget v edge_indices edge_list currComm vDegree localCinfo c)
            (currComm v) k,
        (st.localCupdate k).degree + ∑ v in Finset.range n,
          degreeDelta (localTarget v edge_indices edge_list currComm vDegree localCinfo c)
            (currComm v) k (vDegree v)⟩) := by
  induction n with
  | zero =>
    have : ∀ j : Int, ¬ (0 ≤ j ∧ j < 0) := by intro j; omega
    simp [worker, forRange, this]
  | succ n ih =>
    have hc : ((n + 1 : Nat) : Int) = (n : Int) + 1 := by push_cast; rfl
    have hw : worker 0 ((n + 1 : Nat) : Int) edge_indices edge_list currComm vDegree
        localCinfo c st =
        execLouvainIteration n edge_indices edge_list currComm vDegree localCinfo c
          (worker 0 n edge_indices edge_list currComm vDegree localCinfo c st) := by
      simp only [worker]
      rw [hc, forRange_zero_succ, List.foldl_append]
      rfl
    rw [hw]
    obtain ⟨h1, h2, h3⟩ := execLouvainIteration_eq n edge_indices edge_list currComm vDegree
      localCinfo c (worker 0 n edge_indices edge_list currComm vDegree localCinfo c st)
    obtain ⟨i1, i2, i3⟩ := ih
    rw [h1, h2, h3, i1, i2, i3]
    have hn : ¬ (0 ≤ (n : Int) ∧ (n : Int) < n) := by omega
    have hn' : (0 ≤ (n : Int) ∧ (n : Int) < ((n + 1 : Nat) : Int)) := by omega
    refine ⟨?_, ?_, ?_⟩
    · funext j
      by_cases hj : j = n
      · subst hj
        simp only [Function.update_same, if_pos hn']
      · rw [Function.update_noteq hj]
        by_cases h1 : 0 ≤ j ∧ j < n
        · have h2 : 0 ≤ j ∧ j < ((n + 1 : Nat) : Int) := by omega
          simp only [if_pos h1, if_pos h2]
        · have h2 : ¬ (0 ≤ j ∧ j < ((n + 1 : Nat) : Int)) := by omega
          simp only [if_neg h1, if_neg h2]
    · funext j
      by_cases hj : j = n
      · subst hj
        simp only [Function.update_same, if_pos hn', if_neg hn]
      · rw [Function.update_noteq hj]
        by_cases h1 : 0 ≤ j ∧ j < n
        · have h2 : 0 ≤ j ∧ j < ((n + 1 : Nat) : Int) := by omega
          simp only [if_pos h1, if_pos h2]
        · have h2 : ¬ (0 ≤ j ∧ j < ((n + 1 : Nat) : Int)) := by omega
          simp only [if_neg h1, if_neg h2]
    · funext k
      simp only [Finset.sum_range_succ]
      congr 1 <;> ring

theorem worker_append (a m b : Int) (h1 : a ≤ m) (h2 : m ≤ b) (edge_indices : Int → Int)
    (edge_list : Int → Edge) (currComm : Int → Int) (vDegree : Int → ℚ)
    (localCinfo : Int → Comm) (c : ℚ) (st : SweepState) :
    worker m b edge_indices edge_list currComm vDegree localCinfo c
      (worker a m edge_indices edge_list currComm vDegree localCinfo c st) =
    worker a b edge_indices edge_list currComm vDegree localCinfo c st := by
  simp only [worker]
  rw [forRange_append a m b h1 h2, List.foldl_append]

theorem chunkStart_eq (n T : Int) (hn : 0 ≤ n) (_hT : 0 < T) (k : Nat) :
    chunkStart n T k = (k : Int) * Int.tdiv n T + min (k : Int) (Int.tmod n T) := by
  have hr : 0 ≤ Int.tmod n T := Int.tmod_nonneg T hn
  induction k with
  | zero => simp [chunkStart, hr]
  | succ k ih =>
    simp only [chunkStart, chunkEnd, ih]
    by_cases h : (k : Int) < Int.tmod n T
    · rw [if_pos h, min_eq_left (le_of_lt h), min_eq_left (by push_cast; omega)]
      push_cast; ring
    · rw [if_neg h, min_eq_right (not_lt.1 h), min_eq_right (by push_cast; omega)]
      push_cast; ring

theorem chunkStart_mono (n T : Int) (hn : 0 ≤ n) (hT : 0 < T) (k : Nat) :
    0 ≤ chunkStart n T k ∧ chunkStart n T k ≤ chunkStart n T (k + 1) := by
  have hq : 0 ≤ Int.tdiv n T := Int.tdiv_nonneg hn (le_of_lt hT)
  have hr : 0 ≤ Int.tmod n T := Int.tmod_nonneg T hn
  constructor
  · rw [chunkStart_eq n T hn hT]
    have : 0 ≤ (k : Int) * Int.tdiv n T := mul_nonneg (by omega) hq
    have : 0 ≤ min (k : Int) (Int.tmod n T) := le_min (by omega) hr
    omega
  · simp only [chunkStart, chunkEnd]
    split_ifs <;> omega

theorem chunkStart_last (n : Int) (t : Nat) (hn : 0 ≤ n) (ht : 0 < t) :
    chunkStart n t t = n := by
  have hT : (0 : Int) < t := by omega
  rw [chunkStart_eq n t hn hT]
  have h1 := Int.tmod_lt_of_pos n hT
  rw [min_eq_right (le_of_lt h1)]
  have := Int.tdiv_add_tmod n t
  linarith

/-- For `num_threads ≥ 1` the sweep is the single loop over the vertices
`0, ..., n - 1`. -/
theorem execLouvainParallel_eq_worker (n T : Int) (hn : 0 ≤ n) (hT : 1 ≤ T)
    (edge_indices : Int → Int) (edge_list : Int → Edge) (currComm : Int → Int)
    (vDegree : Int → ℚ) (localCinfo : Int → Comm) (c : ℚ) (st : SweepState) :
    execLouvainParallel n edge_indices edge_list currComm vDegree localCinfo c T st =
      worker 0 n edge_indices edge_list currComm vDegree localCinfo c st := by
  obtain ⟨t, rfl⟩ := Int.eq_ofNat_of_zero_le (le_trans (by decide) hT)
  have ht : 0 < t := by omega
  have key : ∀ k : Nat,
      (forRange 0 k).foldl
        (fun (p : Int × SweepState) i =>
          (chunkEnd n t p.1 i,
            worker p.1 (chunkEnd n t p.1 i) edge_indices edge_list currComm
              vDegree localCinfo c p.2))
        (0, st) =
      (chunkStart n t k,
        worker 0 (chunkStart n t k) edge_indices edge_list currComm vDegree localCinfo c st) := by
    intro k
    induction k with
    | zero =>
      simp only [chunkStart]
      have : forRange 0 ((0 : Nat) : Int) = [] := forRange_zero_zero
      rw [this, List.foldl_nil]
      simp [worker, forRange]
    | succ k ih =>
      have hc : ((k + 1 : Nat) : Int) = (k : Int) + 1 := by push_cast; rfl
      rw [hc, forRange_zero_succ, List.foldl_append, ih]
      simp only [List.foldl_cons, List.foldl_nil]
      have hm := chunkStart_mono n t hn (by omega) k
      rw [worker_append 0 _ _ hm.1 (by simpa [chunkStart] using hm.2)]
      rfl
  unfold execLouvainParallel
  rw [key t, chunkStart_last n t hn ht]

/-! ## One pass -/

theorem initVDegree_eq (g : Graph) (n : Nat) (hn : g.nv = n) :
    initVDegree g = fun (j : Int) => if 0 ≤ j ∧ j < (n : Int) then edgeWeightSum g j else 0 := by
  simp only [initVDegree, initLouvain]
  rw [sumVertexDegree_eq g n hn]
  funext j
  simp

theorem loopEntry_currComm (g : Graph) (n : Nat) (hn : g.nv = n) (lower : ℚ) :
    (loopEntry g lower).currComm =
      fun (j : Int) => if 0 ≤ j ∧ j < (n : Int) then j else 0 := by
  simp only [loopEntry, initLouvain]
  rw [hn, initComm_eq]

theorem loopEntry_localCinfo (g : Graph) (n : Nat) (hn : g.nv = n) (lower : ℚ) :
    (loopEntry g lower).localCinfo =
      fun (j : Int) => if 0 ≤ j ∧ j < (n : Int) then ⟨1, edgeWeightSum g j⟩ else Comm.zero := by
  simp only [loopEntry, initLouvain]
  rw [sumVertexDegree_eq g n hn]
  funext j
  simp

theorem passBody_fields (g : Graph) (n : Nat) (hn : g.nv = n) (T : Int) (hT : 1 ≤ T)
    (vDegree : Int → ℚ) (c : ℚ) (s : LouvainState) :
    (passBody g vDegree c T s).currComm = s.currComm ∧
    (passBody g vDegree c T s).prevMod = s.prevMod ∧
    (passBody g vDegree c T s).numIters = s.numIters + 1 ∧
    (passBody g vDegree c T s).targetComm =
      (fun (j : Int) => if 0 ≤ j ∧ j < (n : Int) then
        localTarget j g.edge_indices_ g.edge_list_ s.currComm vDegree s.localCinfo c
        else s.targetComm j) ∧
    (passBody g vDegree c T s).clusterWeight =
      (fun (j : Int) => if 0 ≤ j ∧ j < (n : Int) then
        counter0 j g.edge_indices_ g.edge_list_ s.currComm
        else s.clusterWeight j) ∧
    (∀ k : Int, 0 ≤ k → k < n → (passBody g vDegree c T s).localCupdate k =
      ⟨∑ v in Finset.range n,
          sizeDelta (localTarget v g.edge_indices_ g.edge_list_ s.currComm vDegree
            s.localCinfo c) (s.currComm v) k,
        ∑ v in Finset.range n,
          degreeDelta (localTarget v g.edge_indices_ g.edge_list_ s.currComm vDegree
            s.localCinfo c) (s.currComm v) k (vDegree v)⟩) ∧
    (∀ k : Int, 0 ≤ k → k < n → (passBody g vDegree c T s).localCinfo k =
      ⟨(s.localCinfo k).size + ∑ v in Finset.range n,
          sizeDelta (localTarget v g.edge_indices_ g.edge_list_ s.currComm vDegree
            s.localCinfo c) (s.currComm v) k,
        (s.localCinfo k).degree + ∑ v in Finset.range n,
          degreeDelta (localTarget v g.edge_indices_ g.edge_list_ s.currComm vDegree
            s.localCinfo c) (s.currComm v) k (vDegree v)⟩) ∧
    (passBody g vDegree c T s).localCinfo =
      updateLocalCinfo g.nv s.localCinfo (passBody g vDegree c T s).localCupdate ∧
    (passBody g vDegree c T s).currMod =
      computeModularity g (passBody g vDegree c T s).localCinfo
        (passBody g vDegree c T s).clusterWeight c := by
  have hn0 : (0 : Int) ≤ n := by omega
  obtain ⟨w1, w2, w3⟩ := worker_eq n g.edge_indices_ g.edge_list_ s.currComm vDegree
    s.localCinfo c ⟨s.targetComm, (cleanCWandCU n s.clusterWeight s.localCupdate).2,
      (cleanCWandCU n s.clusterWeight s.localCupdate).1⟩
  refine ⟨rfl, rfl, rfl, ?_, ?_, ?_, ?_, rfl, rfl⟩
  · simp only [passBody]
    rw [hn, execLouvainParallel_eq_worker n T hn0 hT, w1]
  · simp only [passBody]
    rw [hn, execLouvainParallel_eq_worker n T hn0 hT, w2, cleanCWandCU_eq]
    funext j
    by_cases h : 0 ≤ j ∧ j < (n : Int)
    · simp only [if_pos h, zero_add]
    · simp only [if_neg h]
  · intro k hk0 hk1
    simp only [passBody]
    rw [hn, execLouvainParallel_eq_worker n T hn0 hT, w3, cleanCWandCU_eq]
    simp only [if_pos (And.intro hk0 hk1), zero_add]
  · intro k hk0 hk1
    simp only [passBody]
    rw [hn, execLouvainParallel_eq_worker n T hn0 hT, w3, cleanCWandCU_eq, updateLocalCinfo_eq]
    simp only [if_pos (And.intro hk0 hk1), zero_add]

theorem passCommit_fields (g : Graph) (n : Nat) (hn : g.nv = n) (lower : ℚ)
    (s : LouvainState) :
    (passCommit g lower s).currComm =
      (fun (j : Int) => if 0 ≤ j ∧ j < (n : Int) then s.targetComm j else s.currComm j) ∧
    (passCommit g lower s).localCinfo = s.localCinfo ∧
    (passCommit g lower s).prevMod = max s.currMod lower ∧
    (passCommit g lower s).numIters = s.numIters := by
  refine ⟨?_, rfl, ?_, rfl⟩
  · simp only [passCommit]
    rw [hn, rotate_eq]
  · simp only [passCommit]
    by_cases h : s.currMod < lower
    · rw [if_pos h, max_eq_right (le_of_lt h)]
    · rw [if_neg h, max_eq_left (not_lt.1 h)]

/-! ## The convergence loop -/

theorem louvainLoop_succ (g : Graph) (lower thresh : ℚ) (T : Int) (fuel k : Nat) :
    louvainLoop g (initVDegree g) (initConstant g) lower thresh T (fuel + 1)
        (stateAt g lower T k) =
      if currModAt g lower T k - prevModAt g lower T k < thresh then
        some (bodyAt g lower T k)
      else louvainLoop g (initVDegree g) (initConstant g) lower thresh T fuel
        (stateAt g lower T (k + 1)) := rfl

theorem louvainLoop_halt (g : Graph) (lower thresh : ℚ) (T : Int) (j : Nat) :
    ∀ (fuel k : Nat), k ≤ j → j < k + fuel →
      (∀ i, k ≤ i → i < j → ¬ haltsAt g lower thresh T i) → haltsAt g lower thresh T j →
      louvainLoop g (initVDegree g) (initConstant g) lower thresh T fuel
        (stateAt g lower T k) = some (bodyAt g lower T j) := by
  intro fuel
  induction fuel with
  | zero => intro k h1 h2; omega
  | succ fuel ih =>
    intro k h1 h2 hno hj
    rw [louvainLoop_succ]
    by_cases hk : k = j
    · subst hk
      have hj' : currModAt g lower T k - prevModAt g lower T k < thresh := hj
      rw [if_pos hj']
    · have hlt : k < j := lt_of_le_of_ne h1 hk
      have hk' : ¬ (currModAt g lower T k - prevModAt g lower T k < thresh) :=
        hno k (le_refl _) hlt
      rw [if_neg hk']
      exact ih (k + 1) hlt (by omega) (fun i hi1 hi2 => hno i (by omega) hi2) hj

theorem louvainLoop_none (g : Graph) (lower thresh : ℚ) (T : Int) :
    ∀ (fuel k : Nat), (∀ i, k ≤ i → i < k + fuel → ¬ haltsAt g lower thresh T i) →
      louvainLoop g (initVDegree g) (initConstant g) lower thresh T fuel
        (stateAt g lower T k) = none := by
  intro fuel
  induction fuel with
  | zero => intro k _; rfl
  | succ fuel ih =>
    intro k hno
    have hk' : ¬ (currModAt g lower T k - prevModAt g lower T k < thresh) :=
      hno k (le_refl _) (by omega)
    rw [louvainLoop_succ, if_neg hk']
    exact ih (k + 1) (fun i hi1 hi2 => hno i (by omega) (by omega))

theorem stateAt_numIters (g : Graph) (lower : ℚ) (T : Int) (k : Nat) :
    (stateAt g lower T k).numIters = k := by
  induction k with
  | zero => rfl
  | succ k ih =>
    show (stateAt g lower T k).numIters + 1 = ((k + 1 : Nat) : Int)
    rw [ih]; push_cast; rfl

theorem bodyAt_numIters (g : Graph) (lower : ℚ) (T : Int) (k : Nat) :
    (bodyAt g lower T k).numIters = (k : Int) + 1 := by
  show (stateAt g lower T k).numIters + 1 = (k : Int) + 1
  rw [stateAt_numIters]

theorem prevModAt_succ (g : Graph) (lower : ℚ) (T : Int) (k : Nat) :
    prevModAt g lower T (k + 1) = max (currModAt g lower T k) lower := by
  show (passCommit g lower (bodyAt g lower T k)).prevMod = _
  simp only [passCommit, currModAt]
  by_cases h : (bodyAt g lower T k).currMod < lower
  · rw [if_pos h, max_eq_right (le_of_lt h)]
  · rw [if_neg h, max_eq_left (not_lt.1 h)]

theorem prevModAt_ge (g : Graph) (lower : ℚ) (T : Int) (k : Nat) :
    lower ≤ prevModAt g lower T k := by
  cases k with
  | zero => exact le_refl _
  | succ k => rw [prevModAt_succ]; exact le_max_right _ _

theorem louvainMethod_of_halt (g : Graph) (lower thresh : ℚ) (T : Int) (k : Nat)
    (hfirst : ∀ j, j < k → ¬ haltsAt g lower thresh T j) (hk : haltsAt g lower thresh T k)
    (fuel : Nat) (hf : k < fuel) :
    louvainMethod g lower thresh T fuel =
      some (prevModAt g lower T k, (k : Int) + 1, bodyAt g lower T k) := by
  unfold louvainMethod
  have h := louvainLoop_halt g lower thresh T k fuel 0 (Nat.zero_le _) (by omega)
    (fun i _ hi => hfirst i hi) hk
  rw [show loopEntry g lower = stateAt g lower T 0 from rfl, h]
  simp only [Option.map_some']
  rw [bodyAt_numIters]
  rfl

theorem louvainMethod_none (g : Graph) (lower thresh : ℚ) (T : Int) (fuel : Nat)
    (hno : ∀ j, j < fuel → ¬ haltsAt g lower thresh T j) :
    louvainMethod g lower thresh T fuel = none := by
  unfold louvainMethod
  have h := louvainLoop_none g lower thresh T fuel 0 (fun i _ hi => hno i (by omega))
  rw [show loopEntry g lower = stateAt g lower T 0 from rfl, h]
  rfl

theorem passBody_numThreads (g : Graph) (hn : 0 ≤ g.nv) (T : Int) (hT : 1 ≤ T)
    (vDegree : Int → ℚ) (c : ℚ) (s : LouvainState) :
    passBody g vDegree c T s = passBody g vDegree c 1 s := by
  simp only [passBody]
  rw [execLouvainParallel_eq_worker g.nv T hn hT,
    execLouvainParallel_eq_worker g.nv 1 hn (le_refl _)]

theorem stateAt_numThreads (g : Graph) (hn : 0 ≤ g.nv) (lower : ℚ) (T : Int) (hT : 1 ≤ T)
    (k : Nat) : stateAt g lower T k = stateAt g lower 1 k := by
  induction k with
  | zero => rfl
  | succ k ih =>
    simp only [stateAt]
    rw [ih, passBody_numThreads g hn T hT]

theorem bodyAt_numThreads (g : Graph) (hn : 0 ≤ g.nv) (lower : ℚ) (T : Int) (hT : 1 ≤ T)
    (k : Nat) : bodyAt g lower T k = bodyAt g lower 1 k := by
  simp only [bodyAt]
  rw [stateAt_numThreads g hn lower T hT, passBody_numThreads g hn T hT]

theorem haltsAt_numThreads (g : Graph) (hn : 0 ≤ g.nv) (lower thresh : ℚ) (T : Int)
    (hT : 1 ≤ T) (k : Nat) :
    haltsAt g lower thresh T k ↔ haltsAt g lower thresh 1 k := by
  simp only [haltsAt, currModAt, prevModAt]
  rw [stateAt_numThreads g hn lower T hT, bodyAt_numThreads g hn lower T hT]

/-! ## The weight accumulated in `counter[0]` -/

theorem buildStep_counter0 (currComm : Int → Int) (vertex : Int)
    (st : MapState) (edge : Edge) (hlen : 1 ≤ st.counter.length) :
    1 ≤ (buildLocalMapCounterStep currComm vertex st edge).counter.length ∧
    (getAt (buildLocalMapCounterStep currComm vertex st edge).counter 0 0 =
        getAt st.counter 0 0 ∨
      getAt (buildLocalMapCounterStep currComm vertex st edge).counter 0 0 =
        getAt st.counter 0 0 + edge.weight_) := by
  obtain ⟨cl, ct, nu, sl⟩ := st
  cases ct with
  | nil => simp at hlen
  | cons c0 rest =>
    simp only [buildLocalMapCounterStep]
    generalize List.find? (fun e => decide (e.f = currComm edge.tail_)) cl = r
    cases r with
    | none =>
      simp only
      split_ifs <;> simp [getAt]
    | some e =>
      simp only
      split_ifs
      all_goals (cases h : e.s.toNat <;> simp [getAt, h])

theorem buildFold_counter0 (currComm : Int → Int) (vertex : Int) (edges : List Edge) :
    ∀ (st : MapState), 1 ≤ st.counter.length → (∀ e ∈ edges, 0 ≤ e.weight_) →
      1 ≤ (edges.foldl (buildLocalMapCounterStep currComm vertex) st).counter.length ∧
      getAt st.counter 0 0 ≤
        getAt (edges.foldl (buildLocalMapCounterStep currComm vertex) st).counter 0 0 ∧
      getAt (edges.foldl (buildLocalMapCounterStep currComm vertex) st).counter 0 0 ≤
        getAt st.counter 0 0 + (edges.map Edge.weight_).sum := by
  induction edges with
  | nil => intro st h _; simp [h]
  | cons edge rest ih =>
    intro st hlen hw
    rw [List.foldl_cons]
    obtain ⟨h1, h2⟩ := buildStep_counter0 currComm vertex st edge hlen
    obtain ⟨i1, i2, i3⟩ := ih _ h1 (fun e he => hw e (List.mem_cons_of_mem _ he))
    have hw0 : 0 ≤ edge.weight_ := hw edge (List.mem_cons_self _ _)
    refine ⟨i1, ?_, ?_⟩
    · rcases h2 with h2 | h2 <;> rw [h2] at i2 <;> linarith
    · simp only [List.map_cons, List.sum_cons]
      rcases h2 with h2 | h2 <;> rw [h2] at i3 <;> linarith

theorem counter0_bounds (i : Int) (edge_indices : Int → Int) (edge_list : Int → Edge)
    (currComm : Int → Int)
    (hw : ∀ e ∈ edgesOf edge_list (edge_indices i) (edge_indices (i + 1)), 0 ≤ e.weight_) :
    0 ≤ counter0 i edge_indices edge_list currComm ∧
    counter0 i edge_indices edge_list currComm ≤
      ((edgesOf edge_list (edge_indices i) (edge_indices (i + 1))).map Edge.weight_).sum := by
  unfold counter0
  by_cases h : edge_indices i ≠ edge_indices (i + 1)
  · simp only [if_pos h, localTables, buildLocalMapCounter]
    obtain ⟨_, h2, h3⟩ := buildFold_counter0 currComm i
      (edgesOf edge_list (edge_indices i) (edge_indices (i + 1)))
      ⟨[⟨currComm i, 0⟩], [0], 1, 0⟩ (by simp) hw
    simp only [getAt, Int.toNat_zero, List.getD_cons_zero, zero_add] at h2 h3 ⊢
    exact ⟨h2, h3⟩
  · simp only [if_neg h]
    refine ⟨le_refl _, List.sum_nonneg ?_⟩
    intro x hx
    obtain ⟨e, he, rfl⟩ := List.mem_map.1 hx
    exact hw e he

/-! ## Aggregates and membership -/

theorem sizeDelta_add (t cc k : Int) (ht : t ≠ -1) :
    (if cc = k then (1 : Int) else 0) + sizeDelta t cc k = if t = k then 1 else 0 := by
  unfold sizeDelta
  split_ifs <;> omega

theorem degreeDelta_add (t cc k : Int) (vd : ℚ) (ht : t ≠ -1) :
    (if cc = k then vd else 0) + degreeDelta t cc k vd = if t = k then vd else 0 := by
  unfold degreeDelta
  split_ifs <;> first | linarith | (exfalso; omega)

theorem sum_range_ite_int {M : Type} [AddCommMonoid M] (n : Nat) (a : Int) (h0 : 0 ≤ a)
    (h1 : a < n) (x : M) :
    ∑ k in Finset.range n, (if a = (k : Int) then x else 0) = x := by
  obtain ⟨m, rfl⟩ := Int.eq_ofNat_of_zero_le h0
  have hm : m < n := by omega
  have : ∀ k ∈ Finset.range n, (if (m : Int) = (k : Int) then x else 0) =
      if m = k then x else 0 := by
    intro k _
    by_cases h : m = k
    · subst h; simp
    · have : ¬ ((m : Int) = (k : Int)) := by omega
      simp [h, this]
  rw [Finset.sum_congr rfl this, Finset.sum_ite_eq]
  simp [hm]

theorem passInv_init (g : Graph) (n : Nat) (hn : g.nv = n) (lower : ℚ) :
    PassInv g n (loopEntry g lower) := by
  unfold PassInv
  rw [loopEntry_currComm g n hn, loopEntry_localCinfo g n hn, initVDegree_eq g n hn]
  refine ⟨?_, ?_⟩
  · intro v h0 h1
    simp only [if_pos (And.intro h0 h1)]
    exact ⟨h0, h1⟩
  · intro k h0 h1
    simp only [if_pos (And.intro h0 h1)]
    have hr : ∀ v ∈ Finset.range n, (0 : Int) ≤ (v : Int) ∧ (v : Int) < (n : Int) := by
      intro v hv
      have := Finset.mem_range.1 hv
      omega
    constructor
    · have : ∀ v ∈ Finset.range n,
          (if (if (0 : Int) ≤ (v : Int) ∧ (v : Int) < (n : Int) then (v : Int) else 0) = k
            then (1 : Int) else 0) = if k = (v : Int) then 1 else 0 := by
        intro v hv
        rw [if_pos (hr v hv)]
        by_cases h : (v : Int) = k
        · simp [h]
        · have h' : ¬ k = (v : Int) := fun e => h e.symm
          simp [h, h']
      rw [Finset.sum_congr rfl this, sum_range_ite_int n k h0 h1]
    · have : ∀ v ∈ Finset.range n,
          (if (if (0 : Int) ≤ (v : Int) ∧ (v : Int) < (n : Int) then (v : Int) else 0) = k
            then (if (0 : Int) ≤ (v : Int) ∧ (v : Int) < (n : Int) then edgeWeightSum g v
              else 0) else 0) = if k = (v : Int) then edgeWeightSum g k else 0 := by
        intro v hv
        rw [if_pos (hr v hv), if_pos (hr v hv)]
        by_cases h : (v : Int) = k
        · simp [h]
        · have h' : ¬ k = (v : Int) := fun e => h e.symm
          simp [h, h']
      rw [Finset.sum_congr rfl this, sum_range_ite_int n k h0 h1]

theorem localTarget_range (g : Graph) (n : Nat) (hn : g.nv = n) (hend : g.EndpointsInRange)
    (currComm : Int → Int) (vDegree : Int → ℚ) (localCinfo : Int → Comm) (c : ℚ)
    (hcc : ∀ v : Int, 0 ≤ v → v < n → 0 ≤ currComm v ∧ currComm v < n)
    (v : Int) (h0 : 0 ≤ v) (h1 : v < n) :
    0 ≤ localTarget v g.edge_indices_ g.edge_list_ currComm vDegree localCinfo c ∧
    localTarget v g.edge_indices_ g.edge_list_ currComm vDegree localCinfo c < n := by
  rcases localTarget_mem v g.edge_indices_ g.edge_list_ currComm vDegree localCinfo c with
    h | ⟨e, he, h⟩
  · rw [h]; exact hcc v h0 h1
  · rw [h]
    have := hend v h0 (by rw [hn]; exact h1) e he
    rw [hn] at this
    exact hcc _ this.1 this.2

/-- After the merge step the aggregates match the membership given by the
targets of the pass. -/
theorem passBody_localCinfo (g : Graph) (n : Nat) (hn : g.nv = n) (T : Int) (hT : 1 ≤ T)
    (hend : g.EndpointsInRange) (c : ℚ) (s : LouvainState) (hinv : PassInv g n s)
    (k : Int) (h0 : 0 ≤ k) (h1 : k < n) :
    ((passBody g (initVDegree g) c T s).localCinfo k).size =
      ∑ v in Finset.range n,
        (if localTarget v g.edge_indices_ g.edge_list_ s.currComm (initVDegree g)
          s.localCinfo c = k then (1 : Int) else 0) ∧
    ((passBody g (initVDegree g) c T s).localCinfo k).degree =
      ∑ v in Finset.range n,
        (if localTarget v g.edge_indices_ g.edge_list_ s.currComm (initVDegree g)
          s.localCinfo c = k then initVDegree g v else 0) := by
  obtain ⟨_, _, _, _, _, _, hci, _⟩ := passBody_fields g n hn T hT (initVDegree g) c s
  rw [hci k h0 h1]
  simp only
  obtain ⟨hcc, hagg⟩ := hinv
  rw [(hagg k h0 h1).1, (hagg k h0 h1).2, ← Finset.sum_add_distrib, ← Finset.sum_add_distrib]
  have hne : ∀ v ∈ Finset.range n,
      localTarget v g.edge_indices_ g.edge_list_ s.currComm (initVDegree g)
        s.localCinfo c ≠ -1 := by
    intro v hv
    have := Finset.mem_range.1 hv
    have := (localTarget_range g n hn hend s.currComm (initVDegree g) s.localCinfo c hcc v
      (by omega) (by omega)).1
    omega
  exact ⟨Finset.sum_congr rfl (fun v hv => sizeDelta_add _ _ _ (hne v hv)),
    Finset.sum_congr rfl (fun v hv => degreeDelta_add _ _ _ _ (hne v hv))⟩

theorem passInv_step (g : Graph) (n : Nat) (hn : g.nv = n) (T : Int) (hT : 1 ≤ T)
    (hend : g.EndpointsInRange) (c lower : ℚ) (s : LouvainState) (hinv : PassInv g n s) :
    PassInv g n (passCommit g lower (passBody g (initVDegree g) c T s)) := by
  obtain ⟨hcur, hci, _, _⟩ := passCommit_fields g n hn lower
    (passBody g (initVDegree g) c T s)
  obtain ⟨_, _, _, htg, _⟩ := passBody_fields g n hn T hT (initVDegree g) c s
  have hcur' : ∀ v : Int, 0 ≤ v → v < n →
      (passCommit g lower (passBody g (initVDegree g) c T s)).currComm v =
        localTarget v g.edge_indices_ g.edge_list_ s.currComm (initVDegree g)
          s.localCinfo c := by
    intro v h0 h1
    rw [hcur, htg]
    simp only [if_pos (And.intro h0 h1)]
  refine ⟨?_, ?_⟩
  · intro v h0 h1
    rw [hcur' v h0 h1]
    exact localTarget_range g n hn hend s.currComm (initVDegree g) s.localCinfo c hinv.1 v h0 h1
  · intro k h0 h1
    rw [hci]
    obtain ⟨e1, e2⟩ := passBody_localCinfo g n hn T hT hend c s hinv k h0 h1
    rw [e1, e2]
    have hr : ∀ v ∈ Finset.range n, (0 : Int) ≤ (v : Int) ∧ (v : Int) < (n : Int) := by
      intro v hv
      have := Finset.mem_range.1 hv
      omega
    constructor
    · exact Finset.sum_congr rfl (fun v hv => by rw [hcur' v (hr v hv).1 (hr v hv).2])
    · exact Finset.sum_congr rfl (fun v hv => by rw [hcur' v (hr v hv).1 (hr v hv).2])

theorem passInv_stateAt (g : Graph) (n : Nat) (hn : g.nv = n) (T : Int) (hT : 1 ≤ T)
    (hend : g.EndpointsInRange) (lower : ℚ) (k : Nat) :
    PassInv g n (stateAt g lower T k) := by
  induction k with
  | zero => exact passInv_init g n hn lower
  | succ k ih => exact passInv_step g n hn T hT hend _ lower _ ih

/-! ## Conservation of the aggregates -/

theorem sumSize_eq (n : Nat) (info : Int → Comm) :
    sumSize n info = ∑ k in Finset.range n, (info k).size := by
  unfold sumSize
  rw [sum_forRange_int]

theorem sumDegree_eq (n : Nat) (info : Int → Comm) :
    sumDegree n info = ∑ k in Finset.range n, (info k).degree := by
  unfold sumDegree
  rw [sum_forRange]

theorem totalDegree_eq (g : Graph) (n : Nat) (hn : g.nv = n) :
    totalDegree g = ∑ v in Finset.range n, initVDegree g v := by
  unfold totalDegree
  rw [hn, sum_forRange]

theorem sumSize_of_membership (n : Nat) (comm : Int → Int) (info : Int → Comm)
    (hcc : ∀ v : Int, 0 ≤ v → v < n → 0 ≤ comm v ∧ comm v < n)
    (h : ∀ k : Int, 0 ≤ k → k < n →
      (info k).size = ∑ v in Finset.range n, (if comm v = k then (1 : Int) else 0)) :
    sumSize n info = n := by
  rw [sumSize_eq]
  have h1 : ∀ k ∈ Finset.range n, (info k).size =
      ∑ v in Finset.range n, (if comm v = (k : Int) then (1 : Int) else 0) := by
    intro k hk
    have := Finset.mem_range.1 hk
    exact h k (by omega) (by omega)
  rw [Finset.sum_congr rfl h1, Finset.sum_comm]
  have h2 : ∀ v ∈ Finset.range n,
      ∑ k in Finset.range n, (if comm v = (k : Int) then (1 : Int) else 0) = 1 := by
    intro v hv
    have := Finset.mem_range.1 hv
    obtain ⟨a, b⟩ := hcc v (by omega) (by omega)
    exact sum_range_ite_int n (comm v) a b 1
  rw [Finset.sum_congr rfl h2]
  simp

theorem sumDegree_of_membership (n : Nat) (comm : Int → Int) (vD : Int → ℚ)
    (info : Int → Comm)
    (hcc : ∀ v : Int, 0 ≤ v → v < n → 0 ≤ comm v ∧ comm v < n)
    (h : ∀ k : Int, 0 ≤ k → k < n →
      (info k).degree = ∑ v in Finset.range n, (if comm v = k then vD v else 0)) :
    sumDegree n info = ∑ v in Finset.range n, vD v := by
  rw [sumDegree_eq]
  have h1 : ∀ k ∈ Finset.range n, (info k).degree =
      ∑ v in Finset.range n, (if comm v = (k : Int) then vD v else 0) := by
    intro k hk
    have := Finset.mem_range.1 hk
    exact h k (by omega) (by omega)
  rw [Finset.sum_congr rfl h1, Finset.sum_comm]
  apply Finset.sum_congr rfl
  intro v hv
  have := Finset.mem_range.1 hv
  obtain ⟨a, b⟩ := hcc v (by omega) (by omega)
  exact sum_range_ite_int n (comm v) a b (vD v)

theorem conservation_aux (g : Graph) (n : Nat) (hn : g.nv = n) (hend : g.EndpointsInRange)
    (T : Int) (hT : 1 ≤ T) (c : ℚ) (s : LouvainState) (hinv : PassInv g n s) :
    sumSize n s.localCinfo = n ∧
    sumDegree g.nv s.localCinfo = totalDegree g ∧
    sumSize n (passBody g (initVDegree g) c T s).localCinfo = n ∧
    sumDegree g.nv (passBody g (initVDegree g) c T s).localCinfo = totalDegree g ∧
    sumSize n (passBody g (initVDegree g) c T s).localCupdate = 0 ∧
    sumDegree n (passBody g (initVDegree g) c T s).localCupdate = 0 := by
  have b1 : sumSize n s.localCinfo = n :=
    sumSize_of_membership n s.currComm s.localCinfo hinv.1 (fun k h0 h1 => (hinv.2 k h0 h1).1)
  have b2 : sumDegree n s.localCinfo = totalDegree g := by
    rw [totalDegree_eq g n hn]
    exact sumDegree_of_membership n s.currComm (initVDegree g) s.localCinfo hinv.1
      (fun k h0 h1 => (hinv.2 k h0 h1).2)
  have htr := localTarget_range g n hn hend s.currComm (initVDegree g) s.localCinfo c hinv.1
  have a1 : sumSize n (passBody g (initVDegree g) c T s).localCinfo = n :=
    sumSize_of_membership n _ _ htr
      (fun k h0 h1 => (passBody_localCinfo g n hn T hT hend c s hinv k h0 h1).1)
  have a2 : sumDegree n (passBody g (initVDegree g) c T s).localCinfo = totalDegree g := by
    rw [totalDegree_eq g n hn]
    exact sumDegree_of_membership n _ (initVDegree g) _ htr
      (fun k h0 h1 => (passBody_localCinfo g n hn T hT hend c s hinv k h0 h1).2)
  obtain ⟨_, _, _, _, _, hcu, hci, _⟩ := passBody_fields g n hn T hT (initVDegree g) c s
  have hs : sumSize n (passBody g (initVDegree g) c T s).localCinfo =
      sumSize n s.localCinfo + sumSize n (passBody g (initVDegree g) c T s).localCupdate := by
    rw [sumSize_eq, sumSize_eq, sumSize_eq, ← Finset.sum_add_distrib]
    apply Finset.sum_congr rfl
    intro k hk
    have := Finset.mem_range.1 hk
    rw [hci k (by omega) (by omega), hcu k (by omega) (by omega)]
  have hd : sumDegree n (passBody g (initVDegree g) c T s).localCinfo =
      sumDegree n s.localCinfo +
        sumDegree n (passBody g (initVDegree g) c T s).localCupdate := by
    rw [sumDegree_eq, sumDegree_eq, sumDegree_eq, ← Finset.sum_add_distrib]
    apply Finset.sum_congr rfl
    intro k hk
    have := Finset.mem_range.1 hk
    rw [hci k (by omega) (by omega), hcu k (by omega) (by omega)]
  refine ⟨b1, by rw [hn]; exact b2, a1, by rw [hn]; exact a2, ?_, ?_⟩
  · rw [a1, b1] at hs; omega
  · rw [a2, b2] at hd; linarith

/-! ## The example graphs are well formed -/

theorem edgesOf_ofLists_mem (nv : Int) (idx : List Int) (edges : List Edge) (i : Int)
    (e : Edge)
    (he : e ∈ edgesOf (Graph.ofLists nv idx edges).edge_list_
      ((Graph.ofLists nv idx edges).edge_indices_ i)
      ((Graph.ofLists nv idx edges).edge_indices_ (i + 1))) :
    e ∈ edges ∨ e = ⟨0, 0⟩ := by
  simp only [edgesOf, Graph.ofLists, List.mem_map] at he
  obtain ⟨k, _, rfl⟩ := he
  simp only [getAt, List.getD_eq_getElem?_getD]
  cases h : edges[k.toNat]? with
  | none => right; rfl
  | some x => left; exact List.mem_iff_getElem?.2 ⟨_, h⟩

theorem twoEdges_endpoints : twoEdges.EndpointsInRange := by
  intro i _ _ e he
  rcases edgesOf_ofLists_mem _ _ _ i e he with h | h
  · simp only [List.mem_cons, List.mem_singleton, List.not_mem_nil, or_false] at h
    rcases h with h | h | h | h <;> subst h <;> decide
  · subst h; decide

theorem twoEdges_nonneg : twoEdges.NonnegWeights := by
  intro i _ _ e he
  rcases edgesOf_ofLists_mem _ _ _ i e he with h | h
  · simp only [List.mem_cons, List.mem_singleton, List.not_mem_nil, or_false] at h
    rcases h with h | h | h | h <;> subst h <;> norm_num
  · subst h; norm_num

/-! ## The anti-oscillation guard -/

theorem getMaxIndex_guard (clmap : List clmap_t) (counter : List ℚ)
    (selfLoop : ℚ) (localCinfo : Int → Comm) (vDegree : ℚ)
    (currSize : Int) (currDegree : ℚ) (currComm : Int) (constant : ℚ)
    (hs : currSize = 1) :
    ¬ ((localCinfo (getMaxIndex clmap counter selfLoop localCinfo vDegree currSize
          currDegree currComm constant)).size = 1 ∧
        getMaxIndex clmap counter selfLoop localCinfo vDegree currSize currDegree
          currComm constant > currComm) := by
  rintro ⟨h1, h2⟩
  rcases getMaxIndex_eq clmap counter selfLoop localCinfo vDegree currSize currDegree
    currComm constant with h | ⟨h, hg⟩
  · rw [h] at h2; exact lt_irrefl _ h2
  · rcases maxInv_loop clmap counter selfLoop localCinfo vDegree currSize currDegree
      currComm constant with ⟨hi, _⟩ | ⟨_, _, _, hsz, _⟩
    · rw [h, hi] at h2; exact lt_irrefl _ h2
    · apply hg
      rw [h] at h1 h2
      exact ⟨by rw [hsz]; exact h1, hs, h2⟩

theorem localTarget_guard (i : Int) (edge_indices : Int → Int)
    (edge_list : Int → Edge) (currComm : Int → Int) (vDegree : Int → ℚ)
    (localCinfo : Int → Comm) (c : ℚ) (hs : (localCinfo (currComm i)).size = 1) :
    ¬ ((localCinfo (localTarget i edge_indices edge_list currComm vDegree localCinfo
          c)).size = 1 ∧
        localTarget i edge_indices edge_list currComm vDegree localCinfo c > currComm i) := by
  unfold localTarget
  by_cases h : edge_indices i ≠ edge_indices (i + 1)
  · simp only [if_pos h]
    exact getMaxIndex_guard _ _ _ _ _ _ _ _ _ hs
  · simp only [if_neg h]
    rintro ⟨_, h2⟩
    exact lt_irrefl _ h2

theorem execLouvainParallel_targetComm (n T : Int) (hn : 0 ≤ n) (hT : 1 ≤ T)
    (edge_indices : Int → Int) (edge_list : Int → Edge) (currComm : Int → Int)
    (vDegree : Int → ℚ) (localCinfo : Int → Comm) (c : ℚ) (st : SweepState)
    (v : Int) (h0 : 0 ≤ v) (h1 : v < n) :
    (execLouvainParallel n edge_indices edge_list currComm vDegree localCinfo c T
        st).targetComm v =
      localTarget v edge_indices edge_list currComm vDegree localCinfo c := by
  rw [execLouvainParallel_eq_worker n T hn hT]
  obtain ⟨m, rfl⟩ := Int.eq_ofNat_of_zero_le hn
  rw [(worker_eq m edge_indices edge_list currComm vDegree localCinfo c st).1]
  simp only [if_pos (And.intro h0 h1)]

/-! ## The modularity of a pass -/

theorem computeModularity_eq (g : Graph) (n : Nat) (hn : g.nv = n) (localCinfo : Int → Comm)
    (clusterWeight : Int → ℚ) (c : ℚ) :
    computeModularity g localCinfo clusterWeight c =
      (∑ j in Finset.range n, clusterWeight j) * c -
        (∑ k in Finset.range n, (localCinfo k).degree * (localCinfo k).degree) * c * c := by
  simp only [computeModularity]
  rw [hn, foldl_add_eq_sum, foldl_add_eq_sum, sum_forRange, sum_forRange]
  simp only [zero_add]

theorem initConstant_eq (g : Graph) : initConstant g = 1 / totalDegree g := by
  simp only [initConstant, initLouvain, calcConstantForSecondTerm, totalDegree, initVDegree]
  rw [foldl_add_eq_sum, zero_add]

/-- The modularity computed in a pass, as a function of the assignment and the
aggregates at the start of the pass. -/
theorem passBody_currMod (g : Graph) (n : Nat) (hn : g.nv = n) (T : Int) (hT : 1 ≤ T)
    (vDegree : Int → ℚ) (c : ℚ) (s : LouvainState) :
    (passBody g vDegree c T s).currMod =
      (∑ j in Finset.range n, counter0 j g.edge_indices_ g.edge_list_ s.currComm) * c -
        (∑ k in Finset.range n,
          ((s.localCinfo k).degree + ∑ v in Finset.range n,
            degreeDelta (localTarget v g.edge_indices_ g.edge_list_ s.currComm vDegree
              s.localCinfo c) (s.currComm v) k (vDegree v)) *
          ((s.localCinfo k).degree + ∑ v in Finset.range n,
            degreeDelta (localTarget v g.edge_indices_ g.edge_list_ s.currComm vDegree
              s.localCinfo c) (s.currComm v) k (vDegree v))) * c * c := by
  obtain ⟨_, _, _, _, hcw, _, hci, _, hmod⟩ := passBody_fields g n hn T hT vDegree c s
  rw [hmod, computeModularity_eq g n hn, hcw]
  have hr : ∀ v ∈ Finset.range n, (0 : Int) ≤ (v : Int) ∧ (v : Int) < (n : Int) := by
    intro v hv
    have := Finset.mem_range.1 hv
    omega
  congr 1
  · congr 1
    apply Finset.sum_congr rfl
    intro j hj
    simp only [if_pos (hr j hj)]
  · congr 2
    apply Finset.sum_congr rfl
    intro k hk
    rw [hci k (hr k hk).1 (hr k hk).2]

theorem passBody_currMod_congr (g : Graph) (hn : 0 ≤ g.nv) (T : Int) (hT : 1 ≤ T)
    (vDegree : Int → ℚ) (c : ℚ) (s s' : LouvainState) (h1 : s.currComm = s'.currComm)
    (h2 : s.localCinfo = s'.localCinfo) :
    (passBody g vDegree c T s).currMod = (passBody g vDegree c T s').currMod := by
  obtain ⟨n, hn'⟩ := Int.eq_ofNat_of_zero_le hn
  rw [passBody_currMod g n hn' T hT, passBody_currMod g n hn' T hT, h1, h2]

/-- When no vertex moves in a pass, the committed assignment and the merged
aggregates are those the pass started from. -/
theorem passStep_fixed (g : Graph) (hn : 0 ≤ g.nv) (T : Int) (hT : 1 ≤ T)
    (vDegree : Int → ℚ) (c lower : ℚ) (s : LouvainState)
    (hfix : ∀ v : Int, 0 ≤ v → v < g.nv →
      localTarget v g.edge_indices_ g.edge_list_ s.currComm vDegree s.localCinfo c =
        s.currComm v) :
    (passCommit g lower (passBody g vDegree c T s)).currComm = s.currComm ∧
    (passCommit g lower (passBody g vDegree c T s)).localCinfo = s.localCinfo := by
  obtain ⟨n, hn'⟩ := Int.eq_ofNat_of_zero_le hn
  rw [hn'] at hfix
  obtain ⟨hcur, hci, _, _⟩ := passCommit_fields g n hn' lower (passBody g vDegree c T s)
  obtain ⟨hcc, _, _, htg, _, hcu, _, hupd, _⟩ := passBody_fields g n hn' T hT vDegree c s
  have hr : ∀ v ∈ Finset.range n, (0 : Int) ≤ (v : Int) ∧ (v : Int) < (n : Int) := by
    intro v hv
    have := Finset.mem_range.1 hv
    omega
  constructor
  · rw [hcur, htg, hcc]
    funext j
    by_cases h : 0 ≤ j ∧ j < (n : Int)
    · simp only [if_pos h]
      exact hfix j h.1 h.2
    · simp only [if_neg h]
  · rw [hci, hupd, hn', updateLocalCinfo_eq]
    funext k
    by_cases h : 0 ≤ k ∧ k < (n : Int)
    · simp only [if_pos h]
      rw [hcu k h.1 h.2]
      have z1 : ∑ v in Finset.range n,
          sizeDelta (localTarget v g.edge_indices_ g.edge_list_ s.currComm vDegree
            s.localCinfo c) (s.currComm v) k = 0 := by
        apply Finset.sum_eq_zero
        intro v hv
        rw [hfix v (hr v hv).1 (hr v hv).2]
        simp [sizeDelta]
      have z2 : ∑ v in Finset.range n,
          degreeDelta (localTarget v g.edge_indices_ g.edge_list_ s.currComm vDegree
            s.localCinfo c) (s.currComm v) k (vDegree v) = 0 := by
        apply Finset.sum_eq_zero
        intro v hv
        rw [hfix v (hr v hv).1 (hr v hv).2]
        simp [degreeDelta]
      simp only [z1, z2, add_zero]
    · simp only [if_neg h]

theorem mod_arith (L A W : ℚ) (hW : 0 < W) (hL0 : 0 ≤ L) (hL : L ≤ W) (hA0 : 0 ≤ A)
    (hA : A ≤ W * W) :
    -1 ≤ L * (1 / W) - A * (1 / W) * (1 / W) ∧ L * (1 / W) - A * (1 / W) * (1 / W) ≤ 1 := by
  have h1 : L * (1 / W) ≤ 1 := by
    rw [mul_one_div]; exact (div_le_one hW).2 hL
  have h2 : 0 ≤ L * (1 / W) := by
    rw [mul_one_div]; exact div_nonneg hL0 (le_of_lt hW)
  have h3 : A * (1 / W) * (1 / W) ≤ 1 := by
    have : A * (1 / W) * (1 / W) = A / (W * W) := by field_simp
    rw [this]; exact (div_le_one (mul_pos hW hW)).2 hA
  have h4 : 0 ≤ A * (1 / W) * (1 / W) := by
    have : A * (1 / W) * (1 / W) = A / (W * W) := by field_simp
    rw [this]; exact div_nonneg hA0 (le_of_lt (mul_pos hW hW))
  constructor <;> linarith

theorem initVDegree_nonneg (g : Graph) (n : Nat) (hn : g.nv = n) (hw : g.NonnegWeights)
    (v : Int) : 0 ≤ initVDegree g v := by
  rw [initVDegree_eq g n hn]
  by_cases h : 0 ≤ v ∧ v < (n : Int)
  · simp only [if_pos h]
    apply List.sum_nonneg
    intro x hx
    obtain ⟨e, he, rfl⟩ := List.mem_map.1 hx
    exact hw v h.1 (by rw [hn]; exact h.2) e he
  · simp only [if_neg h]; exact le_refl _

theorem clusterWeight_bounds (g : Graph) (n : Nat) (hn : g.nv = n) (hw : g.NonnegWeights)
    (currComm : Int → Int) :
    0 ≤ ∑ j in Finset.range n, counter0 j g.edge_indices_ g.edge_list_ currComm ∧
    ∑ j in Finset.range n, counter0 j g.edge_indices_ g.edge_list_ currComm ≤
      totalDegree g := by
  have hr : ∀ v ∈ Finset.range n, (0 : Int) ≤ (v : Int) ∧ (v : Int) < (n : Int) := by
    intro v hv
    have := Finset.mem_range.1 hv
    omega
  have hb : ∀ j ∈ Finset.range n,
      0 ≤ counter0 j g.edge_indices_ g.edge_list_ currComm ∧
      counter0 j g.edge_indices_ g.edge_list_ currComm ≤ initVDegree g j := by
    intro j hj
    have h := counter0_bounds j g.edge_indices_ g.edge_list_ currComm
      (hw j (hr j hj).1 (by rw [hn]; exact (hr j hj).2))
    rw [initVDegree_eq g n hn]
    simp only [if_pos (hr j hj)]
    exact h
  rw [totalDegree_eq g n hn]
  exact ⟨Finset.sum_nonneg (fun j hj => (hb j hj).1),
    Finset.sum_le_sum (fun j hj => (hb j hj).2)⟩

/-- The modularity of every pass is at most 1 (non-negative weights, positive
total weight). -/
theorem currMod_le_one (g : Graph) (hn : 0 ≤ g.nv) (hw : g.NonnegWeights)
    (hW : 0 < totalDegree g) (T : Int) (hT : 1 ≤ T) (s : LouvainState) :
    (passBody g (initVDegree g) (initConstant g) T s).currMod ≤ 1 := by
  obtain ⟨n, hn'⟩ := Int.eq_ofNat_of_zero_le hn
  rw [passBody_currMod g n hn' T hT, initConstant_eq]
  obtain ⟨_, h2⟩ := clusterWeight_bounds g n hn' hw s.currComm
  have h1 : (∑ j in Finset.range n, counter0 j g.edge_indices_ g.edge_list_ s.currComm) *
      (1 / totalDegree g) ≤ 1 := by
    rw [mul_one_div]; exact (div_le_one hW).2 h2
  have h3 : 0 ≤ (∑ k in Finset.range n,
          ((s.localCinfo k).degree + ∑ v in Finset.range n,
            degreeDelta (localTarget v g.edge_indices_ g.edge_list_ s.currComm (initVDegree g)
              s.localCinfo (1 / totalDegree g)) (s.currComm v) k (initVDegree g v)) *
          ((s.localCinfo k).degree + ∑ v in Finset.range n,
            degreeDelta (localTarget v g.edge_indices_ g.edge_list_ s.currComm (initVDegree g)
              s.localCinfo (1 / totalDegree g)) (s.currComm v) k (initVDegree g v))) *
        (1 / totalDegree g) * (1 / totalDegree g) := by
    apply mul_nonneg
    · apply mul_nonneg
      · exact Finset.sum_nonneg (fun k _ => mul_self_nonneg _)
      · exact le_of_lt (one_div_pos.2 hW)
    · exact le_of_lt (one_div_pos.2 hW)
  linarith

theorem currMod_bounds (g : Graph) (n : Nat) (hn : g.nv = n) (hend : g.EndpointsInRange)
    (hw : g.NonnegWeights) (hW : 0 < totalDegree g) (T : Int) (hT : 1 ≤ T)
    (s : LouvainState) (hinv : PassInv g n s) (c : ℚ) (hc : c = 1 / totalDegree g) :
    -1 ≤ (passBody g (initVDegree g) c T s).currMod ∧
    (passBody g (initVDegree g) c T s).currMod ≤ 1 := by
  obtain ⟨_, _, _, _, hcw, _, _, _, hmod⟩ :=
    passBody_fields g n hn T hT (initVDegree g) c s
  have hr : ∀ v ∈ Finset.range n, (0 : Int) ≤ (v : Int) ∧ (v : Int) < (n : Int) := by
    intro v hv
    have := Finset.mem_range.1 hv
    omega
  have hL : ∑ j in Finset.range n,
      (passBody g (initVDegree g) c T s).clusterWeight j =
      ∑ j in Finset.range n, counter0 j g.edge_indices_ g.edge_list_ s.currComm := by
    apply Finset.sum_congr rfl
    intro j hj
    rw [hcw]
    simp only [if_pos (hr j hj)]
  obtain ⟨l0, l1⟩ := clusterWeight_bounds g n hn hw s.currComm
  have hdeg : ∀ k ∈ Finset.range n,
      0 ≤ ((passBody g (initVDegree g) c T s).localCinfo k).degree := by
    intro k hk
    rw [(passBody_localCinfo g n hn T hT hend c s hinv k (hr k hk).1
      (hr k hk).2).2]
    apply Finset.sum_nonneg
    intro v _
    split_ifs
    · exact initVDegree_nonneg g n hn hw v
    · exact le_refl _
  have hsum : ∑ k in Finset.range n,
      ((passBody g (initVDegree g) c T s).localCinfo k).degree =
      totalDegree g := by
    have h := (conservation_aux g n hn hend T hT c s hinv).2.2.2.1
    have e := sumDegree_eq n (passBody g (initVDegree g) c T s).localCinfo
    rw [← e, ← h, hn]
  have hA : ∑ k in Finset.range n,
      ((passBody g (initVDegree g) c T s).localCinfo k).degree *
        ((passBody g (initVDegree g) c T s).localCinfo k).degree ≤
      totalDegree g * totalDegree g := by
    have h1 : ∀ k ∈ Finset.range n,
        ((passBody g (initVDegree g) c T s).localCinfo k).degree *
          ((passBody g (initVDegree g) c T s).localCinfo k).degree ≤
        ((passBody g (initVDegree g) c T s).localCinfo k).degree *
          totalDegree g := by
      intro k hk
      apply mul_le_mul_of_nonneg_left _ (hdeg k hk)
      rw [← hsum]
      exact Finset.single_le_sum (fun i hi => hdeg i hi) hk
    calc _ ≤ ∑ k in Finset.range n,
          ((passBody g (initVDegree g) c T s).localCinfo k).degree *
            totalDegree g := Finset.sum_le_sum h1
      _ = totalDegree g * totalDegree g := by rw [← Finset.sum_mul, hsum]
  have hA0 : 0 ≤ ∑ k in Finset.range n,
      ((passBody g (initVDegree g) c T s).localCinfo k).degree *
        ((passBody g (initVDegree g) c T s).localCinfo k).degree :=
    Finset.sum_nonneg (fun k _ => mul_self_nonneg _)
  rw [hmod, computeModularity_eq g n hn, hL]
  subst hc
  exact mod_arith _ _ _ hW l0 l1 hA0 hA

theorem oneEdge_nonneg : oneEdge.NonnegWeights := by
  intro i _ _ e he
  rcases edgesOf_ofLists_mem _ _ _ i e he with h | h
  · simp only [List.mem_cons, List.mem_singleton, List.not_mem_nil, or_false] at h
    rcases h with h | h <;> subst h <;> norm_num
  · subst h; norm_num

/-! ## Termination of the convergence loop -/

theorem prevModAt_lower_bound (g : Graph) (lower thresh : ℚ) (T : Int)
    (hno : ∀ k, ¬ haltsAt g lower thresh T k) (k : Nat) :
    lower + (k : ℚ) * thresh ≤ prevModAt g lower T k := by
  induction k with
  | zero => simp [prevModAt, stateAt, loopEntry]
  | succ k ih =>
    rw [prevModAt_succ]
    have h := hno k
    simp only [haltsAt, not_lt] at h
    have : currModAt g lower T k ≤ max (currModAt g lower T k) lower := le_max_left _ _
    push_cast
    linarith

theorem exists_haltsAt (g : Graph) (hn : 0 ≤ g.nv) (hw : g.NonnegWeights)
    (hW : 0 < totalDegree g) (lower thresh : ℚ) (hth : 0 < thresh) (T : Int) (hT : 1 ≤ T) :
    ∃ k, haltsAt g lower thresh T k := by
  by_contra hcon
  have hno : ∀ k, ¬ haltsAt g lower thresh T k := fun k hk => hcon ⟨k, hk⟩
  obtain ⟨m, hm⟩ := exists_nat_gt ((max 1 lower - lower) / thresh)
  have h1 := prevModAt_lower_bound g lower thresh T hno (m + 1)
  have h2 : prevModAt g lower T (m + 1) ≤ max 1 lower := by
    rw [prevModAt_succ]
    exact max_le_max (currMod_le_one g hn hw hW T hT _) (le_refl _)
  have h3 : max 1 lower - lower < (m : ℚ) * thresh := (div_lt_iff₀ hth).1 hm
  push_cast at h1
  linarith

/-- When no vertex of the two-edge graph moves any more (from pass 3 on), the
assignment, the aggregates and the modularity stay the same. -/
theorem twoEdges_fixed (k : Nat) :
    (stateAt twoEdges (-1) 1 (k + 2)).currComm = (stateAt twoEdges (-1) 1 2).currComm ∧
    (stateAt twoEdges (-1) 1 (k + 2)).localCinfo = (stateAt twoEdges (-1) 1 2).localCinfo := by
  induction k with
  | zero => exact ⟨rfl, rfl⟩
  | succ k ih =>
    have hfix : ∀ v : Int, 0 ≤ v → v < twoEdges.nv →
        localTarget v twoEdges.edge_indices_ twoEdges.edge_list_
          (stateAt twoEdges (-1) 1 (k + 2)).currComm (initVDegree twoEdges)
          (stateAt twoEdges (-1) 1 (k + 2)).localCinfo (initConstant twoEdges) =
        (stateAt twoEdges (-1) 1 (k + 2)).currComm v := by
      intro v h0 h1
      rw [ih.1, ih.2]
      have h1' : v < 4 := h1
      interval_cases v <;> decide!
    obtain ⟨f1, f2⟩ := passStep_fixed twoEdges (by decide) 1 (le_refl _)
      (initVDegree twoEdges) (initConstant twoEdges) (-1) (stateAt twoEdges (-1) 1 (k + 2)) hfix
    exact ⟨f1.trans ih.1, f2.trans ih.2⟩

theorem twoEdges_currModAt (k : Nat) : currModAt twoEdges (-1) 1 (k + 2) = 1 / 2 := by
  obtain ⟨h1, h2⟩ := twoEdges_fixed k
  have : currModAt twoEdges (-1) 1 (k + 2) = currModAt twoEdges (-1) 1 2 :=
    passBody_currMod_congr twoEdges (by decide) 1 (le_refl _) _ _ _ _ h1 h2
  rw [this]
  decide!

theorem twoEdges_never_halts (k : Nat) : ¬ haltsAt twoEdges (-1) 0 1 k := by
  rcases Nat.lt_or_ge k 3 with h | h
  · interval_cases k <;> (unfold haltsAt; decide!)
  · obtain ⟨m, rfl⟩ : ∃ m, k = (m + 2) + 1 := ⟨k - 3, by omega⟩
    simp only [haltsAt]
    rw [prevModAt_succ, twoEdges_currModAt (m + 1), twoEdges_currModAt m]
    norm_num

/-! ## The table built by `buildLocalMapCounter` -/

theorem firstSeen_append_singleton (l : List Int) (x : Int) :
    firstSeen (l ++ [x]) = if x ∈ firstSeen l then firstSeen l else firstSeen l ++ [x] := by
  simp [firstSeen, List.foldl_append]

theorem mem_firstSeen (l : List Int) : ∀ x : Int, x ∈ firstSeen l ↔ x ∈ l := by
  induction l using List.reverseRecOn with
  | nil => intro x; simp [firstSeen]
  | append_singleton l y ih =>
    intro x
    rw [firstSeen_append_singleton]
    by_cases h : y ∈ firstSeen l
    · rw [if_pos h, List.mem_append, List.mem_singleton, ih]
      constructor
      · exact Or.inl
      · rintro (h' | h')
        · exact h'
        · rw [h']; exact (ih y).1 h
    · rw [if_neg h]
      simp only [List.mem_append, List.mem_singleton, ih]

theorem firstSeen_nodup (l : List Int) : (firstSeen l).Nodup := by
  induction l using List.reverseRecOn with
  | nil => simp [firstSeen]
  | append_singleton l y ih =>
    rw [firstSeen_append_singleton]
    by_cases h : y ∈ firstSeen l
    · rw [if_pos h]; exact ih
    · rw [if_neg h]
      refine List.Nodup.append ih (List.nodup_singleton y) ?_
      intro a ha hb
      rw [List.mem_singleton] at hb
      exact h (hb ▸ ha)

theorem otherComms_append_singleton (currComm : Int → Int) (cc : Int) (es : List Edge)
    (e : Edge) :
    otherComms currComm cc (es ++ [e]) =
      if currComm e.tail_ = cc then otherComms currComm cc es
      else otherComms currComm cc es ++ [currComm e.tail_] := by
  unfold otherComms
  by_cases h : currComm e.tail_ = cc
  · simp [h, List.filter_append]
  · simp [h, List.filter_append, List.filter_cons]

theorem mem_otherComms (currComm : Int → Int) (cc : Int) (es : List Edge) (x : Int) :
    x ∈ otherComms currComm cc es ↔ x ≠ cc ∧ ∃ e ∈ es, currComm e.tail_ = x := by
  unfold otherComms
  simp only [List.mem_filter, List.mem_map, decide_eq_true_eq]
  tauto

theorem weightInto_append_singleton (currComm : Int → Int) (f : Int) (es : List Edge)
    (e : Edge) :
    weightInto currComm f (es ++ [e]) =
      weightInto currComm f es + if currComm e.tail_ = f then e.weight_ else 0 := by
  unfold weightInto
  by_cases h : currComm e.tail_ = f
  · simp [h, List.filter_append, List.filter_cons]
  · simp [h, List.filter_append, List.filter_cons]

theorem weightInto_eq_zero (currComm : Int → Int) (f : Int) (es : List Edge)
    (h : ∀ e ∈ es, currComm e.tail_ ≠ f) : weightInto currComm f es = 0 := by
  unfold weightInto
  have : es.filter (fun e => decide (currComm e.tail_ = f)) = [] := by
    rw [List.filter_eq_nil_iff]
    intro e he
    simpa using h e he
  rw [this]; rfl

theorem selfLoopWeight_append_singleton (vertex : Int) (es : List Edge) (e : Edge) :
    selfLoopWeight vertex (es ++ [e]) =
      if e.tail_ = vertex then selfLoopWeight vertex es + e.weight_
      else selfLoopWeight vertex es := by
  unfold selfLoopWeight
  by_cases h : e.tail_ = vertex
  · simp [h, List.filter_append, List.filter_cons]
  · simp [h, List.filter_append, List.filter_cons]

theorem set_map_getD {α : Type} (l : List α) (g g' : α → ℚ) (j : Nat) (w : ℚ)
    (hj : j < l.length) (hjj : g' l[j] = g l[j] + w)
    (hne : ∀ (i : Nat) (hi : i < l.length), i ≠ j → g' l[i] = g l[i]) :
    (l.map g).set j ((l.map g).getD j 0 + w) = l.map g' := by
  apply List.ext_getElem
  · simp
  · intro i h1 h2
    have hi : i < l.length := by simpa using h2
    rw [List.getElem_set]
    by_cases h : j = i
    · subst h
      rw [if_pos rfl, List.getD_eq_getElem _ _ (by simpa using hj)]
      simp only [List.getElem_map]
      exact hjj.symm
    · rw [if_neg h]
      simp only [List.getElem_map]
      exact (hne i hi (fun e => h e.symm)).symm

theorem tableInv_fs_nodup (currComm : Int → Int) (cc : Int) (es : List Edge) :
    (cc :: (firstSeen (otherComms currComm cc es)).take 31).Nodup := by
  rw [List.nodup_cons]
  constructor
  · intro h
    have h1 := List.mem_of_mem_take h
    rw [mem_firstSeen, mem_otherComms] at h1
    exact h1.1 rfl
  · exact List.Nodup.sublist (List.take_sublist _ _) (firstSeen_nodup _)

theorem tableInv_entry (currComm : Int → Int) (vertex cc : Int) (es : List Edge)
    (st : MapState) (hinv : TableInv currComm vertex cc es st) (k : Nat)
    (hk : k < st.clmap.length) :
    (st.clmap[k]).s = (k : Int) ∧
    ∀ (i : Nat) (hi : i < st.clmap.length), i ≠ k → (st.clmap[i]).f ≠ (st.clmap[k]).f := by
  obtain ⟨h1, h2, _, _, _⟩ := hinv
  constructor
  · have hk' : k < (st.clmap.map clmap_t.s).length := by simpa using hk
    have e1 : (st.clmap.map clmap_t.s)[k] = (st.clmap[k]).s := by
      simp
    rw [← e1]
    simp only [h2]
    simp
  · intro i hi hne heq
    have hnd : (st.clmap.map clmap_t.f).Nodup := by
      rw [h1]; exact tableInv_fs_nodup currComm cc es
    have hi' : i < (st.clmap.map clmap_t.f).length := by simpa using hi
    have hk' : k < (st.clmap.map clmap_t.f).length := by simpa using hk
    have heq' : (st.clmap.map clmap_t.f)[i] = (st.clmap.map clmap_t.f)[k] := by
      simpa using heq
    exact hne ((List.Nodup.getElem_inj_iff hnd).1 heq')

theorem tableInv_length (currComm : Int → Int) (vertex cc : Int) (es : List Edge)
    (st : MapState) (hinv : TableInv currComm vertex cc es st) :
    st.clmap.length = 1 + min 31 (firstSeen (otherComms currComm cc es)).length ∧
    st.counter.length = st.clmap.length := by
  obtain ⟨h1, _, h3, _, _⟩ := hinv
  constructor
  · have := congrArg List.length h1
    simp only [List.length_map, List.length_cons, List.length_take] at this
    omega
  · rw [h3]; simp

theorem buildStep_selfLoop (currComm : Int → Int) (vertex : Int) (st : MapState)
    (e : Edge) :
    (buildLocalMapCounterStep currComm vertex st e).selfLoop =
      if e.tail_ = vertex then st.selfLoop + e.weight_ else st.selfLoop := by
  simp only [buildLocalMapCounterStep]
  generalize List.find? (fun x => decide (x.f = currComm e.tail_)) st.clmap = r
  cases r with
  | none => rfl
  | some x =>
    simp only
    split_ifs <;> rfl

theorem tableInv_step_found (currComm : Int → Int) (vertex cc : Int) (es : List Edge)
    (st : MapState) (hinv : TableInv currComm vertex cc es st) (e : Edge) (x : clmap_t)
    (hfind : st.clmap.find? (fun y => decide (y.f = currComm e.tail_)) = some x) :
    TableInv currComm vertex cc (es ++ [e]) (buildLocalMapCounterStep currComm vertex st e) := by
  obtain ⟨hlen, hlenc⟩ := tableInv_length currComm vertex cc es st hinv
  have hxf : x.f = currComm e.tail_ := by simpa using List.find?_some hfind
  obtain ⟨j, hj, hxj⟩ := List.getElem_of_mem (List.mem_of_find?_eq_some hfind)
  obtain ⟨hsj, hdist⟩ := tableInv_entry currComm vertex cc es st hinv j hj
  rw [hxj] at hsj
  have hlt : x.s < (st.counter.length : Int) := by rw [hsj, hlenc]; omega
  have hstep : buildLocalMapCounterStep currComm vertex st e =
      ⟨st.clmap, st.counter.set j (st.counter.getD j 0 + e.weight_), st.numUniqueClusters,
        if e.tail_ = vertex then st.selfLoop + e.weight_ else st.selfLoop⟩ := by
    simp only [buildLocalMapCounterStep, hfind]
    rw [if_pos hlt]
    simp only [getAt, hsj, Int.toNat_ofNat]
  obtain ⟨h1, h2, h3, h4, h5⟩ := hinv
  rw [hstep]
  refine ⟨?_, h2, ?_, ?_, h5⟩
  · show st.clmap.map clmap_t.f = _
    rw [h1, otherComms_append_singleton]
    by_cases hcc : currComm e.tail_ = cc
    · rw [if_pos hcc]
    · rw [if_neg hcc, firstSeen_append_singleton]
      have hmem : currComm e.tail_ ∈ st.clmap.map clmap_t.f := by
        rw [← hxf, ← hxj]
        exact List.mem_map_of_mem _ (List.getElem_mem _)
      rw [h1, List.mem_cons] at hmem
      rcases hmem with hm | hm
      · exact absurd hm hcc
      · rw [if_pos (List.mem_of_mem_take hm)]
  · show st.counter.set j (st.counter.getD j 0 + e.weight_) = _
    rw [h3]
    apply set_map_getD st.clmap _ _ j e.weight_ hj
    · rw [weightInto_append_singleton, hxj, if_pos hxf.symm]
    · intro i hi hne
      have := hdist i hi hne
      rw [hxj, hxf] at this
      rw [weightInto_append_singleton, if_neg (fun h => this h.symm), add_zero]
  · show (if e.tail_ = vertex then st.selfLoop + e.weight_ else st.selfLoop) = _
    rw [selfLoopWeight_append_singleton, h4]

theorem tableInv_step_none (currComm : Int → Int) (vertex cc : Int) (es : List Edge)
    (st : MapState) (hinv : TableInv currComm vertex cc es st) (e : Edge)
    (hfind : st.clmap.find? (fun y => decide (y.f = currComm e.tail_)) = none) :
    TableInv currComm vertex cc (es ++ [e]) (buildLocalMapCounterStep currComm vertex st e) := by
  obtain ⟨hlen, hlenc⟩ := tableInv_length currComm vertex cc es st hinv
  obtain ⟨h1, h2, h3, h4, h5⟩ := hinv
  have hnot : ∀ y ∈ st.clmap, y.f ≠ currComm e.tail_ := by
    intro y hy
    simpa using (List.find?_eq_none.1 hfind) y hy
  have hnmem : currComm e.tail_ ∉ cc :: (firstSeen (otherComms currComm cc es)).take 31 := by
    rw [← h1]
    intro hm
    obtain ⟨y, hy, hyf⟩ := List.mem_map.1 hm
    exact hnot y hy hyf
  have hcc : currComm e.tail_ ≠ cc := fun h => hnmem (by rw [h]; exact List.mem_cons_self _ _)
  have hnt : currComm e.tail_ ∉ (firstSeen (otherComms currComm cc es)).take 31 :=
    fun h => hnmem (List.mem_cons_of_mem _ h)
  have hmapw : st.clmap.map (fun y => weightInto currComm y.f (es ++ [e])) =
      st.clmap.map (fun y => weightInto currComm y.f es) := by
    apply List.map_congr_left
    intro y hy
    rw [weightInto_append_singleton, if_neg (fun h => hnot y hy h.symm), add_zero]
  by_cases hfull : st.clmap.length < 32
  · have hc1 : (st.clmap.length : Int) < CLMAP_MAX_NUM := by
      simp only [CLMAP_MAX_NUM]; omega
    have hc2 : (st.counter.length : Int) < COUNT_MAX_NUM := by
      simp only [COUNT_MAX_NUM]; omega
    have hstep : buildLocalMapCounterStep currComm vertex st e =
        ⟨st.clmap ++ [⟨currComm e.tail_, st.numUniqueClusters⟩], st.counter ++ [e.weight_],
          st.numUniqueClusters + 1,
          if e.tail_ = vertex then st.selfLoop + e.weight_ else st.selfLoop⟩ := by
      simp only [buildLocalMapCounterStep, hfind, if_pos hc1, if_pos hc2]
    have hL : (firstSeen (otherComms currComm cc es)).length < 31 := by omega
    have htake : (firstSeen (otherComms currComm cc es)).take 31 =
        firstSeen (otherComms currComm cc es) := List.take_of_length_le (by omega)
    rw [htake] at hnt h1
    rw [hstep]
    refine ⟨?_, ?_, ?_, ?_, ?_⟩
    · show (st.clmap ++ [(⟨currComm e.tail_, st.numUniqueClusters⟩ : clmap_t)]).map
          clmap_t.f = _
      rw [List.map_append, h1, otherComms_append_singleton, if_neg hcc,
        firstSeen_append_singleton, if_neg hnt, List.take_of_length_le (by simp; omega)]
      simp
    · show (st.clmap ++ [(⟨currComm e.tail_, st.numUniqueClusters⟩ : clmap_t)]).map
          clmap_t.s = _
      rw [List.map_append, h2, List.length_append, List.length_singleton, List.range_succ,
        List.map_append, h5 hfull]
      simp
    · show st.counter ++ [e.weight_] = _
      rw [List.map_append, hmapw, ← h3]
      congr 1
      simp only [List.map_cons, List.map_nil]
      rw [weightInto_append_singleton, if_pos rfl, weightInto_eq_zero, zero_add]
      intro e' he' heq
      exact hnt ((mem_firstSeen _ _).2 ((mem_otherComms _ _ _ _).2 ⟨hcc, e', he', heq⟩))
    · show (if e.tail_ = vertex then st.selfLoop + e.weight_ else st.selfLoop) = _
      rw [selfLoopWeight_append_singleton, h4]
    · intro _
      show st.numUniqueClusters + 1 = _
      rw [h5 hfull, List.length_append, List.length_singleton]
      push_cast; rfl
  · have hc1 : ¬ (st.clmap.length : Int) < CLMAP_MAX_NUM := by
      simp only [CLMAP_MAX_NUM]; omega
    have hc2 : ¬ (st.counter.length : Int) < COUNT_MAX_NUM := by
      simp only [COUNT_MAX_NUM]; omega
    have hstep : buildLocalMapCounterStep currComm vertex st e =
        ⟨st.clmap, st.counter, st.numUniqueClusters + 1,
          if e.tail_ = vertex then st.selfLoop + e.weight_ else st.selfLoop⟩ := by
      simp only [buildLocalMapCounterStep, hfind, if_neg hc1, if_neg hc2]
    have hL : 31 ≤ (firstSeen (otherComms currComm cc es)).length := by omega
    rw [hstep]
    refine ⟨?_, h2, ?_, ?_, fun h => absurd h hfull⟩
    · show st.clmap.map clmap_t.f = _
      rw [h1, otherComms_append_singleton, if_neg hcc, firstSeen_append_singleton]
      split_ifs
      · rfl
      · rw [List.take_append_of_le_length hL]
    · show st.counter = _
      rw [hmapw]; exact h3
    · show (if e.tail_ = vertex then st.selfLoop + e.weight_ else st.selfLoop) = _
      rw [selfLoopWeight_append_singleton, h4]

theorem tableInv_step (currComm : Int → Int) (vertex cc : Int) (es : List Edge)
    (st : MapState) (hinv : TableInv currComm vertex cc es st) (e : Edge) :
    TableInv currComm vertex cc (es ++ [e]) (buildLocalMapCounterStep currComm vertex st e) := by
  rcases hfind : st.clmap.find? (fun y => decide (y.f = currComm e.tail_)) with _ | x
  · exact tableInv_step_none currComm vertex cc es st hinv e hfind
  · exact tableInv_step_found currComm vertex cc es st hinv e x hfind

theorem tableInv_foldl (currComm : Int → Int) (vertex cc : Int) (rest : List Edge) :
    ∀ (es : List Edge) (st : MapState), TableInv currComm vertex cc es st →
      TableInv currComm vertex cc (es ++ rest)
        (rest.foldl (buildLocalMapCounterStep currComm vertex) st) := by
  induction rest with
  | nil => intro es st h; simpa using h
  | cons e rest ih =>
    intro es st h
    rw [List.foldl_cons]
    have := ih (es ++ [e]) _ (tableInv_step currComm vertex cc es st h e)
    simpa using this

theorem tableInv_buildFrom (currComm : Int → Int) (vertex : Int) (edges : List Edge) :
    TableInv currComm vertex (currComm vertex) edges (buildFrom currComm vertex edges) := by
  have h0 : TableInv currComm vertex (currComm vertex) []
      ⟨[⟨currComm vertex, 0⟩], [0], 1, 0⟩ := by
    refine ⟨?_, ?_, ?_, ?_, ?_⟩ <;>
      simp [firstSeen, otherComms, weightInto, selfLoopWeight, List.range_succ]
  have := tableInv_foldl currComm vertex (currComm vertex) edges [] _ h0
  simpa [buildFrom] using this

theorem localTables_eq_buildFrom (i : Int) (edge_indices : Int → Int)
    (edge_list : Int → Edge) (currComm : Int → Int) :
    localTables i edge_indices edge_list currComm =
      buildFrom currComm i (edgesOf edge_list (edge_indices i) (edge_indices (i + 1))) := rfl

theorem firstSeen_length (l : List Int) : (firstSeen l).length = l.toFinset.card := by
  rw [← List.toFinset_card_of_nodup (firstSeen_nodup l)]
  congr 1
  ext x
  simp [mem_firstSeen]

theorem buildFrom_getAt_counter (currComm : Int → Int) (vertex : Int) (edges : List Edge)
    (x : clmap_t) (hx : x ∈ (buildFrom currComm vertex edges).clmap) :
    0 ≤ x.s ∧ x.s < ((buildFrom currComm vertex edges).counter.length : Int) ∧
    getAt (buildFrom currComm vertex edges).counter x.s 0 = weightInto currComm x.f edges := by
  have hinv := tableInv_buildFrom currComm vertex edges
  obtain ⟨_, hlenc⟩ := tableInv_length _ _ _ _ _ hinv
  obtain ⟨j, hj, hxj⟩ := List.getElem_of_mem hx
  have hsj := (tableInv_entry _ _ _ _ _ hinv j hj).1
  rw [hxj] at hsj
  obtain ⟨_, _, h3, _, _⟩ := hinv
  refine ⟨by omega, by omega, ?_⟩
  have hj' : j < (buildFrom currComm vertex edges).counter.length := by omega
  simp only [getAt, hsj, Int.toNat_ofNat]
  rw [List.getD_eq_getElem _ _ hj']
  simp only [h3, List.getElem_map, hxj]

theorem buildFrom_head (currComm : Int → Int) (vertex : Int) (edges : List Edge) :
    (buildFrom currComm vertex edges).clmap.head? = some ⟨currComm vertex, 0⟩ ∧
    getAt (buildFrom currComm vertex edges).counter 0 0 =
      weightInto currComm (currComm vertex) edges := by
  have hinv := tableInv_buildFrom currComm vertex edges
  obtain ⟨hlen, hlenc⟩ := tableInv_length _ _ _ _ _ hinv
  have h0 : 0 < (buildFrom currComm vertex edges).clmap.length := by omega
  have hs0 := (tableInv_entry _ _ _ _ _ hinv 0 h0).1
  obtain ⟨h1, _, _, _, _⟩ := hinv
  have hf0 : ((buildFrom currComm vertex edges).clmap[0]).f = currComm vertex := by
    have h0' : 0 < ((buildFrom currComm vertex edges).clmap.map clmap_t.f).length := by
      simpa using h0
    have : ((buildFrom currComm vertex edges).clmap.map clmap_t.f)[0] = currComm vertex := by
      simp only [h1, List.getElem_cons_zero]
    simpa using this
  have hhead : (buildFrom currComm vertex edges).clmap[0] = ⟨currComm vertex, 0⟩ := by
    cases hx : (buildFrom currComm vertex edges).clmap[0] with
    | mk f s =>
      rw [hx] at hs0 hf0
      simp only at hs0 hf0
      rw [hs0, hf0]; rfl
  constructor
  · rw [List.head?_eq_getElem?, List.getElem?_eq_getElem h0, hhead]
  · have := (buildFrom_getAt_counter currComm vertex edges _ (List.getElem_mem h0)).2.2
    rw [hhead] at this
    exact this

theorem counter0_eq (i : Int) (edge_indices : Int → Int) (edge_list : Int → Edge)
    (currComm : Int → Int) :
    counter0 i edge_indices edge_list currComm =
      weightInto currComm (currComm i)
        (edgesOf edge_list (edge_indices i) (edge_indices (i + 1))) := by
  unfold counter0
  by_cases h : edge_indices i ≠ edge_indices (i + 1)
  · rw [if_pos h, localTables_eq_buildFrom]
    exact (buildFrom_head currComm i _).2
  · rw [if_neg h]
    have : edgesOf edge_list (edge_indices i) (edge_indices (i + 1)) = [] := by
      simp only [edgesOf]
      rw [forRange_nil _ _ (le_of_eq (not_not.1 h).symm)]
      rfl
    rw [this]; rfl

theorem buildFold_clmap_append (currComm : Int → Int) (vertex : Int) (rest : List Edge) :
    ∀ st : MapState, ∃ t : List clmap_t,
      (rest.foldl (buildLocalMapCounterStep currComm vertex) st).clmap = st.clmap ++ t := by
  induction rest with
  | nil => intro st; exact ⟨[], by simp⟩
  | cons e rest ih =>
    intro st
    rw [List.foldl_cons]
    obtain ⟨t, ht⟩ := ih (buildLocalMapCounterStep currComm vertex st e)
    rcases buildStep_clmap currComm vertex st e with h | h
    · exact ⟨t, by rw [ht, h]⟩
    · exact ⟨⟨currComm e.tail_, st.numUniqueClusters⟩ :: t, by rw [ht, h]; simp⟩

theorem buildStep_full (currComm : Int → Int) (vertex : Int) (st : MapState) (e : Edge)
    (h1 : st.clmap.length = 32) (h2 : st.counter.length = 32)
    (hnot : ∀ y ∈ st.clmap, y.f ≠ currComm e.tail_) :
    (buildLocalMapCounterStep currComm vertex st e).clmap = st.clmap ∧
    (buildLocalMapCounterStep currComm vertex st e).counter = st.counter := by
  have hfind : st.clmap.find? (fun y => decide (y.f = currComm e.tail_)) = none := by
    rw [List.find?_eq_none]
    intro y hy
    simpa using hnot y hy
  have hc1 : ¬ (st.clmap.length : Int) < CLMAP_MAX_NUM := by
    simp only [CLMAP_MAX_NUM]; omega
  have hc2 : ¬ (st.counter.length : Int) < COUNT_MAX_NUM := by
    simp only [COUNT_MAX_NUM]; omega
  simp only [buildLocalMapCounterStep, hfind, if_neg hc1, if_neg hc2, and_self]

/-! ## Vertices without edges, and the cluster weights of a sweep -/

theorem execLouvainParallel_clusterWeight (n T : Int) (hn : 0 ≤ n) (hT : 1 ≤ T)
    (edge_indices : Int → Int) (edge_list : Int → Edge) (currComm : Int → Int)
    (vDegree : Int → ℚ) (localCinfo : Int → Comm) (c : ℚ) (st : SweepState)
    (v : Int) (h0 : 0 ≤ v) (h1 : v < n) :
    (execLouvainParallel n edge_indices edge_list currComm vDegree localCinfo c T
        st).clusterWeight v =
      st.clusterWeight v + counter0 v edge_indices edge_list currComm := by
  rw [execLouvainParallel_eq_worker n T hn hT]
  obtain ⟨m, rfl⟩ := Int.eq_ofNat_of_zero_le hn
  rw [(worker_eq m edge_indices edge_list currComm vDegree localCinfo c st).2.1]
  simp only [if_pos (And.intro h0 h1)]

theorem edgesOf_empty (edge_list : Int → Edge) (e0 e1 : Int) (h : e1 ≤ e0) :
    edgesOf edge_list e0 e1 = [] := by
  simp only [edgesOf]
  rw [forRange_nil _ _ h]
  rfl

theorem getMaxIndex_seed (selfLoop : ℚ) (localCinfo : Int → Comm) (vDegree : ℚ)
    (currSize : Int) (currDegree : ℚ) (currComm : Int) (constant : ℚ) :
    getMaxIndex [⟨currComm, 0⟩] [0] selfLoop localCinfo vDegree currSize currDegree currComm
      constant = currComm := by
  simp [getMaxIndex, getMaxIndexLoop, getMaxIndexStep]

theorem localTarget_no_edges (i : Int) (edge_indices : Int → Int)
    (edge_list : Int → Edge) (currComm : Int → Int) (vDegree : Int → ℚ)
    (localCinfo : Int → Comm) (c : ℚ) (h : edge_indices (i + 1) ≤ edge_indices i) :
    localTarget i edge_indices edge_list currComm vDegree localCinfo c = currComm i := by
  unfold localTarget
  by_cases hne : edge_indices i ≠ edge_indices (i + 1)
  · simp only [if_pos hne]
    rw [localTables_eq_buildFrom, edgesOf_empty _ _ _ h]
    simp only [buildFrom, List.foldl_nil]
    exact getMaxIndex_seed _ _ _ _ _ _ _
  · simp only [if_neg hne]

theorem counter0_no_edges (i : Int) (edge_indices : Int → Int)
    (edge_list : Int → Edge) (currComm : Int → Int)
    (h : edge_indices (i + 1) ≤ edge_indices i) :
    counter0 i edge_indices edge_list currComm = 0 := by
  rw [counter0_eq, edgesOf_empty _ _ _ h]
  rfl

theorem stateAt_currComm_no_edges (g : Graph) (hn : 0 ≤ g.nv) (lower : ℚ) (T : Int)
    (hT : 1 ≤ T) (v : Int) (h0 : 0 ≤ v) (h1 : v < g.nv)
    (h : g.edge_indices_ (v + 1) ≤ g.edge_indices_ v) (k : Nat) :
    (stateAt g lower T k).currComm v = v := by
  obtain ⟨n, hn'⟩ := Int.eq_ofNat_of_zero_le hn
  rw [hn'] at h1
  induction k with
  | zero =>
    show (loopEntry g lower).currComm v = v
    rw [loopEntry_currComm g n hn']
    simp only [if_pos (And.intro h0 h1)]
  | succ k ih =>
    show (passCommit g lower (passBody g (initVDegree g) (initConstant g) T
      (stateAt g lower T k))).currComm v = v
    rw [(passCommit_fields g n hn' lower _).1]
    simp only [if_pos (And.intro h0 h1)]
    rw [(passBody_fields g n hn' T hT (initVDegree g) (initConstant g) _).2.2.2.1]
    simp only [if_pos (And.intro h0 h1)]
    rw [localTarget_no_edges _ _ _ _ _ _ _ h, ih]

/-! ## The chunks of `execLouvainParallel` -/

/-- The sweep as the loop over the threads, thread `i` running `worker` on the
chunk from `chunkStart i` to `chunkStart (i + 1)`. -/
theorem execLouvainParallel_chunks (n T : Int) (edge_indices : Int → Int)
    (edge_list : Int → Edge) (currComm : Int → Int) (vDegree : Int → ℚ)
    (localCinfo : Int → Comm) (c : ℚ) (st : SweepState) :
    execLouvainParallel n edge_indices edge_list currComm vDegree localCinfo c T st =
      (List.range T.toNat).foldl
        (fun st (i : Nat) => worker (chunkStart n T i) (chunkStart n T (i + 1)) edge_indices
          edge_list currComm vDegree localCinfo c st) st := by
  have key : ∀ k : Nat,
      ((List.range k).map (fun (j : Nat) => (0 : Int) + (j : Int))).foldl
        (fun (p : Int × SweepState) i =>
          (chunkEnd n T p.1 i,
            worker p.1 (chunkEnd n T p.1 i) edge_indices edge_list currComm
              vDegree localCinfo c p.2))
        (0, st) =
      (chunkStart n T k,
        (List.range k).foldl
          (fun st (i : Nat) => worker (chunkStart n T i) (chunkStart n T (i + 1)) edge_indices
            edge_list currComm vDegree localCinfo c st) st) := by
    intro k
    induction k with
    | zero => rfl
    | succ k ih =>
      rw [List.range_succ, List.map_append, List.foldl_append, ih, List.foldl_append]
      simp only [List.map_cons, List.map_nil, List.foldl_cons, List.foldl_nil, zero_add,
        chunkStart]
  unfold execLouvainParallel forRange
  rw [show (T - 0).toNat = T.toNat by simp, key]

theorem chunkStart_le (n T : Int) (hn : 0 ≤ n) (hT : 0 < T) (i j : Nat) (h : i ≤ j) :
    chunkStart n T i ≤ chunkStart n T j := by
  induction j with
  | zero =>
    have : i = 0 := by omega
    rw [this]
  | succ j ih =>
    rcases Nat.lt_or_ge i (j + 1) with h' | h'
    · exact le_trans (ih (by omega)) (chunkStart_mono n T hn hT j).2
    · have : i = j + 1 := by omega
      rw [this]

theorem chunk_exists (n T : Int) (k : Nat) :
    ∀ v : Int, 0 ≤ v → v < chunkStart n T k →
      ∃ i : Nat, i < k ∧ chunkStart n T i ≤ v ∧ v < chunkStart n T (i + 1) := by
  induction k with
  | zero =>
    intro v h0 h1
    simp only [chunkStart] at h1
    omega
  | succ k ih =>
    intro v h0 h1
    by_cases h : v < chunkStart n T k
    · obtain ⟨i, hi, h2, h3⟩ := ih v h0 h
      exact ⟨i, by omega, h2, h3⟩
    · exact ⟨k, by omega, by omega, h1⟩

theorem chunk_size (n T : Int) (hn : 0 ≤ n) (hT : 0 < T) (i : Nat) :
    chunkEnd n T (chunkStart n T i) i - chunkStart n T i =
      n / T + (if (i : Int) < n % T then 1 else 0) := by
  simp only [chunkEnd]
  rw [Int.tdiv_eq_ediv hn (le_of_lt hT), Int.tmod_eq_emod hn (le_of_lt hT)]
  ring

/-! ## Counting members, and the order of the vertices in a sweep -/

theorem filter_length_eq_sum {α : Type} (p : α → Bool) (l : List α) :
    ((l.filter p).length : Int) = (l.map (fun v => if p v = true then (1 : Int) else 0)).sum := by
  induction l with
  | nil => rfl
  | cons x xs ih =>
    by_cases h : p x = true
    · simp only [List.filter_cons, h, if_true, List.length_cons, List.map_cons, List.sum_cons]
      push_cast
      rw [ih]; ring
    · have h' : p x = false := by simpa using h
      simp only [List.filter_cons, h', List.map_cons, List.sum_cons]
      rw [← ih]
      simp

theorem filter_map_sum_eq_sum {α : Type} (p : α → Bool) (f : α → ℚ) (l : List α) :
    ((l.filter p).map f).sum = (l.map (fun v => if p v = true then f v else 0)).sum := by
  induction l with
  | nil => rfl
  | cons x xs ih =>
    by_cases h : p x = true
    · simp only [List.filter_cons, h, if_true, List.map_cons, List.sum_cons]
      rw [ih]
    · have h' : p x = false := by simpa using h
      simp only [List.filter_cons, h', List.map_cons, List.sum_cons]
      rw [← ih]
      simp

theorem sweepState_ext (a b : SweepState) (h1 : a.targetComm = b.targetComm)
    (h2 : a.localCupdate = b.localCupdate) (h3 : a.clusterWeight = b.clusterWeight) :
    a = b := by
  cases a; cases b
  simp only at h1 h2 h3
  simp only [h1, h2, h3]

theorem execLouvainIteration_comm (i j : Int) (edge_indices : Int → Int)
    (edge_list : Int → Edge) (currComm : Int → Int) (vDegree : Int → ℚ)
    (localCinfo : Int → Comm) (c : ℚ) (st : SweepState) :
    execLouvainIteration j edge_indices edge_list currComm vDegree localCinfo c
        (execLouvainIteration i edge_indices edge_list currComm vDegree localCinfo c st) =
      execLouvainIteration i edge_indices edge_list currComm vDegree localCinfo c
        (execLouvainIteration j edge_indices edge_list currComm vDegree localCinfo c st) := by
  by_cases hij : i = j
  · subst hij; rfl
  · have hji : j ≠ i := fun h => hij h.symm
    obtain ⟨a1, a2, a3⟩ := execLouvainIteration_eq i edge_indices edge_list currComm vDegree
      localCinfo c st
    obtain ⟨b1, b2, b3⟩ := execLouvainIteration_eq j edge_indices edge_list currComm vDegree
      localCinfo c st
    obtain ⟨c1, c2, c3⟩ := execLouvainIteration_eq j edge_indices edge_list currComm vDegree
      localCinfo c
      (execLouvainIteration i edge_indices edge_list currComm vDegree localCinfo c st)
    obtain ⟨d1, d2, d3⟩ := execLouvainIteration_eq i edge_indices edge_list currComm vDegree
      localCinfo c
      (execLouvainIteration j edge_indices edge_list currComm vDegree localCinfo c st)
    apply sweepState_ext
    · rw [c1, d1, a1, b1]
      exact Function.update_comm hij _ _ _
    · rw [c3, d3, a3, b3]
      funext k
      simp only
      congr 1 <;> ring
    · rw [c2, d2, a2, b2, Function.update_noteq hji, Function.update_noteq hij]
      exact Function.update_comm hij _ _ _

theorem foldl_worker_flatMap (F : Nat → List Int) (edge_indices : Int → Int)
    (edge_list : Int → Edge) (currComm : Int → Int) (vDegree : Int → ℚ)
    (localCinfo : Int → Comm) (c : ℚ) (order : List Nat) :
    ∀ st : SweepState,
      order.foldl (fun st (i : Nat) => (F i).foldl
        (fun st v => execLouvainIteration v edge_indices edge_list currComm vDegree
          localCinfo c st) st) st =
      (order.flatMap F).foldl
        (fun st v => execLouvainIteration v edge_indices edge_list currComm vDegree
          localCinfo c st) st := by
  induction order with
  | nil => intro st; rfl
  | cons x xs ih =>
    intro st
    rw [List.foldl_cons, List.flatMap_cons, List.foldl_append, ih]

theorem flatMap_chunks (n T : Int) (hn : 0 ≤ n) (hT : 0 < T) (k : Nat) :
    (List.range k).flatMap (fun (i : Nat) => forRange (chunkStart n T i) (chunkStart n T (i + 1))) =
      forRange 0 (chunkStart n T k) := by
  induction k with
  | zero => simp [chunkStart, forRange]
  | succ k ih =>
    have hm := chunkStart_mono n T hn hT k
    rw [List.range_succ, List.flatMap_append, ih, List.flatMap_singleton,
      ← forRange_append 0 _ _ hm.1 hm.2]

/-- Running the chunks of the threads in any sequential order gives the result
of the single loop over the vertices `0, ..., n - 1`. -/
theorem chunks_any_order (n : Int) (t : Nat) (hn : 0 ≤ n) (ht : 0 < t)
    (edge_indices : Int → Int) (edge_list : Int → Edge) (currComm : Int → Int)
    (vDegree : Int → ℚ) (localCinfo : Int → Comm) (c : ℚ) (order : List Nat)
    (hperm : order.Perm (List.range t)) (st : SweepState) :
    order.foldl
        (fun st (i : Nat) => worker (chunkStart n t i) (chunkStart n t (i + 1)) edge_indices
          edge_list currComm vDegree localCinfo c st) st =
      worker 0 n edge_indices edge_list currComm vDegree localCinfo c st := by
  have hT : (0 : Int) < t := by omega
  have h1 := foldl_worker_flatMap
    (fun (i : Nat) => forRange (chunkStart n t i) (chunkStart n t (i + 1)))
    edge_indices edge_list currComm vDegree localCinfo c order st
  simp only [worker] at h1 ⊢
  rw [h1]
  have hp := List.Perm.flatMap_right
    (fun (i : Nat) => forRange (chunkStart n t i) (chunkStart n t (i + 1))) hperm
  rw [flatMap_chunks n t hn hT t, chunkStart_last n t hn ht] at hp
  exact List.Perm.foldl_eq' hp
    (fun x _ y _ z => execLouvainIteration_comm x y edge_indices edge_list currComm vDegree
      localCinfo c z) st

/-! ## The gains of a well-formed table -/

theorem candidateGains_wellformed (counter : List ℚ) (localCinfo : Int → Comm)
    (vDegree eix ax : ℚ) (currComm : Int) (constant : ℚ) (clmap : List clmap_t) :
    ∀ (eiy : ℚ), (∀ e ∈ clmap, e.s < (counter.length : Int)) →
      candidateGains counter localCinfo vDegree eix ax currComm constant eiy clmap =
        (clmap.filter (fun e => decide (currComm ≠ e.f))).map
          (fun e => (e.f, 2 * (getAt counter e.s 0 - eix) -
            2 * vDegree * ((localCinfo e.f).degree - ax) * constant)) := by
  induction clmap with
  | nil => intro eiy _; rfl
  | cons e rest ih =>
    intro eiy hwf
    have he := hwf e (List.mem_cons_self _ _)
    have hrest : ∀ x ∈ rest, x.s < (counter.length : Int) :=
      fun x hx => hwf x (List.mem_cons_of_mem _ hx)
    by_cases hc : currComm = e.f
    · simp only [candidateGains, List.filter_cons, hc, ne_eq, not_true_eq_false,
        decide_False, if_false]
      have := ih eiy hrest
      rw [hc] at this
      simpa using this
    · simp only [candidateGains, List.filter_cons, ne_eq, hc, not_false_eq_true,
        decide_True, if_true, if_pos he, List.map_cons]
      rw [ih _ hrest]

/-! ## Independence of the edge order -/

theorem weightInto_perm (currComm : Int → Int) (f : Int) (es es' : List Edge)
    (h : es'.Perm es) : weightInto currComm f es' = weightInto currComm f es := by
  unfold weightInto
  exact List.Perm.sum_eq ((h.filter _).map _)

theorem selfLoopWeight_perm (vertex : Int) (es es' : List Edge) (h : es'.Perm es) :
    selfLoopWeight vertex es' = selfLoopWeight vertex es := by
  unfold selfLoopWeight
  exact List.Perm.sum_eq ((h.filter _).map _)

theorem mem_otherComms_perm (currComm : Int → Int) (cc : Int) (es es' : List Edge)
    (h : es'.Perm es) (x : Int) :
    x ∈ otherComms currComm cc es' ↔ x ∈ otherComms currComm cc es := by
  rw [mem_otherComms, mem_otherComms]
  constructor
  · rintro ⟨h1, e, he, h2⟩
    exact ⟨h1, e, (h.mem_iff).1 he, h2⟩
  · rintro ⟨h1, e, he, h2⟩
    exact ⟨h1, e, (h.mem_iff).2 he, h2⟩

theorem otherComms_card_perm (currComm : Int → Int) (cc : Int) (es es' : List Edge)
    (h : es'.Perm es) :
    (otherComms currComm cc es').toFinset.card = (otherComms currComm cc es).toFinset.card := by
  congr 1
  ext x
  simp only [List.mem_toFinset]
  exact mem_otherComms_perm currComm cc es es' h x

/-- The candidates and gains of the table built for a vertex whose edges reach
at most 31 distinct other communities: one pair for every such community. -/
theorem mem_gainsOf_buildFrom (currComm : Int → Int) (vertex : Int) (edges : List Edge)
    (hcap : (otherComms currComm (currComm vertex) edges).toFinset.card ≤ 31)
    (selfLoop : ℚ) (localCinfo : Int → Comm) (vDegree currDegree constant : ℚ)
    (p : Int × ℚ) :
    p ∈ gainsOf (buildFrom currComm vertex edges).clmap
        (buildFrom currComm vertex edges).counter selfLoop localCinfo vDegree currDegree
        (currComm vertex) constant ↔
      ∃ f ∈ otherComms currComm (currComm vertex) edges,
        p = (f, specGain (weightInto currComm f edges)
          (weightInto currComm (currComm vertex) edges - selfLoop) vDegree
          (localCinfo f).degree (currDegree - vDegree) constant) := by
  have hwf : ∀ e ∈ (buildFrom currComm vertex edges).clmap,
      e.s < ((buildFrom currComm vertex edges).counter.length : Int) :=
    fun e he => (buildFrom_getAt_counter currComm vertex edges e he).2.1
  have hg : gainsOf (buildFrom currComm vertex edges).clmap
        (buildFrom currComm vertex edges).counter selfLoop localCinfo vDegree currDegree
        (currComm vertex) constant = _ :=
    candidateGains_wellformed (buildFrom currComm vertex edges).counter localCinfo vDegree
      _ _ (currComm vertex) constant (buildFrom currComm vertex edges).clmap 0 hwf
  have h1 := (tableInv_buildFrom currComm vertex edges).1
  rw [List.take_of_length_le (by rw [firstSeen_length]; exact hcap)] at h1
  rw [hg, (buildFrom_head currComm vertex edges).2]
  simp only [List.mem_map, List.mem_filter, decide_eq_true_eq, specGain]
  constructor
  · rintro ⟨e, ⟨he, hne⟩, rfl⟩
    have hm : e.f ∈ (buildFrom currComm vertex edges).clmap.map clmap_t.f :=
      List.mem_map_of_mem _ he
    rw [h1, List.mem_cons] at hm
    rcases hm with hm | hm
    · exact absurd hm.symm hne
    · refine ⟨e.f, (mem_firstSeen _ _).1 hm, ?_⟩
      rw [(buildFrom_getAt_counter currComm vertex edges e he).2.2]
  · rintro ⟨f, hf, rfl⟩
    have hm : f ∈ (buildFrom currComm vertex edges).clmap.map clmap_t.f := by
      rw [h1]
      exact List.mem_cons_of_mem _ ((mem_firstSeen _ _).2 hf)
    obtain ⟨e, he, hef⟩ := List.mem_map.1 hm
    refine ⟨e, ⟨he, ?_⟩, ?_⟩
    · rw [hef]
      exact fun h => ((mem_otherComms _ _ _ _).1 hf).1 h.symm
    · rw [(buildFrom_getAt_counter currComm vertex edges e he).2.2, hef]

/-- The result of `getMaxIndex` depends on the table only through the set of
its candidates and gains. -/
theorem getMaxIndex_congr_gains (clmap clmap' : List clmap_t) (counter counter' : List ℚ)
    (selfLoop selfLoop' : ℚ) (localCinfo : Int → Comm) (vDegree : ℚ) (currSize : Int)
    (currDegree : ℚ) (currComm : Int) (constant : ℚ)
    (h : ∀ p, p ∈ gainsOf clmap' counter' selfLoop' localCinfo vDegree currDegree currComm
        constant ↔
      p ∈ gainsOf clmap counter selfLoop localCinfo vDegree currDegree currComm constant) :
    getMaxIndex clmap' counter' selfLoop' localCinfo vDegree currSize currDegree currComm
        constant =
      getMaxIndex clmap counter selfLoop localCinfo vDegree currSize currDegree currComm
        constant := by
  have key : (getMaxIndexLoop clmap' counter' selfLoop' localCinfo vDegree currSize
        currDegree currComm constant).maxIndex =
      (getMaxIndexLoop clmap counter selfLoop localCinfo vDegree currSize currDegree
        currComm constant).maxIndex ∧
      (getMaxIndexLoop clmap' counter' selfLoop' localCinfo vDegree currSize
        currDegree currComm constant).maxSize =
      (getMaxIndexLoop clmap counter selfLoop localCinfo vDegree currSize currDegree
        currComm constant).maxSize := by
    rcases maxInv_loop clmap' counter' selfLoop' localCinfo vDegree currSize currDegree
      currComm constant with ⟨a1, _, a3, a4⟩ | ⟨a1, a2, _, a4, a5, a6⟩
    · rcases maxInv_loop clmap counter selfLoop localCinfo vDegree currSize currDegree
        currComm constant with ⟨b1, _, b3, _⟩ | ⟨b1, b2, _, _, _, _⟩
      · exact ⟨by rw [a1, b1], by rw [a3, b3]⟩
      · have := a4 _ ((h _).2 b1)
        simp only at this
        linarith
    · rcases maxInv_loop clmap counter selfLoop localCinfo vDegree currSize currDegree
        currComm constant with ⟨_, _, _, b4⟩ | ⟨b1, _, _, b4, b5, b6⟩
      · have := b4 _ ((h _).1 a1)
        simp only at this
        linarith
      · have g1 := b5 _ ((h _).1 a1)
        have g2 := a5 _ ((h _).2 b1)
        simp only at g1 g2
        have hg := le_antisymm g1 g2
        have i1 := b6 _ ((h _).1 a1) hg
        have i2 := a6 _ ((h _).2 b1) hg.symm
        simp only at i1 i2
        have hi := le_antisymm i2 i1
        exact ⟨hi, by rw [a4, b4, hi]⟩
  unfold getMaxIndex
  simp only [key.1, key.2]

/-! ## Claims on the convergence loop -/

theorem twoEdges_halts (T : Int) (hT : 1 ≤ T) :
    (∀ j, j < 2 → ¬ haltsAt twoEdges (-1) (1 / 1000000) T j) ∧
      haltsAt twoEdges (-1) (1 / 1000000) T 2 := by
  have hn : 0 ≤ twoEdges.nv := by decide
  constructor
  · intro j hj
    rw [haltsAt_numThreads twoEdges hn _ _ T hT]
    interval_cases j
    · unfold haltsAt; decide!
    · unfold haltsAt; decide!
  · rw [haltsAt_numThreads twoEdges hn _ _ T hT]
    unfold haltsAt; decide!

/-- C2: on the graph of the two disjoint unit edges 0-1 and 2-3, with lower
bound -1 and threshold 1e-6, `louvainMethod` (any thread count `≥ 1`, enough
fuel for three passes) returns modularity exactly 1/2 and ends with vertices 0
and 1 in one community and vertices 2 and 3 in another one. -/
theorem louvainMethod_twoEdges (T : Int) (hT : 1 ≤ T) (fuel : Nat) (hf : 3 ≤ fuel) :
    ∃ r : ℚ × Int × LouvainState,
      louvainMethod twoEdges (-1) (1 / 1000000) T fuel = some r ∧ r.1 = 1 / 2 ∧
      r.2.2.currComm 0 = r.2.2.currComm 1 ∧ r.2.2.currComm 2 = r.2.2.currComm 3 ∧
      r.2.2.currComm 0 ≠ r.2.2.currComm 2 := by
  have hn : 0 ≤ twoEdges.nv := by decide
  obtain ⟨h1, h2⟩ := twoEdges_halts T hT
  refine ⟨_, louvainMethod_of_halt twoEdges (-1) (1 / 1000000) T 2 h1 h2 fuel (by omega), ?_⟩
  simp only [prevModAt]
  rw [stateAt_numThreads twoEdges hn _ T hT, bodyAt_numThreads twoEdges hn _ T hT]
  decide!

/-- Witness of `louvainMethod_twoEdges`: two threads, fuel 3. -/
theorem louvainMethod_twoEdges_witness :
    ∃ r : ℚ × Int × LouvainState,
      louvainMethod twoEdges (-1) (1 / 1000000) 2 3 = some r ∧ r.1 = 1 / 2 ∧
      r.2.2.currComm 0 = r.2.2.currComm 1 ∧ r.2.2.currComm 2 = r.2.2.currComm 3 ∧
      r.2.2.currComm 0 ≠ r.2.2.currComm 2 :=
  louvainMethod_twoEdges 2 (by decide) 3 (by decide)

/-- C3, as stated, fails: on the graph of the two disjoint unit edges, with
lower bound -1 and threshold 1e-6, the first pass computes modularity -1/2
(improvement 1/2) and the second 1/2 (improvement 1), neither stops the loop,
and the iteration count written to `iters` is 3, not 1. -/
theorem louvain_iters_twoEdges_counterexample :
    (louvainMethod twoEdges (-1) (1 / 1000000) 1 1).map (fun r => r.2.1) = none ∧
    (louvainMethod twoEdges (-1) (1 / 1000000) 1 2).map (fun r => r.2.1) = none ∧
    (louvainMethod twoEdges (-1) (1 / 1000000) 1 3).map (fun r => r.2.1) = some 3 ∧
    currModAt twoEdges (-1) 1 0 = -1 / 2 ∧ currModAt twoEdges (-1) 1 1 = 1 / 2 ∧
    currModAt twoEdges (-1) 1 2 = 1 / 2 := by
  decide!

/-- C3 (amended): on the graph of the two disjoint unit edges, with lower
bound -1 and threshold 1e-6, `louvainMethod` (any thread count `≥ 1`) converges
in 3 passes: no result with fewer than 3 passes, and with fuel for 3 passes or
more the iteration count written to `iters` is 3. -/
theorem louvain_iters_twoEdges (T : Int) (hT : 1 ≤ T) (fuel : Nat) :
    (fuel < 3 → louvainMethod twoEdges (-1) (1 / 1000000) T fuel = none) ∧
    (3 ≤ fuel → ∃ r : ℚ × Int × LouvainState,
      louvainMethod twoEdges (-1) (1 / 1000000) T fuel = some r ∧ r.2.1 = 3) := by
  obtain ⟨h1, h2⟩ := twoEdges_halts T hT
  constructor
  · intro hf
    exact louvainMethod_none twoEdges (-1) (1 / 1000000) T fuel
      (fun j hj => h1 j (by omega))
  · intro hf
    exact ⟨_, louvainMethod_of_halt twoEdges (-1) (1 / 1000000) T 2 h1 h2 fuel (by omega),
      by norm_num⟩

/-- Witness of `louvain_iters_twoEdges`: four threads, fuel 2 and fuel 5. -/
theorem louvain_iters_twoEdges_witness :
    louvainMethod twoEdges (-1) (1 / 1000000) 4 2 = none ∧
    ∃ r : ℚ × Int × LouvainState,
      louvainMethod twoEdges (-1) (1 / 1000000) 4 5 = some r ∧ r.2.1 = 3 :=
  ⟨(louvain_iters_twoEdges 4 (by decide) 2).1 (by decide),
    (louvain_iters_twoEdges 4 (by decide) 5).2 (by decide)⟩

/-- C7: when pass `k + 1` is the first pass whose modularity satisfies
`currMod - prevMod < thresh`, `louvainMethod` stops there (with enough fuel it
returns, with less it does not) and returns `prevMod`, with `iters = k + 1`;
this `prevMod` is `lower` when `k + 1` is the first pass and
`max (currMod of pass k) lower` otherwise, hence `≥ lower`. -/
theorem louvainMethod_stopping (g : Graph) (lower thresh : ℚ) (T : Int) (k : Nat)
    (hfirst : ∀ j, j < k → ¬ haltsAt g lower thresh T j)
    (hk : haltsAt g lower thresh T k) :
    (∀ fuel, k < fuel → louvainMethod g lower thresh T fuel =
      some (prevModAt g lower T k, (k : Int) + 1, bodyAt g lower T k)) ∧
    (∀ fuel, fuel ≤ k → louvainMethod g lower thresh T fuel = none) ∧
    (bodyAt g lower T k).prevMod = prevModAt g lower T k ∧
    prevModAt g lower T k =
      (if k = 0 then lower else max (currModAt g lower T (k - 1)) lower) ∧
    lower ≤ prevModAt g lower T k := by
  refine ⟨fun fuel hf => louvainMethod_of_halt g lower thresh T k hfirst hk fuel hf,
    fun fuel hf => louvainMethod_none g lower thresh T fuel (fun j hj => hfirst j (by omega)),
    rfl, ?_, prevModAt_ge g lower T k⟩
  cases k with
  | zero => rfl
  | succ k => rw [if_neg (by omega), prevModAt_succ]; rfl

/-- Witness of `louvainMethod_stopping`: the two-edge graph stops in pass 3. -/
theorem louvainMethod_stopping_witness :
    (∀ fuel, 2 < fuel → louvainMethod twoEdges (-1) (1 / 1000000) 1 fuel =
      some (prevModAt twoEdges (-1) 1 2, ((2 : Nat) : Int) + 1, bodyAt twoEdges (-1) 1 2)) ∧
    (∀ fuel, fuel ≤ 2 → louvainMethod twoEdges (-1) (1 / 1000000) 1 fuel = none) ∧
    (bodyAt twoEdges (-1) 1 2).prevMod = prevModAt twoEdges (-1) 1 2 ∧
    prevModAt twoEdges (-1) 1 2 =
      (if 2 = 0 then -1 else max (currModAt twoEdges (-1) 1 (2 - 1)) (-1)) ∧
    -1 ≤ prevModAt twoEdges (-1) 1 2 :=
  louvainMethod_stopping twoEdges (-1) (1 / 1000000) 1 2
    (twoEdges_halts 1 (by decide)).1 (twoEdges_halts 1 (by decide)).2

/-- C8: for a threshold `≥ 0`, in every pass `k + 1 ≥ 2` that is executed (no
earlier pass stopped the loop) `prevMod` is exactly the `currMod` of pass `k`,
so the exit test succeeds in pass `k + 1`, and `louvainMethod` returns with
`iters = k + 1`, if and only if `currMod_{k+1} - currMod_k < thresh`. -/
theorem louvainMethod_monotonic_stopping (g : Graph) (lower thresh : ℚ) (T : Int)
    (hth : 0 ≤ thresh) (k : Nat) (hk : 1 ≤ k)
    (hexec : ∀ j, j < k → ¬ haltsAt g lower thresh T j) :
    prevModAt g lower T k = currModAt g lower T (k - 1) ∧
    (haltsAt g lower thresh T k ↔
      currModAt g lower T k - currModAt g lower T (k - 1) < thresh) ∧
    ((∃ fuel r, louvainMethod g lower thresh T fuel = some r ∧ r.2.1 = (k : Int) + 1) ↔
      currModAt g lower T k - currModAt g lower T (k - 1) < thresh) := by
  obtain ⟨m, rfl⟩ : ∃ m, k = m + 1 := ⟨k - 1, by omega⟩
  have hprev : prevModAt g lower T (m + 1) = currModAt g lower T m := by
    rw [prevModAt_succ]
    have h1 := hexec m (by omega)
    have h2 := prevModAt_ge g lower T m
    simp only [haltsAt, not_lt] at h1
    exact max_eq_left (by linarith)
  have hiff : haltsAt g lower thresh T (m + 1) ↔
      currModAt g lower T (m + 1) - currModAt g lower T m < thresh := by
    simp only [haltsAt, hprev]
  refine ⟨hprev, hiff, ?_⟩
  simp only [Nat.add_sub_cancel]
  rw [← hiff]
  constructor
  · rintro ⟨fuel, r, hr, hit⟩
    by_contra hno
    by_cases hex : ∃ j, j < fuel ∧ haltsAt g lower thresh T j
    · classical
      let j := Nat.find hex
      have hj : j < fuel ∧ haltsAt g lower thresh T j := Nat.find_spec hex
      have hmin : ∀ i, i < j → ¬ haltsAt g lower thresh T i := by
        intro i hi hh
        exact Nat.find_min hex hi ⟨by omega, hh⟩
      rw [louvainMethod_of_halt g lower thresh T j hmin hj.2 fuel hj.1] at hr
      have hr' := Option.some.inj hr
      rw [← hr'] at hit
      simp only at hit
      have hjm : j = m + 1 := by push_cast at hit; omega
      exact hno (hjm ▸ hj.2)
    · rw [louvainMethod_none g lower thresh T fuel
        (fun j hj hh => hex ⟨j, hj, hh⟩)] at hr
      exact Option.noConfusion hr
  · intro hh
    exact ⟨m + 2, _, louvainMethod_of_halt g lower thresh T (m + 1) hexec hh (m + 2)
      (by omega), rfl⟩

/-- Witness of `louvainMethod_monotonic_stopping`: pass 3 of the two-edge graph. -/
theorem louvainMethod_monotonic_stopping_witness :
    prevModAt twoEdges (-1) 1 2 = currModAt twoEdges (-1) 1 (2 - 1) ∧
    (haltsAt twoEdges (-1) (1 / 1000000) 1 2 ↔
      currModAt twoEdges (-1) 1 2 - currModAt twoEdges (-1) 1 (2 - 1) < 1 / 1000000) ∧
    ((∃ fuel r, louvainMethod twoEdges (-1) (1 / 1000000) 1 fuel = some r ∧
        r.2.1 = ((2 : Nat) : Int) + 1) ↔
      currModAt twoEdges (-1) 1 2 - currModAt twoEdges (-1) 1 (2 - 1) < 1 / 1000000) :=
  louvainMethod_monotonic_stopping twoEdges (-1) (1 / 1000000) 1 (by norm_num) 2 (by decide)
    (twoEdges_halts 1 (by decide)).1

/-! ## Claims on the move decision -/

/-- C4, as stated, fails.  On the star graph (vertex 0 joined to 3 and 7 by unit
edges) in the initial state, the table of vertex 0 holds the candidates 3 and 7
with equal gain 1, yet the decision for vertex 0 is its own community 0, in
either table order (the anti-oscillation guard discards the move to 3); and two
candidates 3 and 7 with equal negative gain are not selected either. -/
theorem getMaxIndex_tie_counterexample :
    localTables 0 starGraph.edge_indices_ starGraph.edge_list_
        (loopEntry starGraph (-1)).currComm = ⟨[⟨0, 0⟩, ⟨3, 1⟩, ⟨7, 2⟩], [0, 1, 1], 3, 0⟩ ∧
    gainsOf [⟨0, 0⟩, ⟨3, 1⟩, ⟨7, 2⟩] [0, 1, 1] 0 (loopEntry starGraph (-1)).localCinfo
        (initVDegree starGraph 0) (initVDegree starGraph 0) 0 (initConstant starGraph) =
      [(3, 1), (7, 1)] ∧
    localTarget 0 starGraph.edge_indices_ starGraph.edge_list_
        (loopEntry starGraph (-1)).currComm (initVDegree starGraph)
        (loopEntry starGraph (-1)).localCinfo (initConstant starGraph) = 0 ∧
    getMaxIndex [⟨0, 0⟩, ⟨7, 1⟩, ⟨3, 2⟩] [0, 1, 1] 0 (loopEntry starGraph (-1)).localCinfo
        2 1 2 0 (1 / 4) = 0 ∧
    gainsOf [⟨0, 0⟩, ⟨3, 1⟩, ⟨7, 2⟩] [5, 1, 1] 0 unitInfo 7 14 0 (1 / 100) =
      [(3, -73 / 10), (7, -73 / 10)] ∧
    getMaxIndex [⟨0, 0⟩, ⟨3, 1⟩, ⟨7, 2⟩] [5, 1, 1] 0 unitInfo 7 2 14 0 (1 / 100) = 0 := by
  decide!

/-- C4 (amended): when the table holds two candidates `a < b` with equal,
strictly positive gain `g` and every other candidate has a smaller gain, the
selection loop ends with `maxIndex = a`, wherever `a` and `b` stand in the
table, and `getMaxIndex` returns `a` unless the anti-oscillation guard applies
(`a` and the current community both have size 1 and `a` is the larger id), in
which case it returns the current community. -/
theorem getMaxIndex_tie_break (clmap : List clmap_t) (counter : List ℚ)
    (selfLoop : ℚ) (localCinfo : Int → Comm) (vDegree : ℚ)
    (currSize : Int) (currDegree : ℚ) (currComm : Int)
    (constant : ℚ) (a b : Int) (g : ℚ)
    (ha : (a, g) ∈ gainsOf clmap counter selfLoop localCinfo vDegree currDegree currComm
      constant)
    (_hb : (b, g) ∈ gainsOf clmap counter selfLoop localCinfo vDegree currDegree currComm
      constant)
    (hab : a < b) (hg : 0 < g)
    (hother : ∀ p ∈ gainsOf clmap counter selfLoop localCinfo vDegree currDegree currComm
      constant, p = (a, g) ∨ p = (b, g) ∨ p.2 < g) :
    (getMaxIndexLoop clmap counter selfLoop localCinfo vDegree currSize currDegree currComm
        constant).maxIndex = a ∧
    getMaxIndex clmap counter selfLoop localCinfo vDegree currSize currDegree currComm
        constant =
      if (localCinfo a).size = 1 ∧ currSize = 1 ∧ a > currComm then currComm else a := by
  have hloop : (getMaxIndexLoop clmap counter selfLoop localCinfo vDegree currSize currDegree
      currComm constant).maxIndex = a ∧
      (getMaxIndexLoop clmap counter selfLoop localCinfo vDegree currSize currDegree
      currComm constant).maxSize = (localCinfo a).size := by
    rcases maxInv_loop clmap counter selfLoop localCinfo vDegree currSize currDegree
      currComm constant with ⟨_, _, _, hall⟩ | ⟨hmem, _, _, hsz, hall, hmin⟩
    · have := hall _ ha
      simp only at this
      linarith
    · have h1 := hall _ ha
      simp only at h1
      have hidx : (getMaxIndexLoop clmap counter selfLoop localCinfo vDegree currSize
          currDegree currComm constant).maxIndex = a := by
        rcases hother _ hmem with h | h | h
        · exact (Prod.mk.inj h).1
        · have h2 := (Prod.mk.inj h).2
          have h3 := hmin _ ha h2.symm
          have h4 := (Prod.mk.inj h).1
          simp only at h3
          omega
        · simp only at h; linarith
      exact ⟨hidx, by rw [hsz, hidx]⟩
  refine ⟨hloop.1, ?_⟩
  unfold getMaxIndex
  simp only [hloop.1, hloop.2]

/-- Witness of `getMaxIndex_tie_break`: a vertex of community 9 whose table
lists 7 before 3, both with gain 1; the result is 3. -/
theorem getMaxIndex_tie_break_witness :
    (getMaxIndexLoop [⟨9, 0⟩, ⟨7, 1⟩, ⟨3, 2⟩] [0, 1, 1] 0 unitInfo 2 1 2 9 (1 / 8)).maxIndex = 3 ∧
    getMaxIndex [⟨9, 0⟩, ⟨7, 1⟩, ⟨3, 2⟩] [0, 1, 1] 0 unitInfo 2 1 2 9 (1 / 8) =
      if (unitInfo 3).size = 1 ∧ (1 : Int) = 1 ∧ (3 : Int) > 9 then 9 else 3 :=
  getMaxIndex_tie_break [⟨9, 0⟩, ⟨7, 1⟩, ⟨3, 2⟩] [0, 1, 1] 0 unitInfo 2 1 2 9 (1 / 8) 3 7 1
    (by decide!) (by decide!) (by decide) (by norm_num) (by decide!)

/-- C6: `getMaxIndex` returns the current community unless some table
community other than the current one has strictly positive gain; a returned
community `f` other than the current one is a candidate of the table with
gain `> 0`, its gain is maximal among all candidates, and `f` is the smallest
id among the candidates of maximal gain (gains as computed at line 142).  The
target written by `execLouvainIteration` is `currComm[i]` or the current
community of the endpoint of one of `i`'s edges, and is not -1 when no
community id is; in every pass of `louvainMethod` on a graph with edge endpoints
among its vertices the target written for a vertex is never -1. -/
theorem getMaxIndex_selection :
    (∀ (clmap : List clmap_t) (counter : List ℚ) (selfLoop : ℚ)
      (localCinfo : Int → Comm) (vDegree : ℚ) (currSize : Int)
      (currDegree : ℚ) (currComm : Int) (constant : ℚ),
      ((∀ p ∈ gainsOf clmap counter selfLoop localCinfo vDegree currDegree currComm constant,
          p.2 ≤ 0) →
        getMaxIndex clmap counter selfLoop localCinfo vDegree currSize currDegree currComm
          constant = currComm) ∧
      (getMaxIndex clmap counter selfLoop localCinfo vDegree currSize currDegree currComm
          constant ≠ currComm →
        ∃ gain : ℚ,
          (getMaxIndex clmap counter selfLoop localCinfo vDegree currSize currDegree currComm
            constant, gain) ∈
            gainsOf clmap counter selfLoop localCinfo vDegree currDegree currComm constant ∧
          (∃ e ∈ clmap, e.f = getMaxIndex clmap counter selfLoop localCinfo vDegree currSize
            currDegree currComm constant) ∧
          0 < gain ∧
          (∀ p ∈ gainsOf clmap counter selfLoop localCinfo vDegree currDegree currComm
            constant, p.2 ≤ gain) ∧
          ∀ p ∈ gainsOf clmap counter selfLoop localCinfo vDegree currDegree currComm
            constant, p.2 = gain →
            getMaxIndex clmap counter selfLoop localCinfo vDegree currSize currDegree
              currComm constant ≤ p.1)) ∧
    (∀ (i : Int) (edge_indices : Int → Int) (edge_list : Int → Edge)
      (currComm : Int → Int) (vDegree : Int → ℚ)
      (localCinfo : Int → Comm) (c : ℚ) (st : SweepState),
      ((execLouvainIteration i edge_indices edge_list currComm vDegree localCinfo c
          st).targetComm i = currComm i ∨
        ∃ edge ∈ edgesOf edge_list (edge_indices i) (edge_indices (i + 1)),
          (execLouvainIteration i edge_indices edge_list currComm vDegree localCinfo c
            st).targetComm i = currComm edge.tail_) ∧
      ((∀ v, currComm v ≠ -1) →
        (execLouvainIteration i edge_indices edge_list currComm vDegree localCinfo c
          st).targetComm i ≠ -1)) ∧
    (∀ (g : Graph) (lower : ℚ) (T : Int) (k : Nat) (v : Int),
      0 ≤ g.nv → g.EndpointsInRange → 1 ≤ T → 0 ≤ v → v < g.nv →
      (bodyAt g lower T k).targetComm v ≠ -1 ∧
      ((bodyAt g lower T k).targetComm v = (stateAt g lower T k).currComm v ∨
        ∃ edge ∈ edgesOf g.edge_list_ (g.edge_indices_ v) (g.edge_indices_ (v + 1)),
          (bodyAt g lower T k).targetComm v =
            (stateAt g lower T k).currComm edge.tail_)) := by
  refine ⟨?_, ?_, ?_⟩
  · intro clmap counter selfLoop localCinfo vDegree currSize currDegree currComm constant
    refine ⟨?_, ?_⟩
    · intro hall
      rcases getMaxIndex_eq clmap counter selfLoop localCinfo vDegree currSize currDegree
        currComm constant with h | ⟨h, _⟩
      · exact h
      · rcases maxInv_loop clmap counter selfLoop localCinfo vDegree currSize currDegree
          currComm constant with ⟨hi, _⟩ | ⟨hmem, hpos, _⟩
        · rw [h, hi]
        · have := hall _ hmem
          simp only at this
          linarith
    · intro hne
      rcases getMaxIndex_eq clmap counter selfLoop localCinfo vDegree currSize currDegree
        currComm constant with h | ⟨h, _⟩
      · exact absurd h hne
      · rcases maxInv_loop clmap counter selfLoop localCinfo vDegree currSize currDegree
          currComm constant with ⟨hi, _⟩ | ⟨hmem, hpos, _, _, hall, hmin⟩
        · exact absurd (by rw [h, hi]) hne
        · refine ⟨_, by rw [h]; exact hmem, ?_, hpos, hall, ?_⟩
          · obtain ⟨e, he, hf, _⟩ := candidateGains_mem _ _ _ _ _ _ _ _ _ _ hmem
            exact ⟨e, he, by rw [h]; exact hf⟩
          · intro p hp hpe
            rw [h]
            exact hmin p hp hpe
  · intro i edge_indices edge_list currComm vDegree localCinfo c st
    have ht : (execLouvainIteration i edge_indices edge_list currComm vDegree localCinfo c
        st).targetComm i = localTarget i edge_indices edge_list currComm vDegree localCinfo c := by
      simp [execLouvainIteration]
    rw [ht]
    refine ⟨localTarget_mem i edge_indices edge_list currComm vDegree localCinfo c, ?_⟩
    intro hv
    rcases localTarget_mem i edge_indices edge_list currComm vDegree localCinfo c with h | ⟨e, _, h⟩
    · rw [h]; exact hv _
    · rw [h]; exact hv _
  · intro g lower T k v hn hend hT h0 h1
    obtain ⟨n, hn'⟩ := Int.eq_ofNat_of_zero_le hn
    rw [hn'] at h1
    obtain ⟨_, _, _, htg, _⟩ := passBody_fields g n hn' T hT (initVDegree g) (initConstant g)
      (stateAt g lower T k)
    have ht : (bodyAt g lower T k).targetComm v =
        localTarget v g.edge_indices_ g.edge_list_ (stateAt g lower T k).currComm
          (initVDegree g) (stateAt g lower T k).localCinfo (initConstant g) := by
      simp only [bodyAt]
      rw [htg]
      simp only [if_pos (And.intro h0 h1)]
    rw [ht]
    have hr := localTarget_range g n hn' hend (stateAt g lower T k).currComm (initVDegree g)
      (stateAt g lower T k).localCinfo (initConstant g)
      (passInv_stateAt g n hn' T hT hend lower k).1 v h0 h1
    exact ⟨by omega, localTarget_mem v _ _ _ _ _ _⟩

/-- Witness of `getMaxIndex_selection`: vertex 3 of the star graph moves to
community 0 (gain 1), and no community id is -1. -/
theorem getMaxIndex_selection_witness :
    (∃ gain : ℚ,
      (getMaxIndex [⟨3, 0⟩, ⟨0, 1⟩] [0, 1] 0 (loopEntry starGraph (-1)).localCinfo 1 1 1 3
        (1 / 4), gain) ∈
        gainsOf [⟨3, 0⟩, ⟨0, 1⟩] [0, 1] 0 (loopEntry starGraph (-1)).localCinfo 1 1 3 (1 / 4) ∧
      (∃ e ∈ [(⟨3, 0⟩ : clmap_t), ⟨0, 1⟩], e.f = getMaxIndex [⟨3, 0⟩, ⟨0, 1⟩] [0, 1] 0
        (loopEntry starGraph (-1)).localCinfo 1 1 1 3 (1 / 4)) ∧
      0 < gain ∧
      (∀ p ∈ gainsOf [⟨3, 0⟩, ⟨0, 1⟩] [0, 1] 0 (loopEntry starGraph (-1)).localCinfo 1 1 3
        (1 / 4), p.2 ≤ gain) ∧
      ∀ p ∈ gainsOf [⟨3, 0⟩, ⟨0, 1⟩] [0, 1] 0 (loopEntry starGraph (-1)).localCinfo 1 1 3
        (1 / 4), p.2 = gain →
        getMaxIndex [⟨3, 0⟩, ⟨0, 1⟩] [0, 1] 0 (loopEntry starGraph (-1)).localCinfo 1 1 1 3
          (1 / 4) ≤ p.1) ∧
    getMaxIndex [⟨3, 0⟩, ⟨3, 1⟩] [0, 1] 0 unitInfo 1 1 1 3 (1 / 4) = 3 ∧
    (execLouvainIteration 3 starGraph.edge_indices_ starGraph.edge_list_
      (loopEntry starGraph (-1)).currComm (initVDegree starGraph)
      (loopEntry starGraph (-1)).localCinfo (initConstant starGraph)
      ⟨fun _ => 0, fun _ => Comm.zero, fun _ => 0⟩).targetComm 3 ≠ -1 ∧
    (bodyAt twoEdges (-1) 2 0).targetComm 1 ≠ -1 :=
  ⟨(getMaxIndex_selection.1 [⟨3, 0⟩, ⟨0, 1⟩] [0, 1] 0 (loopEntry starGraph (-1)).localCinfo
      1 1 1 3 (1 / 4)).2 (by decide!),
    (getMaxIndex_selection.1 [⟨3, 0⟩, ⟨3, 1⟩] [0, 1] 0 unitInfo 1 1 1 3 (1 / 4)).1
      (by decide!),
    (getMaxIndex_selection.2.1 3 starGraph.edge_indices_ starGraph.edge_list_
      (loopEntry starGraph (-1)).currComm (initVDegree starGraph)
      (loopEntry starGraph (-1)).localCinfo (initConstant starGraph)
      ⟨fun _ => 0, fun _ => Comm.zero, fun _ => 0⟩).2 (by
        intro v
        rw [loopEntry_currComm starGraph 8 rfl]
        simp only
        split_ifs <;> omega),
    (getMaxIndex_selection.2.2 twoEdges (-1) 2 0 1 (by decide) twoEdges_endpoints (by decide)
      (by decide) (by decide)).1⟩

/-! ## Claims on the aggregates -/

/-- C1: for every graph with edge endpoints among its vertices, every thread
count `≥ 1` and every pass `k + 1`, the sizes in `localCinfo` over the community
ids `0, ..., nv - 1` sum to `nv` and the degrees sum to the sum of `vDegree`,
both before `updateLocalCinfo` (the aggregates at the start of the pass) and
after it, and the pending deltas in `localCupdate` sum to `(0, 0)` after the
sweep. -/
theorem louvain_conservation (g : Graph) (hn : 0 ≤ g.nv) (hend : g.EndpointsInRange) (lower : ℚ)
    (T : Int) (hT : 1 ≤ T) (k : Nat) :
    sumSize g.nv (stateAt g lower T k).localCinfo = g.nv ∧
    sumDegree g.nv (stateAt g lower T k).localCinfo = totalDegree g ∧
    (bodyAt g lower T k).localCinfo =
      updateLocalCinfo g.nv (stateAt g lower T k).localCinfo
        (bodyAt g lower T k).localCupdate ∧
    sumSize g.nv (bodyAt g lower T k).localCinfo = g.nv ∧
    sumDegree g.nv (bodyAt g lower T k).localCinfo = totalDegree g ∧
    sumSize g.nv (bodyAt g lower T k).localCupdate = 0 ∧
    sumDegree g.nv (bodyAt g lower T k).localCupdate = 0 := by
  obtain ⟨n, hn'⟩ := Int.eq_ofNat_of_zero_le hn
  obtain ⟨h1, h2, h3, h4, h5, h6⟩ := conservation_aux g n hn' hend T hT (initConstant g)
    (stateAt g lower T k) (passInv_stateAt g n hn' T hT hend lower k)
  refine ⟨?_, h2, rfl, ?_, h4, ?_, ?_⟩
  · rw [hn']; exact h1
  · rw [hn']; exact h3
  · rw [hn']; exact h5
  · rw [hn']; exact h6

/-- Witness of `louvain_conservation`: the two-edge graph, two threads, pass 2. -/
theorem louvain_conservation_witness :
    sumSize twoEdges.nv (stateAt twoEdges (-1) 2 1).localCinfo = twoEdges.nv ∧
    sumDegree twoEdges.nv (stateAt twoEdges (-1) 2 1).localCinfo = totalDegree twoEdges ∧
    (bodyAt twoEdges (-1) 2 1).localCinfo =
      updateLocalCinfo twoEdges.nv (stateAt twoEdges (-1) 2 1).localCinfo
        (bodyAt twoEdges (-1) 2 1).localCupdate ∧
    sumSize twoEdges.nv (bodyAt twoEdges (-1) 2 1).localCinfo = twoEdges.nv ∧
    sumDegree twoEdges.nv (bodyAt twoEdges (-1) 2 1).localCinfo = totalDegree twoEdges ∧
    sumSize twoEdges.nv (bodyAt twoEdges (-1) 2 1).localCupdate = 0 ∧
    sumDegree twoEdges.nv (bodyAt twoEdges (-1) 2 1).localCupdate = 0 :=
  louvain_conservation twoEdges (by decide) twoEdges_endpoints (-1) 2 (by decide) 1

/-- C5: when the vertex's current community has aggregate size 1, `getMaxIndex`
never returns a community of aggregate size 1 whose id is greater than the
current community id: when the candidate selected by the loop is such a
community, `getMaxIndex` returns the current community instead, and in every
other case it returns the candidate selected by the loop.  Consequently, in
one sweep, of two vertices that are each alone in their (different)
communities the one with the lower community id does not move into the
other's community, so the two do not both move into the other's community. -/
theorem singleton_anti_oscillation :
    (∀ (clmap : List clmap_t) (counter : List ℚ) (selfLoop : ℚ) (localCinfo : Int → Comm)
      (vDegree : ℚ) (currSize : Int) (currDegree : ℚ) (currComm : Int) (constant : ℚ),
      currSize = 1 →
      ¬ ((localCinfo (getMaxIndex clmap counter selfLoop localCinfo vDegree currSize
            currDegree currComm constant)).size = 1 ∧
          getMaxIndex clmap counter selfLoop localCinfo vDegree currSize currDegree
            currComm constant > currComm) ∧
      (((localCinfo (getMaxIndexLoop clmap counter selfLoop localCinfo vDegree currSize
            currDegree currComm constant).maxIndex).size = 1 ∧
          (getMaxIndexLoop clmap counter selfLoop localCinfo vDegree currSize currDegree
            currComm constant).maxIndex > currComm) →
        getMaxIndex clmap counter selfLoop localCinfo vDegree currSize currDegree currComm
          constant = currComm) ∧
      (¬ ((localCinfo (getMaxIndexLoop clmap counter selfLoop localCinfo vDegree currSize
            currDegree currComm constant).maxIndex).size = 1 ∧
          (getMaxIndexLoop clmap counter selfLoop localCinfo vDegree currSize currDegree
            currComm constant).maxIndex > currComm) →
        getMaxIndex clmap counter selfLoop localCinfo vDegree currSize currDegree currComm
          constant =
        (getMaxIndexLoop clmap counter selfLoop localCinfo vDegree currSize currDegree
          currComm constant).maxIndex)) ∧
    (∀ (n T : Int) (edge_indices : Int → Int) (edge_list : Int → Edge)
      (currComm : Int → Int) (vDegree : Int → ℚ) (localCinfo : Int → Comm) (c : ℚ)
      (st : SweepState) (u v : Int),
      0 ≤ n → 1 ≤ T → 0 ≤ u → u < n → 0 ≤ v → v < n →
      (localCinfo (currComm u)).size = 1 → (localCinfo (currComm v)).size = 1 →
      currComm u ≠ currComm v →
      (currComm u < currComm v →
        (execLouvainParallel n edge_indices edge_list currComm vDegree localCinfo c T
          st).targetComm u ≠ currComm v) ∧
      ¬ ((execLouvainParallel n edge_indices edge_list currComm vDegree localCinfo c T
            st).targetComm u = currComm v ∧
          (execLouvainParallel n edge_indices edge_list currComm vDegree localCinfo c T
            st).targetComm v = currComm u)) := by
  refine ⟨fun clmap counter selfLoop localCinfo vDegree currSize currDegree currComm
      constant hs => ⟨getMaxIndex_guard clmap counter selfLoop localCinfo vDegree currSize
      currDegree currComm constant hs, ?_, ?_⟩, ?_⟩
  · rintro ⟨h1, h2⟩
    rcases maxInv_loop clmap counter selfLoop localCinfo vDegree currSize currDegree
      currComm constant with ⟨hi, _⟩ | ⟨_, _, _, hsz, _⟩
    · rw [hi] at h2; exact absurd h2 (lt_irrefl _)
    · unfold getMaxIndex
      simp only
      rw [if_pos ⟨by rw [hsz]; exact h1, hs, h2⟩]
  · intro hno
    rcases getMaxIndex_eq clmap counter selfLoop localCinfo vDegree currSize currDegree
      currComm constant with h | ⟨h, _⟩
    · rcases maxInv_loop clmap counter selfLoop localCinfo vDegree currSize currDegree
        currComm constant with ⟨hi, _⟩ | ⟨_, _, _, hsz, _⟩
      · rw [h, hi]
      · unfold getMaxIndex
        simp only
        rw [if_neg]
        rintro ⟨g1, _, g3⟩
        exact hno ⟨by rw [← hsz]; exact g1, g3⟩
    · exact h
  intro n T edge_indices edge_list currComm vDegree localCinfo c st u v hn hT hu0 hu1 hv0 hv1
    hsu hsv hne
  rw [execLouvainParallel_targetComm n T hn hT _ _ _ _ _ _ _ u hu0 hu1,
    execLouvainParallel_targetComm n T hn hT _ _ _ _ _ _ _ v hv0 hv1]
  refine ⟨fun hlt h1 => ?_, ?_⟩
  · apply localTarget_guard u edge_indices edge_list currComm vDegree localCinfo c hsu
    rw [h1]
    exact ⟨hsv, hlt⟩
  rintro ⟨h1, h2⟩
  rcases lt_or_gt_of_ne hne with hlt | hgt
  · apply localTarget_guard u edge_indices edge_list currComm vDegree localCinfo c hsu
    rw [h1]
    exact ⟨hsv, hlt⟩
  · apply localTarget_guard v edge_indices edge_list currComm vDegree localCinfo c hsv
    rw [h2]
    exact ⟨hsu, hgt⟩

/-- Witness of `singleton_anti_oscillation`: vertex 0 of the one-edge graph in
the initial state.  The loop selects the singleton community 1 (gain 1), whose
id is greater than 0, and `getMaxIndex` returns the current community 0; in
the first sweep with two threads vertex 0 stays in community 0. -/
theorem singleton_anti_oscillation_witness :
    (getMaxIndexLoop [⟨0, 0⟩, ⟨1, 1⟩] [0, 1] 0 (loopEntry oneEdge (-1)).localCinfo 1 1 1 0
        (1 / 2)).maxIndex = 1 ∧
    ((loopEntry oneEdge (-1)).localCinfo 1).size = 1 ∧
    getMaxIndex [⟨0, 0⟩, ⟨1, 1⟩] [0, 1] 0 (loopEntry oneEdge (-1)).localCinfo 1 1 1 0
        (1 / 2) = 0 ∧
    (execLouvainParallel 2 oneEdge.edge_indices_ oneEdge.edge_list_
        (loopEntry oneEdge (-1)).currComm (initVDegree oneEdge)
        (loopEntry oneEdge (-1)).localCinfo (initConstant oneEdge) 2
        ⟨fun _ => 0, fun _ => Comm.zero, fun _ => 0⟩).targetComm 0 ≠
      (loopEntry oneEdge (-1)).currComm 1 ∧
    ¬ ((execLouvainParallel 2 oneEdge.edge_indices_ oneEdge.edge_list_
          (loopEntry oneEdge (-1)).currComm (initVDegree oneEdge)
          (loopEntry oneEdge (-1)).localCinfo (initConstant oneEdge) 2
          ⟨fun _ => 0, fun _ => Comm.zero, fun _ => 0⟩).targetComm 0 =
          (loopEntry oneEdge (-1)).currComm 1 ∧
        (execLouvainParallel 2 oneEdge.edge_indices_ oneEdge.edge_list_
          (loopEntry oneEdge (-1)).currComm (initVDegree oneEdge)
          (loopEntry oneEdge (-1)).localCinfo (initConstant oneEdge) 2
          ⟨fun _ => 0, fun _ => Comm.zero, fun _ => 0⟩).targetComm 1 =
          (loopEntry oneEdge (-1)).currComm 0) :=
  ⟨by decide!, by decide!,
    (singleton_anti_oscillation.1 [⟨0, 0⟩, ⟨1, 1⟩] [0, 1] 0
      (loopEntry oneEdge (-1)).localCinfo 1 1 1 0 (1 / 2) rfl).2.1 (by decide!),
    (singleton_anti_oscillation.2 2 2 oneEdge.edge_indices_ oneEdge.edge_list_
      (loopEntry oneEdge (-1)).currComm (initVDegree oneEdge)
      (loopEntry oneEdge (-1)).localCinfo (initConstant oneEdge)
      ⟨fun _ => 0, fun _ => Comm.zero, fun _ => 0⟩ 0 1 (by decide) (by decide) (by decide)
      (by decide) (by decide) (by decide) (by decide!) (by decide!) (by decide!)).1
      (by decide!),
    (singleton_anti_oscillation.2 2 2 oneEdge.edge_indices_ oneEdge.edge_list_
      (loopEntry oneEdge (-1)).currComm (initVDegree oneEdge)
      (loopEntry oneEdge (-1)).localCinfo (initConstant oneEdge)
      ⟨fun _ => 0, fun _ => Comm.zero, fun _ => 0⟩ 0 1 (by decide) (by decide) (by decide)
      (by decide) (by decide) (by decide) (by decide!) (by decide!) (by decide!)).2⟩

/-! ## Claims on modularity and termination -/

/-- C9, as stated, fails for threshold 0: on the two-edge graph (non-negative
weights, total weight 4) with lower bound -1 the exit test `currMod - prevMod < 0`
never succeeds (from pass 3 on the modularity stays 1/2), so `louvainMethod`
returns for no amount of fuel. -/
theorem louvainMethod_threshold_zero_counterexample :
    twoEdges.NonnegWeights ∧ 0 < totalDegree twoEdges ∧
    ¬ ∃ fuel : Nat, (louvainMethod twoEdges (-1) 0 1 fuel).isSome = true := by
  refine ⟨twoEdges_nonneg, by decide!, ?_⟩
  rintro ⟨fuel, h⟩
  rw [louvainMethod_none twoEdges (-1) 0 1 fuel (fun j _ => twoEdges_never_halts j)] at h
  exact Bool.false_ne_true h

/-- C9 (amended): for every graph with non-negative edge weights and positive
total weight, every lower bound, every threshold `> 0` and every thread count
`≥ 1`, the convergence loop halts after finitely many passes: with enough fuel
`louvainMethod` returns. -/
theorem louvainMethod_terminates (g : Graph) (hn : 0 ≤ g.nv) (hw : g.NonnegWeights)
    (hW : 0 < totalDegree g) (lower thresh : ℚ) (hth : 0 < thresh) (T : Int) (hT : 1 ≤ T) :
    ∃ (fuel : Nat) (r : ℚ × Int × LouvainState), ∀ fuel', fuel ≤ fuel' →
      louvainMethod g lower thresh T fuel' = some r := by
  classical
  have hex := exists_haltsAt g hn hw hW lower thresh hth T hT
  refine ⟨Nat.find hex + 1, _, fun fuel' hf =>
    louvainMethod_of_halt g lower thresh T (Nat.find hex)
      (fun j hj => Nat.find_min hex hj) (Nat.find_spec hex) fuel' (by omega)⟩

/-- Witness of `louvainMethod_terminates`: the two-edge graph, threshold 1e-6. -/
theorem louvainMethod_terminates_witness :
    ∃ (fuel : Nat) (r : ℚ × Int × LouvainState), ∀ fuel', fuel ≤ fuel' →
      louvainMethod twoEdges (-1) (1 / 1000000) 1 fuel' = some r :=
  louvainMethod_terminates twoEdges (by decide) twoEdges_nonneg (by decide!) (-1)
    (1 / 1000000) (by norm_num) 1 (by decide)

/-- C10, as stated, fails: on the one-edge graph (non-negative weights, total
weight 2) the modularity computed at the end of the first pass is -1, below
-1/2 (the cluster weights are those of the assignment before the sweep, the
aggregates those after the merge).  Every value of this run (the degrees 1,
the constant 1/2, the sums 0 and 4, the products 0, 2 and 1) is a small dyadic
number, so that the run is the same in `double`. -/
theorem computeModularity_lower_counterexample :
    oneEdge.NonnegWeights ∧ 0 < totalDegree oneEdge ∧
    currModAt oneEdge (-1) 1 0 = -1 ∧
    computeModularity oneEdge (bodyAt oneEdge (-1) 1 0).localCinfo
      (bodyAt oneEdge (-1) 1 0).clusterWeight (initConstant oneEdge) = -1 ∧
    ¬ (-1 / 2 ≤ currModAt oneEdge (-1) 1 0) :=
  ⟨oneEdge_nonneg, by decide!, by decide!, by decide!, by decide!⟩

/-- C10 (amended): in exact arithmetic (weights, sums, products and the
constant `1 / total weight` without rounding or overflow), for every graph with
non-negative edge weights, positive total weight and edge endpoints among its
vertices, the modularity computed by `computeModularity` at the end of every
pass (from the cluster weights of that pass and the merged aggregates) lies in
the closed interval `[-1, 1]`. -/
theorem computeModularity_bounds (g : Graph) (hn : 0 ≤ g.nv) (hend : g.EndpointsInRange)
    (hw : g.NonnegWeights) (hW : 0 < totalDegree g) (lower : ℚ) (T : Int) (hT : 1 ≤ T)
    (k : Nat) :
    currModAt g lower T k =
      computeModularity g (bodyAt g lower T k).localCinfo (bodyAt g lower T k).clusterWeight
        (initConstant g) ∧
    -1 ≤ currModAt g lower T k ∧ currModAt g lower T k ≤ 1 := by
  obtain ⟨n, hn'⟩ := Int.eq_ofNat_of_zero_le hn
  exact ⟨rfl, currMod_bounds g n hn' hend hw hW T hT (stateAt g lower T k)
    (passInv_stateAt g n hn' T hT hend lower k) (initConstant g) (initConstant_eq g)⟩

/-- Witness of `computeModularity_bounds`: the two-edge graph, pass 1. -/
theorem computeModularity_bounds_witness :
    currModAt twoEdges (-1) 1 0 =
      computeModularity twoEdges (bodyAt twoEdges (-1) 1 0).localCinfo
        (bodyAt twoEdges (-1) 1 0).clusterWeight (initConstant twoEdges) ∧
    -1 ≤ currModAt twoEdges (-1) 1 0 ∧ currModAt twoEdges (-1) 1 0 ≤ 1 :=
  computeModularity_bounds twoEdges (by decide) twoEdges_endpoints twoEdges_nonneg
    (by decide!) (-1) 1 (by decide) 0

/-! ## Claims on the local table -/

/-- C12: started from the pre-seeded state, after `buildLocalMapCounter` over
any edges `clmap_size = counter_size = min(32, 1 + d)`, with `d` the number of
distinct communities other than the vertex's own among the edge endpoints; the
table's communities are pairwise distinct, entry `k` has slot `k`, the entries
after entry 0 are the first `min(31, d)` distinct other communities in order of
first appearance; the table after a leading part of the edges is kept as the
leading part of the final table, and a community that is new when the table is
full changes neither `clmap` nor `counter`. -/
theorem buildLocalMapCounter_bounded_table (currComm : Int → Int) (vertex : Int)
    (edges : List Edge) :
    (∀ (e0 e1 : Int) (edge_list : Int → Edge), edgesOf edge_list e0 e1 = edges →
      buildLocalMapCounter e0 e1 [⟨currComm vertex, 0⟩] [0] edge_list currComm vertex =
        buildFrom currComm vertex edges) ∧
    (buildFrom currComm vertex edges).clmap.length =
      min 32 (1 + (otherComms currComm (currComm vertex) edges).toFinset.card) ∧
    (buildFrom currComm vertex edges).counter.length =
      min 32 (1 + (otherComms currComm (currComm vertex) edges).toFinset.card) ∧
    ((buildFrom currComm vertex edges).clmap.map clmap_t.f).Nodup ∧
    (buildFrom currComm vertex edges).clmap.map clmap_t.s =
      (List.range (buildFrom currComm vertex edges).clmap.length).map
        (fun (k : Nat) => (k : Int)) ∧
    (buildFrom currComm vertex edges).clmap.map clmap_t.f =
      currComm vertex :: (firstSeen (otherComms currComm (currComm vertex) edges)).take
        (min 31 (otherComms currComm (currComm vertex) edges).toFinset.card) ∧
    (∀ pre rest : List Edge, edges = pre ++ rest →
      ∃ t : List clmap_t, (buildFrom currComm vertex edges).clmap =
        (buildFrom currComm vertex pre).clmap ++ t) ∧
    (∀ (st : MapState) (e : Edge), st.clmap.length = 32 → st.counter.length = 32 →
      (∀ y ∈ st.clmap, y.f ≠ currComm e.tail_) →
      (buildLocalMapCounterStep currComm vertex st e).clmap = st.clmap ∧
      (buildLocalMapCounterStep currComm vertex st e).counter = st.counter) := by
  have hinv := tableInv_buildFrom currComm vertex edges
  obtain ⟨hlen, hlenc⟩ := tableInv_length _ _ _ _ _ hinv
  have hnd := tableInv_fs_nodup currComm (currComm vertex) edges
  obtain ⟨h1, h2, _, _, _⟩ := hinv
  rw [firstSeen_length] at hlen
  refine ⟨?_, ?_, ?_, ?_, h2, ?_, ?_, ?_⟩
  · intro e0 e1 edge_list he
    rw [← he]; rfl
  · omega
  · omega
  · rw [h1]; exact hnd
  · rw [h1]
    congr 1
    by_cases hc : (otherComms currComm (currComm vertex) edges).toFinset.card ≤ 31
    · rw [min_eq_right hc, List.take_of_length_le (by rw [firstSeen_length]; exact hc),
        List.take_of_length_le (by rw [firstSeen_length])]
    · rw [min_eq_left (by omega)]
  · intro pre rest he
    subst he
    have : buildFrom currComm vertex (pre ++ rest) =
        rest.foldl (buildLocalMapCounterStep currComm vertex) (buildFrom currComm vertex pre) := by
      simp only [buildFrom, List.foldl_append]
    rw [this]
    exact buildFold_clmap_append currComm vertex rest _
  · intro st e h1 h2 hnot
    exact buildStep_full currComm vertex st e h1 h2 hnot

/-- Witness of `buildLocalMapCounter_bounded_table`: vertex 0 of the star graph
(edges to 3 and 7) in the initial assignment. -/
theorem buildLocalMapCounter_bounded_table_witness :
    buildLocalMapCounter 0 2 [⟨(loopEntry starGraph (-1)).currComm 0, 0⟩] [0]
        starGraph.edge_list_ (loopEntry starGraph (-1)).currComm 0 =
      buildFrom (loopEntry starGraph (-1)).currComm 0 [⟨3, 1⟩, ⟨7, 1⟩] ∧
    ∃ t : List clmap_t,
      (buildFrom (loopEntry starGraph (-1)).currComm 0 [⟨3, 1⟩, ⟨7, 1⟩]).clmap =
        (buildFrom (loopEntry starGraph (-1)).currComm 0 [⟨3, 1⟩]).clmap ++ t :=
  ⟨(buildLocalMapCounter_bounded_table (loopEntry starGraph (-1)).currComm 0
      [⟨3, 1⟩, ⟨7, 1⟩]).1 0 2 starGraph.edge_list_ (by decide!),
    (buildLocalMapCounter_bounded_table (loopEntry starGraph (-1)).currComm 0
      [⟨3, 1⟩, ⟨7, 1⟩]).2.2.2.2.2.2.1 [⟨3, 1⟩] [⟨7, 1⟩] rfl⟩

/-- C13: for every vertex `i` with at least one edge the table handed to
`getMaxIndex` has `(currComm[i], 0)` as entry 0, and `counter[0]` is the weight
of the edges into that community, whatever the edges are (also with more than
32 distinct communities); it is 0 when no edge endpoint lies in the community. -/
theorem localTables_self_community (i : Int) (edge_indices : Int → Int)
    (edge_list : Int → Edge) (currComm : Int → Int) (vDegree : Int → ℚ)
    (localCinfo : Int → Comm) (c : ℚ) (hedge : edge_indices i ≠ edge_indices (i + 1)) :
    localTarget i edge_indices edge_list currComm vDegree localCinfo c =
      getMaxIndex (localTables i edge_indices edge_list currComm).clmap
        (localTables i edge_indices edge_list currComm).counter
        ((truncToElem (localTables i edge_indices edge_list currComm).selfLoop : Int) : ℚ)
        localCinfo (vDegree i) (localCinfo (currComm i)).size
        (localCinfo (currComm i)).degree (currComm i) c ∧
    (localTables i edge_indices edge_list currComm).clmap.head? = some ⟨currComm i, 0⟩ ∧
    1 ≤ (localTables i edge_indices edge_list currComm).counter.length ∧
    getAt (localTables i edge_indices edge_list currComm).counter 0 0 =
      weightInto currComm (currComm i)
        (edgesOf edge_list (edge_indices i) (edge_indices (i + 1))) ∧
    ((∀ e ∈ edgesOf edge_list (edge_indices i) (edge_indices (i + 1)),
        currComm e.tail_ ≠ currComm i) →
      getAt (localTables i edge_indices edge_list currComm).counter 0 0 = 0) := by
  obtain ⟨h1, h2⟩ := buildFrom_head currComm i
    (edgesOf edge_list (edge_indices i) (edge_indices (i + 1)))
  obtain ⟨hlen, hlenc⟩ := tableInv_length _ _ _ _ _
    (tableInv_buildFrom currComm i (edgesOf edge_list (edge_indices i) (edge_indices (i + 1))))
  refine ⟨?_, h1, ?_, h2, ?_⟩
  · simp only [localTarget, if_pos hedge]
  · rw [localTables_eq_buildFrom]; omega
  · intro hno
    rw [localTables_eq_buildFrom, h2]
    exact weightInto_eq_zero currComm _ _ hno

/-- Witness of `localTables_self_community`: vertex 0 of the star graph, whose
edges lead to the communities 3 and 7 only. -/
theorem localTables_self_community_witness :
    (localTables 0 starGraph.edge_indices_ starGraph.edge_list_
      (loopEntry starGraph (-1)).currComm).clmap.head? =
      some ⟨(loopEntry starGraph (-1)).currComm 0, 0⟩ ∧
    1 ≤ (localTables 0 starGraph.edge_indices_ starGraph.edge_list_
      (loopEntry starGraph (-1)).currComm).counter.length :=
  ⟨(localTables_self_community 0 starGraph.edge_indices_ starGraph.edge_list_
      (loopEntry starGraph (-1)).currComm (initVDegree starGraph)
      (loopEntry starGraph (-1)).localCinfo (initConstant starGraph) (by decide)).2.1,
    (localTables_self_community 0 starGraph.edge_indices_ starGraph.edge_list_
      (loopEntry starGraph (-1)).currComm (initVDegree starGraph)
      (loopEntry starGraph (-1)).localCinfo (initConstant starGraph) (by decide)).2.2.1⟩

/-- C20: every counter of the table built by `buildLocalMapCounter` from the
pre-seeded state is the sum of the weights of the vertex's edges whose
endpoint's current community is the entry's community, dropped communities or
not; `counter[0]` is the weight into the vertex's own community (self-loops
included) and is the amount added to `clusterWeight[i]`, so after a sweep from
zeroed `clusterWeight` the entry of vertex `i` is that intra-community weight. -/
theorem counter_exact_weights :
    (∀ (currComm : Int → Int) (vertex : Int) (edges : List Edge),
      (buildFrom currComm vertex edges).counter =
        (buildFrom currComm vertex edges).clmap.map
          (fun x => weightInto currComm x.f edges) ∧
      ∀ x ∈ (buildFrom currComm vertex edges).clmap,
        getAt (buildFrom currComm vertex edges).counter x.s 0 =
          weightInto currComm x.f edges) ∧
    (∀ (i : Int) (edge_indices : Int → Int) (edge_list : Int → Edge) (currComm : Int → Int)
      (vDegree : Int → ℚ) (localCinfo : Int → Comm) (c : ℚ) (st : SweepState),
      edge_indices i ≠ edge_indices (i + 1) →
      getAt (localTables i edge_indices edge_list currComm).counter 0 0 =
        weightInto currComm (currComm i)
          (edgesOf edge_list (edge_indices i) (edge_indices (i + 1))) ∧
      (execLouvainIteration i edge_indices edge_list currComm vDegree localCinfo c
          st).clusterWeight i =
        st.clusterWeight i + weightInto currComm (currComm i)
          (edgesOf edge_list (edge_indices i) (edge_indices (i + 1)))) ∧
    (∀ (n T : Int) (edge_indices : Int → Int) (edge_list : Int → Edge)
      (currComm : Int → Int) (vDegree : Int → ℚ) (localCinfo : Int → Comm) (c : ℚ)
      (st : SweepState) (i : Int),
      0 ≤ n → 1 ≤ T → 0 ≤ i → i < n → st.clusterWeight i = 0 →
      (execLouvainParallel n edge_indices edge_list currComm vDegree localCinfo c T
          st).clusterWeight i =
        weightInto currComm (currComm i)
          (edgesOf edge_list (edge_indices i) (edge_indices (i + 1)))) := by
  refine ⟨?_, ?_, ?_⟩
  · intro currComm vertex edges
    exact ⟨(tableInv_buildFrom currComm vertex edges).2.2.1,
      fun x hx => (buildFrom_getAt_counter currComm vertex edges x hx).2.2⟩
  · intro i edge_indices edge_list currComm vDegree localCinfo c st hedge
    have h0 := counter0_eq i edge_indices edge_list currComm
    constructor
    · rw [← h0]
      simp only [counter0, if_pos hedge]
    · rw [(execLouvainIteration_eq i edge_indices edge_list currComm vDegree localCinfo c
        st).2.1, Function.update_same, h0]
  · intro n T edge_indices edge_list currComm vDegree localCinfo c st i hn hT h0 h1 hz
    rw [execLouvainParallel_clusterWeight n T hn hT _ _ _ _ _ _ _ i h0 h1, hz, zero_add,
      counter0_eq]

/-- Witness of `counter_exact_weights`: vertex 0 of the star graph, alone and
in the first sweep with two threads. -/
theorem counter_exact_weights_witness :
    (getAt (localTables 0 starGraph.edge_indices_ starGraph.edge_list_
        (loopEntry starGraph (-1)).currComm).counter 0 0 =
      weightInto (loopEntry starGraph (-1)).currComm ((loopEntry starGraph (-1)).currComm 0)
        (edgesOf starGraph.edge_list_ (starGraph.edge_indices_ 0)
          (starGraph.edge_indices_ (0 + 1))) ∧
      (execLouvainIteration 0 starGraph.edge_indices_ starGraph.edge_list_
          (loopEntry starGraph (-1)).currComm (initVDegree starGraph)
          (loopEntry starGraph (-1)).localCinfo (initConstant starGraph)
          ⟨fun _ => 0, fun _ => Comm.zero, fun _ => 0⟩).clusterWeight 0 =
        (0 : ℚ) + weightInto (loopEntry starGraph (-1)).currComm
          ((loopEntry starGraph (-1)).currComm 0)
          (edgesOf starGraph.edge_list_ (starGraph.edge_indices_ 0)
            (starGraph.edge_indices_ (0 + 1)))) ∧
    (execLouvainParallel 8 starGraph.edge_indices_ starGraph.edge_list_
        (loopEntry starGraph (-1)).currComm (initVDegree starGraph)
        (loopEntry starGraph (-1)).localCinfo (initConstant starGraph) 2
        ⟨fun _ => 0, fun _ => Comm.zero, fun _ => 0⟩).clusterWeight 0 =
      weightInto (loopEntry starGraph (-1)).currComm ((loopEntry starGraph (-1)).currComm 0)
        (edgesOf starGraph.edge_list_ (starGraph.edge_indices_ 0)
          (starGraph.edge_indices_ (0 + 1))) :=
  ⟨counter_exact_weights.2.1 0 starGraph.edge_indices_ starGraph.edge_list_
      (loopEntry starGraph (-1)).currComm (initVDegree starGraph)
      (loopEntry starGraph (-1)).localCinfo (initConstant starGraph)
      ⟨fun _ => 0, fun _ => Comm.zero, fun _ => 0⟩ (by decide),
    counter_exact_weights.2.2 8 2 starGraph.edge_indices_ starGraph.edge_list_
      (loopEntry starGraph (-1)).currComm (initVDegree starGraph)
      (loopEntry starGraph (-1)).localCinfo (initConstant starGraph)
      ⟨fun _ => 0, fun _ => Comm.zero, fun _ => 0⟩ 0 (by decide) (by decide) (by decide)
      (by decide) rfl⟩

/-! ## Claims on the sweep -/

/-- C14: for a vertex `i` whose edge range is empty `execLouvainIteration` sets
`targetComm[i] = currComm[i]` and leaves `clusterWeight` and `localCupdate`
unchanged; hence in every pass of `louvainMethod` such a vertex keeps community
id `i`, is targeted to `i`, and has `clusterWeight[i] = 0` when the modularity
is evaluated. -/
theorem no_edges_idempotence :
    (∀ (i : Int) (edge_indices : Int → Int) (edge_list : Int → Edge) (currComm : Int → Int)
      (vDegree : Int → ℚ) (localCinfo : Int → Comm) (c : ℚ) (st : SweepState),
      edge_indices i = edge_indices (i + 1) →
      (execLouvainIteration i edge_indices edge_list currComm vDegree localCinfo c
          st).targetComm i = currComm i ∧
      (execLouvainIteration i edge_indices edge_list currComm vDegree localCinfo c
          st).clusterWeight = st.clusterWeight ∧
      (execLouvainIteration i edge_indices edge_list currComm vDegree localCinfo c
          st).localCupdate = st.localCupdate) ∧
    (∀ (g : Graph) (lower : ℚ) (T : Int) (k : Nat) (v : Int),
      0 ≤ g.nv → 1 ≤ T → 0 ≤ v → v < g.nv →
      g.edge_indices_ v = g.edge_indices_ (v + 1) →
      (stateAt g lower T k).currComm v = v ∧
      (bodyAt g lower T k).targetComm v = v ∧
      (bodyAt g lower T k).clusterWeight v = 0) := by
  refine ⟨?_, ?_⟩
  · intro i edge_indices edge_list currComm vDegree localCinfo c st hedge
    obtain ⟨h1, h2, h3⟩ := execLouvainIteration_eq i edge_indices edge_list currComm vDegree
      localCinfo c st
    have ht := localTarget_no_edges i edge_indices edge_list currComm vDegree localCinfo c
      (le_of_eq hedge.symm)
    have hc := counter0_no_edges i edge_indices edge_list currComm (le_of_eq hedge.symm)
    refine ⟨?_, ?_, ?_⟩
    · rw [h1, Function.update_same, ht]
    · rw [h2, hc, add_zero, Function.update_eq_self]
    · rw [h3, ht]
      funext x
      simp [sizeDelta, degreeDelta]
  · intro g lower T k v hn hT h0 h1 hedge
    have hle := le_of_eq hedge.symm
    have hcur := stateAt_currComm_no_edges g hn lower T hT v h0 h1 hle k
    obtain ⟨n, hn'⟩ := Int.eq_ofNat_of_zero_le hn
    rw [hn'] at h1
    obtain ⟨_, _, _, htg, hcw, _⟩ := passBody_fields g n hn' T hT (initVDegree g)
      (initConstant g) (stateAt g lower T k)
    refine ⟨hcur, ?_, ?_⟩
    · show (passBody g (initVDegree g) (initConstant g) T (stateAt g lower T k)).targetComm v = v
      rw [htg]
      simp only [if_pos (And.intro h0 h1)]
      rw [localTarget_no_edges _ _ _ _ _ _ _ hle, hcur]
    · show (passBody g (initVDegree g) (initConstant g) T
        (stateAt g lower T k)).clusterWeight v = 0
      rw [hcw]
      simp only [if_pos (And.intro h0 h1)]
      exact counter0_no_edges _ _ _ _ hle

/-- Witness of `no_edges_idempotence`: vertex 1 of the star graph has no edges. -/
theorem no_edges_idempotence_witness :
    (stateAt starGraph (-1) 2 3).currComm 1 = 1 ∧
    (bodyAt starGraph (-1) 2 3).targetComm 1 = 1 ∧
    (bodyAt starGraph (-1) 2 3).clusterWeight 1 = 0 :=
  no_edges_idempotence.2 starGraph (-1) 2 3 1 (by decide) (by decide) (by decide)
    (by decide) (by decide)

/-- C15: for `n ≥ 0` and `T ≥ 1` the chunks built by `execLouvainParallel`
(thread `i` runs `worker` from `chunkStart i` to `chunkStart (i + 1)`) satisfy
`start_0 = 0`, `start_{i+1} = end_i`, `end_{T-1} = n` and
`end_i - start_i = n / T + (1 if i < n % T else 0)`; every vertex of
`0, ..., n - 1` lies in exactly one chunk, chunk sizes differ by at most 1 and
the larger chunks are the leading ones. -/
theorem chunk_partition (n T : Int) (hn : 0 ≤ n) (hT : 1 ≤ T) :
    (∀ (edge_indices : Int → Int) (edge_list : Int → Edge) (currComm : Int → Int)
      (vDegree : Int → ℚ) (localCinfo : Int → Comm) (c : ℚ) (st : SweepState),
      execLouvainParallel n edge_indices edge_list currComm vDegree localCinfo c T st =
        (List.range T.toNat).foldl
          (fun st (i : Nat) => worker (chunkStart n T i) (chunkStart n T (i + 1))
            edge_indices edge_list currComm vDegree localCinfo c st) st) ∧
    chunkStart n T 0 = 0 ∧
    (∀ i : Nat, chunkStart n T (i + 1) = chunkEnd n T (chunkStart n T i) i) ∧
    chunkStart n T T.toNat = n ∧
    (∀ i : Nat, chunkStart n T (i + 1) - chunkStart n T i =
      n / T + (if (i : Int) < n % T then 1 else 0)) ∧
    (∀ v : Int, 0 ≤ v → v < n →
      ∃! i : Nat, (i : Int) < T ∧ chunkStart n T i ≤ v ∧ v < chunkStart n T (i + 1)) ∧
    (∀ i j : Nat, i ≤ j →
      chunkStart n T (j + 1) - chunkStart n T j ≤ chunkStart n T (i + 1) - chunkStart n T i ∧
      chunkStart n T (i + 1) - chunkStart n T i ≤
        chunkStart n T (j + 1) - chunkStart n T j + 1) := by
  have hT0 : 0 < T := by omega
  obtain ⟨t, rfl⟩ := Int.eq_ofNat_of_zero_le (le_of_lt hT0)
  have ht : 0 < t := by omega
  have hlast : chunkStart n t t = n := chunkStart_last n t hn ht
  have hsize : ∀ i : Nat, chunkStart n t (i + 1) - chunkStart n t i =
      n / t + (if (i : Int) < n % t then 1 else 0) := fun i => chunk_size n t hn hT0 i
  refine ⟨fun ei el cc vd ci c st => execLouvainParallel_chunks n t ei el cc vd ci c st, rfl,
    fun i => rfl, by simpa using hlast, hsize, ?_, ?_⟩
  · intro v h0 h1
    obtain ⟨i, hi, h2, h3⟩ := chunk_exists n t t v h0 (by rw [hlast]; exact h1)
    refine ⟨i, ⟨by omega, h2, h3⟩, ?_⟩
    rintro j ⟨_, hj2, hj3⟩
    rcases Nat.lt_trichotomy i j with h | h | h
    · have := chunkStart_le n t hn hT0 (i + 1) j (by omega)
      omega
    · exact h.symm
    · have := chunkStart_le n t hn hT0 (j + 1) i (by omega)
      omega
  · intro i j hij
    rw [hsize i, hsize j]
    have hij' : (i : Int) ≤ j := by omega
    constructor <;> split_ifs <;> omega

/-- Witness of `chunk_partition`: 10 vertices on 4 threads, chunks of sizes
3, 3, 2, 2. -/
theorem chunk_partition_witness :
    chunkStart 10 4 0 = 0 ∧
    (∀ i : Nat, chunkStart 10 4 (i + 1) = chunkEnd 10 4 (chunkStart 10 4 i) i) ∧
    chunkStart 10 4 (4 : Int).toNat = 10 ∧
    (∀ i : Nat, chunkStart 10 4 (i + 1) - chunkStart 10 4 i =
      10 / 4 + (if (i : Int) < 10 % 4 then 1 else 0)) :=
  ⟨(chunk_partition 10 4 (by decide) (by decide)).2.1,
    (chunk_partition 10 4 (by decide) (by decide)).2.2.1,
    (chunk_partition 10 4 (by decide) (by decide)).2.2.2.1,
    (chunk_partition 10 4 (by decide) (by decide)).2.2.2.2.1⟩

/-- C16: at the start of every pass of `louvainMethod`, for every community id
`c` in `0, ..., nv - 1`, `localCinfo[c].size` is the number of vertices `v`
with `currComm[v] = c` and `localCinfo[c].degree` is the sum of `vDegree[v]`
over those vertices; in particular the size is `≥ 0`. -/
theorem aggregates_match_membership (g : Graph) (hn : 0 ≤ g.nv) (hend : g.EndpointsInRange)
    (lower : ℚ) (T : Int) (hT : 1 ≤ T) (k : Nat) (c : Int) (hc0 : 0 ≤ c) (hc1 : c < g.nv) :
    ((stateAt g lower T k).localCinfo c).size =
      (((forRange 0 g.nv).filter
        (fun v => decide ((stateAt g lower T k).currComm v = c))).length : Int) ∧
    ((stateAt g lower T k).localCinfo c).degree =
      (((forRange 0 g.nv).filter
        (fun v => decide ((stateAt g lower T k).currComm v = c))).map (initVDegree g)).sum ∧
    0 ≤ ((stateAt g lower T k).localCinfo c).size := by
  obtain ⟨n, hn'⟩ := Int.eq_ofNat_of_zero_le hn
  rw [hn'] at hc1 ⊢
  obtain ⟨h1, h2⟩ := (passInv_stateAt g n hn' T hT hend lower k).2 c hc0 hc1
  have e1 : ((stateAt g lower T k).localCinfo c).size =
      (((forRange 0 n).filter
        (fun v => decide ((stateAt g lower T k).currComm v = c))).length : Int) := by
    rw [h1, filter_length_eq_sum, sum_forRange_int]
    simp only [decide_eq_true_eq]
  refine ⟨e1, ?_, ?_⟩
  · rw [h2, filter_map_sum_eq_sum, sum_forRange]
    simp only [decide_eq_true_eq]
  · rw [e1]; exact Int.ofNat_nonneg _

/-- Witness of `aggregates_match_membership`: community 0 of the two-edge graph
at the start of pass 2. -/
theorem aggregates_match_membership_witness :
    ((stateAt twoEdges (-1) 1 1).localCinfo 0).size =
      (((forRange 0 twoEdges.nv).filter
        (fun v => decide ((stateAt twoEdges (-1) 1 1).currComm v = 0))).length : Int) ∧
    ((stateAt twoEdges (-1) 1 1).localCinfo 0).degree =
      (((forRange 0 twoEdges.nv).filter
        (fun v => decide ((stateAt twoEdges (-1) 1 1).currComm v = 0))).map
          (initVDegree twoEdges)).sum ∧
    0 ≤ ((stateAt twoEdges (-1) 1 1).localCinfo 0).size :=
  aggregates_match_membership twoEdges (by decide) twoEdges_endpoints (-1) 1 (by decide) 1 0
    (by decide) (by decide)

/-- C17: `execLouvainIteration` for vertex `i` leaves `targetComm[j]` and
`clusterWeight[j]` of every other vertex `j` as they were (it returns no
`currComm` and no `localCinfo`: a pass keeps `currComm` and changes `localCinfo`
only in the merge step); after a sweep `targetComm[i]` is the decision
`localTarget` on the pre-sweep `currComm` and `localCinfo`; and the sweep with
any `numThreads ≥ 1`, with the chunks run in any sequential order, gives the
`targetComm`, `clusterWeight` and `localCupdate` of the single loop over
`0, ..., n - 1`. -/
theorem frozen_snapshot :
    (∀ (i j : Int) (edge_indices : Int → Int) (edge_list : Int → Edge)
      (currComm : Int → Int) (vDegree : Int → ℚ) (localCinfo : Int → Comm) (c : ℚ)
      (st : SweepState), j ≠ i →
      (execLouvainIteration i edge_indices edge_list currComm vDegree localCinfo c
          st).targetComm j = st.targetComm j ∧
      (execLouvainIteration i edge_indices edge_list currComm vDegree localCinfo c
          st).clusterWeight j = st.clusterWeight j) ∧
    (∀ (g : Graph) (vDegree : Int → ℚ) (c : ℚ) (T : Int) (s : LouvainState),
      (passBody g vDegree c T s).currComm = s.currComm ∧
      (passBody g vDegree c T s).localCinfo =
        updateLocalCinfo g.nv s.localCinfo (passBody g vDegree c T s).localCupdate) ∧
    (∀ (n T : Int) (edge_indices : Int → Int) (edge_list : Int → Edge)
      (currComm : Int → Int) (vDegree : Int → ℚ) (localCinfo : Int → Comm) (c : ℚ)
      (st : SweepState), 0 ≤ n → 1 ≤ T →
      (∀ i : Int, 0 ≤ i → i < n →
        (execLouvainParallel n edge_indices edge_list currComm vDegree localCinfo c T
            st).targetComm i =
          localTarget i edge_indices edge_list currComm vDegree localCinfo c) ∧
      execLouvainParallel n edge_indices edge_list currComm vDegree localCinfo c T st =
        worker 0 n edge_indices edge_list currComm vDegree localCinfo c st ∧
      execLouvainParallel n edge_indices edge_list currComm vDegree localCinfo c T st =
        execLouvainParallel n edge_indices edge_list currComm vDegree localCinfo c 1 st ∧
      ∀ order : List Nat, order.Perm (List.range T.toNat) →
        order.foldl
            (fun st (i : Nat) => worker (chunkStart n T i) (chunkStart n T (i + 1))
              edge_indices edge_list currComm vDegree localCinfo c st) st =
          worker 0 n edge_indices edge_list currComm vDegree localCinfo c st) := by
  refine ⟨?_, fun g vDegree c T s => ⟨rfl, rfl⟩, ?_⟩
  · intro i j edge_indices edge_list currComm vDegree localCinfo c st hji
    obtain ⟨h1, h2, _⟩ := execLouvainIteration_eq i edge_indices edge_list currComm vDegree
      localCinfo c st
    rw [h1, h2, Function.update_noteq hji, Function.update_noteq hji]
    exact ⟨rfl, rfl⟩
  · intro n T edge_indices edge_list currComm vDegree localCinfo c st hn hT
    refine ⟨fun i h0 h1 => execLouvainParallel_targetComm n T hn hT _ _ _ _ _ _ _ i h0 h1,
      execLouvainParallel_eq_worker n T hn hT _ _ _ _ _ _ _, ?_, ?_⟩
    · rw [execLouvainParallel_eq_worker n T hn hT,
        execLouvainParallel_eq_worker n 1 hn (le_refl _)]
    · intro order hperm
      obtain ⟨t, rfl⟩ := Int.eq_ofNat_of_zero_le (le_trans (by decide) hT)
      rw [Int.toNat_ofNat] at hperm
      exact chunks_any_order n t hn (by omega) _ _ _ _ _ _ order hperm st

/-- Witness of `frozen_snapshot`: the first sweep of the two-edge graph on 2
threads, the second chunk run before the first. -/
theorem frozen_snapshot_witness :
    execLouvainParallel 4 twoEdges.edge_indices_ twoEdges.edge_list_
        (loopEntry twoEdges (-1)).currComm (initVDegree twoEdges)
        (loopEntry twoEdges (-1)).localCinfo (initConstant twoEdges) 2
        ⟨fun _ => 0, fun _ => Comm.zero, fun _ => 0⟩ =
      worker 0 4 twoEdges.edge_indices_ twoEdges.edge_list_
        (loopEntry twoEdges (-1)).currComm (initVDegree twoEdges)
        (loopEntry twoEdges (-1)).localCinfo (initConstant twoEdges)
        ⟨fun _ => 0, fun _ => Comm.zero, fun _ => 0⟩ ∧
    [1, 0].foldl
        (fun st (i : Nat) => worker (chunkStart 4 2 i) (chunkStart 4 2 (i + 1))
          twoEdges.edge_indices_ twoEdges.edge_list_
          (loopEntry twoEdges (-1)).currComm (initVDegree twoEdges)
          (loopEntry twoEdges (-1)).localCinfo (initConstant twoEdges) st)
        ⟨fun _ => 0, fun _ => Comm.zero, fun _ => 0⟩ =
      worker 0 4 twoEdges.edge_indices_ twoEdges.edge_list_
        (loopEntry twoEdges (-1)).currComm (initVDegree twoEdges)
        (loopEntry twoEdges (-1)).localCinfo (initConstant twoEdges)
        ⟨fun _ => 0, fun _ => Comm.zero, fun _ => 0⟩ :=
  ⟨(frozen_snapshot.2.2 4 2 twoEdges.edge_indices_ twoEdges.edge_list_
      (loopEntry twoEdges (-1)).currComm (initVDegree twoEdges)
      (loopEntry twoEdges (-1)).localCinfo (initConstant twoEdges)
      ⟨fun _ => 0, fun _ => Comm.zero, fun _ => 0⟩ (by decide) (by decide)).2.1,
    (frozen_snapshot.2.2 4 2 twoEdges.edge_indices_ twoEdges.edge_list_
      (loopEntry twoEdges (-1)).currComm (initVDegree twoEdges)
      (loopEntry twoEdges (-1)).localCinfo (initConstant twoEdges)
      ⟨fun _ => 0, fun _ => Comm.zero, fun _ => 0⟩ (by decide) (by decide)).2.2.2 [1, 0]
      (List.Perm.swap 0 1 [])⟩

/-! ## Claims on the gain -/

/-- C18, as stated, fails.  For vertex 0 of the star graph in the initial state
(`vDegree = 2`, `currDegree = 2`, constant `1/4`) the gain `getMaxIndex` computes
for candidate 3 and keeps as `maxGain` is 1, while the formula with the
aggregate degree of the current community (`currDegree`) as `degree_current`
gives 3.  For vertex 1 of the graph with the unit edge 0-1 and a unit self-loop
at each vertex (`vDegree = 2`, `currDegree = 2`, constant `1/4`, table
`[(1, 0), (0, 1)]`, counters `[1, 1]`, self-loop 1) the decision differs:
`getMaxIndex` keeps the vertex in community 1 with `maxGain = 0`, while the
formula with `currDegree` gives candidate 0 (of lower id, so that the
anti-oscillation guard does not apply) the positive gain 2. -/
theorem gain_formula_counterexample :
    ((localTables 0 starGraph.edge_indices_ starGraph.edge_list_
        (loopEntry starGraph (-1)).currComm).clmap = [⟨0, 0⟩, ⟨3, 1⟩, ⟨7, 2⟩] ∧
      (localTables 0 starGraph.edge_indices_ starGraph.edge_list_
        (loopEntry starGraph (-1)).currComm).counter = [0, 1, 1] ∧
      initVDegree starGraph 0 = 2 ∧ (loopEntry starGraph (-1)).localCinfo 0 = ⟨1, 2⟩ ∧
      initConstant starGraph = 1 / 4 ∧
      getMaxIndexStep [0, 1, 1] (loopEntry starGraph (-1)).localCinfo 2 (0 - 0) (2 - 2) 0
        (1 / 4) ⟨0, 0, 1, 0⟩ ⟨3, 1⟩ = ⟨3, 1, 1, 1⟩ ∧
      (getMaxIndexLoop [⟨0, 0⟩, ⟨3, 1⟩, ⟨7, 2⟩] [0, 1, 1] 0
        (loopEntry starGraph (-1)).localCinfo 2 1 2 0 (1 / 4)).maxGain = 1 ∧
      specGainAt [0, 1, 1] 0 (loopEntry starGraph (-1)).localCinfo 2 2 (1 / 4) ⟨3, 1⟩ = 3 ∧
      specGainAt [0, 1, 1] 0 (loopEntry starGraph (-1)).localCinfo 2 2 (1 / 4) ⟨7, 2⟩ = 3) ∧
    ((localTables 1 loopPairGraph.edge_indices_ loopPairGraph.edge_list_
        (loopEntry loopPairGraph (-1)).currComm).clmap = [⟨1, 0⟩, ⟨0, 1⟩] ∧
      (localTables 1 loopPairGraph.edge_indices_ loopPairGraph.edge_list_
        (loopEntry loopPairGraph (-1)).currComm).counter = [1, 1] ∧
      (localTables 1 loopPairGraph.edge_indices_ loopPairGraph.edge_list_
        (loopEntry loopPairGraph (-1)).currComm).selfLoop = 1 ∧
      initVDegree loopPairGraph 1 = 2 ∧
      (loopEntry loopPairGraph (-1)).localCinfo 1 = ⟨1, 2⟩ ∧
      initConstant loopPairGraph = 1 / 4 ∧
      (getMaxIndexLoop [⟨1, 0⟩, ⟨0, 1⟩] [1, 1] 1 (loopEntry loopPairGraph (-1)).localCinfo
        2 1 2 1 (1 / 4)).maxGain = 0 ∧
      getMaxIndex [⟨1, 0⟩, ⟨0, 1⟩] [1, 1] 1 (loopEntry loopPairGraph (-1)).localCinfo
        2 1 2 1 (1 / 4) = 1 ∧
      localTarget 1 loopPairGraph.edge_indices_ loopPairGraph.edge_list_
        (loopEntry loopPairGraph (-1)).currComm (initVDegree loopPairGraph)
        (loopEntry loopPairGraph (-1)).localCinfo (initConstant loopPairGraph) = 1 ∧
      specGainAt [1, 1] 1 (loopEntry loopPairGraph (-1)).localCinfo 2 2 (1 / 4) ⟨0, 1⟩ = 2 ∧
      specGainAt [1, 1] 1 (loopEntry loopPairGraph (-1)).localCinfo 2 (2 - 2) (1 / 4)
        ⟨0, 1⟩ = 0) := by
  decide!

/-- C18 (amended): the gain `getMaxIndex` compares for a candidate other than
the current community is
`2*(e_to_candidate - e_to_current) - 2*vDegree*(degree_candidate - degree_current)*constant`
with `e_to_candidate` the candidate's counter, `e_to_current = counter[0] - selfLoop`,
`degree_candidate` the candidate's aggregate degree and
`degree_current = currDegree - vDegree`, the aggregate degree of the current
community without the vertex itself.  The loop of `getMaxIndex` is the
iteration of `getMaxIndexStep` with these inputs; at an entry of another
community whose slot index lies below `counter_size` the step compares this
gain with `maxGain` and stores it when the entry is taken; after the loop over
a table with such slot indices `maxGain` bounds this gain of every candidate
and is either 0, with the current community kept, or this gain of the selected
candidate, which is positive.  Every table built by `buildLocalMapCounter` has
such slot indices, and the counter of an entry is the weight into its
community. -/
theorem gain_formula :
    (∀ (clmap : List clmap_t) (counter : List ℚ) (selfLoop : ℚ) (localCinfo : Int → Comm)
      (vDegree : ℚ) (currSize : Int) (currDegree : ℚ) (currComm : Int) (constant : ℚ),
      getMaxIndexLoop clmap counter selfLoop localCinfo vDegree currSize currDegree currComm
          constant =
        clmap.foldl (getMaxIndexStep counter localCinfo vDegree (getAt counter 0 0 - selfLoop)
          (currDegree - vDegree) currComm constant) ⟨currComm, 0, currSize, 0⟩) ∧
    (∀ (counter : List ℚ) (selfLoop : ℚ) (localCinfo : Int → Comm)
      (vDegree : ℚ) (currDegree : ℚ) (currComm : Int) (constant : ℚ) (st : MaxState)
      (e : clmap_t),
      currComm ≠ e.f → e.s < (counter.length : Int) →
      getMaxIndexStep counter localCinfo vDegree (getAt counter 0 0 - selfLoop)
          (currDegree - vDegree) currComm constant st e =
        if specGainAt counter selfLoop localCinfo vDegree (currDegree - vDegree) constant e >
              st.maxGain ∨
            (specGainAt counter selfLoop localCinfo vDegree (currDegree - vDegree) constant e =
                st.maxGain ∧
              specGainAt counter selfLoop localCinfo vDegree (currDegree - vDegree) constant e
                ≠ 0 ∧
              e.f < st.maxIndex) then
          ⟨e.f, specGainAt counter selfLoop localCinfo vDegree (currDegree - vDegree) constant e,
            (localCinfo e.f).size, getAt counter e.s 0⟩
        else ⟨st.maxIndex, st.maxGain, st.maxSize, getAt counter e.s 0⟩) ∧
    (∀ (clmap : List clmap_t) (counter : List ℚ) (selfLoop : ℚ) (localCinfo : Int → Comm)
      (vDegree : ℚ) (currSize : Int) (currDegree : ℚ) (currComm : Int) (constant : ℚ),
      (∀ e ∈ clmap, e.s < (counter.length : Int)) →
      (∀ e ∈ clmap, currComm ≠ e.f →
        specGainAt counter selfLoop localCinfo vDegree (currDegree - vDegree) constant e ≤
          (getMaxIndexLoop clmap counter selfLoop localCinfo vDegree currSize currDegree
            currComm constant).maxGain) ∧
      (((getMaxIndexLoop clmap counter selfLoop localCinfo vDegree currSize currDegree
            currComm constant).maxIndex = currComm ∧
          (getMaxIndexLoop clmap counter selfLoop localCinfo vDegree currSize currDegree
            currComm constant).maxGain = 0) ∨
        ∃ e ∈ clmap, currComm ≠ e.f ∧
          e.f = (getMaxIndexLoop clmap counter selfLoop localCinfo vDegree currSize
            currDegree currComm constant).maxIndex ∧
          specGainAt counter selfLoop localCinfo vDegree (currDegree - vDegree) constant e =
            (getMaxIndexLoop clmap counter selfLoop localCinfo vDegree currSize currDegree
              currComm constant).maxGain ∧
          0 < (getMaxIndexLoop clmap counter selfLoop localCinfo vDegree currSize currDegree
              currComm constant).maxGain)) ∧
    (∀ (currComm : Int → Int) (vertex : Int) (edges : List Edge),
      ∀ e ∈ (buildFrom currComm vertex edges).clmap,
        0 ≤ e.s ∧ e.s < ((buildFrom currComm vertex edges).counter.length : Int) ∧
        getAt (buildFrom currComm vertex edges).counter e.s 0 =
          weightInto currComm e.f edges) := by
  refine ⟨fun _ _ _ _ _ _ _ _ _ => rfl, ?_, ?_, fun currComm vertex edges e he =>
    buildFrom_getAt_counter currComm vertex edges e he⟩
  · intro counter selfLoop localCinfo vDegree currDegree currComm constant st e hne hs
    simp only [getMaxIndexStep, specGainAt, specGain, if_pos hne, if_pos hs]
  · intro clmap counter selfLoop localCinfo vDegree currSize currDegree currComm constant hwf
    have hG := candidateGains_wellformed counter localCinfo vDegree
      (getAt counter 0 0 - selfLoop) (currDegree - vDegree) currComm constant clmap 0 hwf
    have hinv := maxInv_loop clmap counter selfLoop localCinfo vDegree currSize currDegree
      currComm constant
    have hmem : ∀ e ∈ clmap, currComm ≠ e.f →
        (e.f, specGainAt counter selfLoop localCinfo vDegree (currDegree - vDegree)
          constant e) ∈
        gainsOf clmap counter selfLoop localCinfo vDegree currDegree currComm constant := by
      intro e he hne
      unfold gainsOf
      rw [hG]
      exact List.mem_map.2 ⟨e, List.mem_filter.2 ⟨he, by simpa using hne⟩, rfl⟩
    rcases hinv with ⟨hi, hg, _, hall⟩ | ⟨hin, hpos, _, _, hall, _⟩
    · refine ⟨fun e he hne => ?_, Or.inl ⟨hi, hg⟩⟩
      rw [hg]
      exact hall _ (hmem e he hne)
    · refine ⟨fun e he hne => hall _ (hmem e he hne), Or.inr ?_⟩
      unfold gainsOf at hin
      rw [hG] at hin
      obtain ⟨e, he, heq⟩ := List.mem_map.1 hin
      obtain ⟨he1, he2⟩ := List.mem_filter.1 he
      have h1 := congrArg Prod.fst heq
      have h2 := congrArg Prod.snd heq
      simp only at h1 h2
      exact ⟨e, he1, by simpa using he2, h1, h2, hpos⟩

/-- Witness of `gain_formula`: the table of vertex 0 of the star graph in the
initial state; the gain of both candidates is 1 and candidate 3 is selected. -/
theorem gain_formula_witness :
    getMaxIndexStep [0, 1, 1] (loopEntry starGraph (-1)).localCinfo 2
        (getAt [(0 : ℚ), 1, 1] 0 0 - 0) (2 - 2) 0 (1 / 4) ⟨0, 0, 1, 0⟩ ⟨3, 1⟩ =
      ⟨3, 1, 1, 1⟩ ∧
    specGainAt [0, 1, 1] 0 (loopEntry starGraph (-1)).localCinfo 2 (2 - 2) (1 / 4)
      ⟨3, 1⟩ = 1 ∧
    (∀ e ∈ [(⟨0, 0⟩ : clmap_t), ⟨3, 1⟩, ⟨7, 2⟩], (0 : Int) ≠ e.f →
      specGainAt [0, 1, 1] 0 (loopEntry starGraph (-1)).localCinfo 2 (2 - 2) (1 / 4) e ≤
        (getMaxIndexLoop [⟨0, 0⟩, ⟨3, 1⟩, ⟨7, 2⟩] [0, 1, 1] 0
          (loopEntry starGraph (-1)).localCinfo 2 1 2 0 (1 / 4)).maxGain) :=
  ⟨(gain_formula.2.1 [0, 1, 1] 0 (loopEntry starGraph (-1)).localCinfo 2 2 0 (1 / 4)
      ⟨0, 0, 1, 0⟩ ⟨3, 1⟩ (by decide) (by decide)).trans (by decide!),
    by decide!,
    (gain_formula.2.2.1 [⟨0, 0⟩, ⟨3, 1⟩, ⟨7, 2⟩] [0, 1, 1] 0
      (loopEntry starGraph (-1)).localCinfo 2 1 2 0 (1 / 4) (by decide)).1⟩

/-- C19, evaluated at a failing input: at vertex 1 of the graph with the edge
0-1 of weight 1/4 and a self-loop of weight 1/2 at vertex 1,
`buildLocalMapCounter` returns the self-loop weight 1/2, the integer variable
`selfLoop` of `execLouvainIteration` holds 0, and the decision is to stay in
community 1, while with the self-loop weight 1/2 `getMaxIndex` returns 0. -/
theorem selfLoop_truncated :
    edgesOf halfLoopGraph.edge_list_ (halfLoopGraph.edge_indices_ 1)
        (halfLoopGraph.edge_indices_ (1 + 1)) = [⟨1, 1 / 2⟩, ⟨0, 1 / 4⟩] ∧
    selfLoopWeight 1 [⟨1, 1 / 2⟩, ⟨0, 1 / 4⟩] = 1 / 2 ∧
    (localTables 1 halfLoopGraph.edge_indices_ halfLoopGraph.edge_list_
        (loopEntry halfLoopGraph (-1)).currComm).selfLoop = 1 / 2 ∧
    truncToElem (localTables 1 halfLoopGraph.edge_indices_ halfLoopGraph.edge_list_
        (loopEntry halfLoopGraph (-1)).currComm).selfLoop = 0 ∧
    localTarget 1 halfLoopGraph.edge_indices_ halfLoopGraph.edge_list_
        (loopEntry halfLoopGraph (-1)).currComm (initVDegree halfLoopGraph)
        (loopEntry halfLoopGraph (-1)).localCinfo (initConstant halfLoopGraph) = 1 ∧
    getMaxIndex
        (localTables 1 halfLoopGraph.edge_indices_ halfLoopGraph.edge_list_
          (loopEntry halfLoopGraph (-1)).currComm).clmap
        (localTables 1 halfLoopGraph.edge_indices_ halfLoopGraph.edge_list_
          (loopEntry halfLoopGraph (-1)).currComm).counter
        (1 / 2) (loopEntry halfLoopGraph (-1)).localCinfo (initVDegree halfLoopGraph 1)
        ((loopEntry halfLoopGraph (-1)).localCinfo 1).size
        ((loopEntry halfLoopGraph (-1)).localCinfo 1).degree 1
        (initConstant halfLoopGraph) = 0 := by
  decide!

/-! ## Claims on the edge order -/

/-- C11, as stated, fails: vertex 32 of the hub graph has 32 distinct
neighbour communities; with the edge to vertex 31 (weight 2, gain 2) listed
last that community is dropped from the full table and the target is 0, with
the same edges listed with the edge to 31 first the target is 31. -/
theorem edge_order_counterexample :
    (edgesOf (wideGraph true).edge_list_ ((wideGraph false).edge_indices_ 32)
        ((wideGraph false).edge_indices_ (32 + 1))).Perm
      (edgesOf (wideGraph false).edge_list_ ((wideGraph false).edge_indices_ 32)
        ((wideGraph false).edge_indices_ (32 + 1))) ∧
    localTarget 32 (wideGraph false).edge_indices_ (wideGraph false).edge_list_
        (loopEntry (wideGraph false) (-1)).currComm (initVDegree (wideGraph false))
        (loopEntry (wideGraph false) (-1)).localCinfo (initConstant (wideGraph false)) = 0 ∧
    localTarget 32 (wideGraph false).edge_indices_ (wideGraph true).edge_list_
        (loopEntry (wideGraph false) (-1)).currComm (initVDegree (wideGraph false))
        (loopEntry (wideGraph false) (-1)).localCinfo (initConstant (wideGraph false)) = 31 := by
  refine ⟨?_, by decide!, by decide!⟩
  have h1 : edgesOf (wideGraph true).edge_list_ ((wideGraph false).edge_indices_ 32)
      ((wideGraph false).edge_indices_ (32 + 1)) =
      (⟨31, 2⟩ : Edge) :: (List.range 31).map (fun (k : Nat) => (⟨(k : Int), 1⟩ : Edge)) := by
    decide!
  have h2 : edgesOf (wideGraph false).edge_list_ ((wideGraph false).edge_indices_ 32)
      ((wideGraph false).edge_indices_ (32 + 1)) =
      (List.range 31).map (fun (k : Nat) => (⟨(k : Int), 1⟩ : Edge)) ++ [⟨31, 2⟩] := by
    decide!
  rw [h1, h2]
  exact (List.perm_append_singleton _ _).symm

/-- C11 (amended): when the edges of vertex `i` reach at most 31 distinct
communities other than its own (no community is dropped from the table), then
for every current assignment and aggregate state and every permutation of the
vertex's edge range the target computed by `execLouvainIteration`, and all it
writes, is the same as for the original edge order. -/
theorem edge_order_independence (i : Int) (edge_indices : Int → Int)
    (edge_list edge_list' : Int → Edge) (currComm : Int → Int) (vDegree : Int → ℚ)
    (localCinfo : Int → Comm) (c : ℚ) (st : SweepState)
    (hperm : (edgesOf edge_list' (edge_indices i) (edge_indices (i + 1))).Perm
      (edgesOf edge_list (edge_indices i) (edge_indices (i + 1))))
    (hcap : (otherComms currComm (currComm i)
      (edgesOf edge_list (edge_indices i) (edge_indices (i + 1)))).toFinset.card ≤ 31) :
    localTarget i edge_indices edge_list' currComm vDegree localCinfo c =
      localTarget i edge_indices edge_list currComm vDegree localCinfo c ∧
    execLouvainIteration i edge_indices edge_list' currComm vDegree localCinfo c st =
      execLouvainIteration i edge_indices edge_list currComm vDegree localCinfo c st := by
  have hcap' : (otherComms currComm (currComm i)
      (edgesOf edge_list' (edge_indices i) (edge_indices (i + 1)))).toFinset.card ≤ 31 := by
    rw [otherComms_card_perm currComm (currComm i) _ _ hperm]; exact hcap
  have hsl : (localTables i edge_indices edge_list' currComm).selfLoop =
      (localTables i edge_indices edge_list currComm).selfLoop := by
    rw [localTables_eq_buildFrom, localTables_eq_buildFrom,
      (tableInv_buildFrom currComm i _).2.2.2.1, (tableInv_buildFrom currComm i _).2.2.2.1]
    exact selfLoopWeight_perm i _ _ hperm
  have htarget : localTarget i edge_indices edge_list' currComm vDegree localCinfo c =
      localTarget i edge_indices edge_list currComm vDegree localCinfo c := by
    unfold localTarget
    by_cases hedge : edge_indices i ≠ edge_indices (i + 1)
    · simp only [if_pos hedge]
      rw [hsl]
      apply getMaxIndex_congr_gains
      intro p
      rw [localTables_eq_buildFrom, localTables_eq_buildFrom,
        mem_gainsOf_buildFrom currComm i _ hcap', mem_gainsOf_buildFrom currComm i _ hcap]
      constructor
      · rintro ⟨f, hf, rfl⟩
        refine ⟨f, (mem_otherComms_perm currComm _ _ _ hperm f).1 hf, ?_⟩
        rw [weightInto_perm currComm f _ _ hperm, weightInto_perm currComm _ _ _ hperm]
      · rintro ⟨f, hf, rfl⟩
        refine ⟨f, (mem_otherComms_perm currComm _ _ _ hperm f).2 hf, ?_⟩
        rw [weightInto_perm currComm f _ _ hperm, weightInto_perm currComm _ _ _ hperm]
    · simp only [if_neg hedge]
  refine ⟨htarget, ?_⟩
  obtain ⟨a1, a2, a3⟩ := execLouvainIteration_eq i edge_indices edge_list' currComm vDegree
    localCinfo c st
  obtain ⟨b1, b2, b3⟩ := execLouvainIteration_eq i edge_indices edge_list currComm vDegree
    localCinfo c st
  apply sweepState_ext
  · rw [a1, b1, htarget]
  · rw [a3, b3, htarget]
  · rw [a2, b2, counter0_eq, counter0_eq, weightInto_perm currComm _ _ _ hperm]

/-- Witness of `edge_order_independence`: vertex 0 of the star graph with its
two edges listed as (7, 3) instead of (3, 7). -/
theorem edge_order_independence_witness :
    localTarget 0 starGraph.edge_indices_
        (Graph.ofLists 8 [0, 2, 2, 2, 3, 3, 3, 3, 4] [⟨7, 1⟩, ⟨3, 1⟩, ⟨0, 1⟩, ⟨0, 1⟩]).edge_list_
        (loopEntry starGraph (-1)).currComm (initVDegree starGraph)
        (loopEntry starGraph (-1)).localCinfo (initConstant starGraph) =
      localTarget 0 starGraph.edge_indices_ starGraph.edge_list_
        (loopEntry starGraph (-1)).currComm (initVDegree starGraph)
        (loopEntry starGraph (-1)).localCinfo (initConstant starGraph) ∧
    execLouvainIteration 0 starGraph.edge_indices_
        (Graph.ofLists 8 [0, 2, 2, 2, 3, 3, 3, 3, 4] [⟨7, 1⟩, ⟨3, 1⟩, ⟨0, 1⟩, ⟨0, 1⟩]).edge_list_
        (loopEntry starGraph (-1)).currComm (initVDegree starGraph)
        (loopEntry starGraph (-1)).localCinfo (initConstant starGraph)
        ⟨fun _ => 0, fun _ => Comm.zero, fun _ => 0⟩ =
      execLouvainIteration 0 starGraph.edge_indices_ starGraph.edge_list_
        (loopEntry starGraph (-1)).currComm (initVDegree starGraph)
        (loopEntry starGraph (-1)).localCinfo (initConstant starGraph)
        ⟨fun _ => 0, fun _ => Comm.zero, fun _ => 0⟩ :=
  edge_order_independence 0 starGraph.edge_indices_ starGraph.edge_list_
    (Graph.ofLists 8 [0, 2, 2, 2, 3, 3, 3, 3, 4] [⟨7, 1⟩, ⟨3, 1⟩, ⟨0, 1⟩, ⟨0, 1⟩]).edge_list_
    (loopEntry starGraph (-1)).currComm (initVDegree starGraph)
    (loopEntry starGraph (-1)).localCinfo (initConstant starGraph)
    ⟨fun _ => 0, fun _ => Comm.zero, fun _ => 0⟩
    (by
      have h1 : edgesOf
          (Graph.ofLists 8 [0, 2, 2, 2, 3, 3, 3, 3, 4]
            [⟨7, 1⟩, ⟨3, 1⟩, ⟨0, 1⟩, ⟨0, 1⟩]).edge_list_
          (starGraph.edge_indices_ 0) (starGraph.edge_indices_ (0 + 1)) =
          [⟨7, 1⟩, ⟨3, 1⟩] := by decide!
      have h2 : edgesOf starGraph.edge_list_ (starGraph.edge_indices_ 0)
          (starGraph.edge_indices_ (0 + 1)) = [⟨3, 1⟩, ⟨7, 1⟩] := by decide!
      rw [h1, h2]
      exact List.Perm.swap _ _ _)
    (by decide!)

end Louvain
